import Mathlib

/-!
Shallow embedding of the Open Location Code core of `compressed.js`
(the `OpenLocationCode` IIFE): constants, validators, encoder, decoder,
shortener and recoverer.  JavaScript numbers are modelled as exact
rationals (`ℚ`), strings as `List Char`, and thrown exceptions as
`Except String`.  Each definition mirrors the corresponding source
function statement by statement.
-/

namespace OLC

/-- A separator used to break the code into two parts (`SEPARATOR_`). -/
def SEPARATOR : Char := '+'

/-- The number of characters to place before the separator (`SEPARATOR_POSITION_`). -/
def SEPARATOR_POSITION : ℕ := 8

/-- The character used to pad codes (`PADDING_CHARACTER_`). -/
def PADDING_CHARACTER : Char := '0'

/-- The character set used to encode the values (`CODE_ALPHABET_`). -/
def CODE_ALPHABET : List Char := "23456789CFGHJMPQRVWX".toList

/-- The base to use to convert numbers to/from (`ENCODING_BASE_`). -/
def ENCODING_BASE : ℕ := CODE_ALPHABET.length

/-- The maximum value for latitude in degrees (`LATITUDE_MAX_`). -/
def LATITUDE_MAX : ℚ := 90

/-- The maximum value for longitude in degrees (`LONGITUDE_MAX_`). -/
def LONGITUDE_MAX : ℚ := 180

/-- Maximum code length using lat/lng pair encoding (`PAIR_CODE_LENGTH_`). -/
def PAIR_CODE_LENGTH : ℕ := 10

/-- The resolution values in degrees for each position in the lat/lng pair
encoding (`PAIR_RESOLUTIONS_ = [20.0, 1.0, .05, .0025, .000125]`). -/
def PAIR_RESOLUTIONS : List ℚ := [20, 1, 0.05, 0.0025, 0.000125]

/-- Number of columns in the grid refinement method (`GRID_COLUMNS_`). -/
def GRID_COLUMNS : ℕ := 4

/-- Number of rows in the grid refinement method (`GRID_ROWS_`). -/
def GRID_ROWS : ℕ := 5

/-- Size of the initial grid in degrees (`GRID_SIZE_DEGREES_`). -/
def GRID_SIZE_DEGREES : ℚ := 0.000125

/-- Minimum length of a code that can be shortened (`MIN_TRIMMABLE_CODE_LEN_`). -/
def MIN_TRIMMABLE_CODE_LEN : ℕ := 6

/-- JavaScript `String.prototype.indexOf` for a single character:
index of the first occurrence, `-1` if absent. -/
def jsIndexOf : List Char → Char → ℤ
  | [], _ => -1
  | x :: xs, c =>
    if x = c then 0
    else if jsIndexOf xs c = -1 then -1 else jsIndexOf xs c + 1

/-- JavaScript `String.prototype.lastIndexOf` for a single character:
index of the last occurrence, `-1` if absent. -/
def jsLastIndexOf : List Char → Char → ℤ
  | [], _ => -1
  | x :: xs, c =>
    if jsLastIndexOf xs c = -1 then (if x = c then 0 else -1)
    else jsLastIndexOf xs c + 1

/-- Lengths of the maximal runs of the character `c`, in order of occurrence;
models `code.match(new RegExp('(c+)', 'g'))` (mapping each match to its
length, and the empty match list to `[]`). -/
def runLengthsAux (c : Char) : List Char → ℕ → List ℕ
  | [], acc => if 0 < acc then [acc] else []
  | x :: xs, acc =>
    if x = c then runLengthsAux c xs (acc + 1)
    else if 0 < acc then acc :: runLengthsAux c xs 0
    else runLengthsAux c xs 0

/-- Run lengths of `c` in a string, first run first. -/
def runLengths (c : Char) (l : List Char) : List ℕ := runLengthsAux c l 0

/-- Remove the first maximal run of the character `c`; models
`string.replace(new RegExp('c+'), '')` (no global flag: first match only). -/
def stripFirstRun (c : Char) : List Char → List Char
  | [] => []
  | x :: xs => if x = c then xs.dropWhile (fun y => y = c) else x :: stripFirstRun c xs

/-- Remove the first occurrence of the character `c`; models
`string.replace(c, '')` with a plain (non-regexp) single-character pattern. -/
def removeFirstOcc (c : Char) : List Char → List Char
  | [] => []
  | x :: xs => if x = c then xs else x :: removeFirstOcc c xs

/-- JavaScript `String.prototype.charAt(i)` as a (0- or 1-element) string:
out-of-range indices give the empty string. -/
def jsCharAt (l : List Char) (i : ℤ) : List Char :=
  if 0 ≤ i ∧ i < l.length then [l.getD i.toNat ' '] else []

/-- `CODE_ALPHABET_.indexOf(ch)`. -/
def jsAlphaIndex (ch : Char) : ℤ := jsIndexOf CODE_ALPHABET ch

/-- `isValid`: determines if a code is a valid Open Location Code
(lines 2236-2287 of the source). -/
def isValid (code : List Char) : Bool :=
  -- `if (!code) return false;`
  if code = [] then false
  -- the separator is required
  else if jsIndexOf code SEPARATOR = -1 then false
  else if jsIndexOf code SEPARATOR ≠ jsLastIndexOf code SEPARATOR then false
  -- is it in an illegal position?
  else if jsIndexOf code SEPARATOR > (SEPARATOR_POSITION : ℤ)
       ∨ jsIndexOf code SEPARATOR % 2 = 1 then false
  -- padding characters: even-length single group, not at the start,
  -- and then the separator must be the final character
  else if jsIndexOf code PADDING_CHARACTER > -1
       ∧ (jsIndexOf code PADDING_CHARACTER = 0
          ∨ (runLengths PADDING_CHARACTER code).length > 1
          ∨ (runLengths PADDING_CHARACTER code).headD 0 % 2 = 1
          ∨ (runLengths PADDING_CHARACTER code).headD 0 > SEPARATOR_POSITION - 2
          ∨ code.getLast? ≠ some SEPARATOR) then false
  -- exactly one character after the separator is not allowed
  else if (code.length : ℤ) - jsIndexOf code SEPARATOR - 1 = 1 then false
  -- strip the separator run and the first padding run, then check the alphabet
  else (stripFirstRun PADDING_CHARACTER (stripFirstRun SEPARATOR code)).all
         (fun ch => ch.toUpper == SEPARATOR || CODE_ALPHABET.contains ch.toUpper)

/-- `isShort`: determines if a code is a valid short code
(lines 2296-2307 of the source). -/
def isShort (code : List Char) : Bool :=
  if !isValid code then false
  else if jsIndexOf code SEPARATOR ≥ 0
       ∧ jsIndexOf code SEPARATOR < (SEPARATOR_POSITION : ℤ) then true
  else false

/-- `isFull`: determines if a code is a valid full code
(lines 2318-2344 of the source). -/
def isFull (code : List Char) : Bool :=
  if !isValid code then false
  -- if it is short, it is not full
  else if isShort code then false
  else
    -- what the first latitude character indicates for latitude
    let firstLatValue : ℤ := jsAlphaIndex (code.headD ' ').toUpper * ENCODING_BASE
    if (firstLatValue : ℚ) ≥ LATITUDE_MAX * 2 then false
    else if code.length > 1 then
      -- what the first longitude character indicates for longitude
      let firstLngValue : ℤ := jsAlphaIndex (code.getD 1 ' ').toUpper * ENCODING_BASE
      if (firstLngValue : ℚ) ≥ LONGITUDE_MAX * 2 then false
      else true
    else true

/-- `clipLatitude`: clip a latitude into the range -90 to 90
(`Math.min(90, Math.max(-90, latitude))`). -/
def clipLatitude (latitude : ℚ) : ℚ := min 90 (max (-90) latitude)

/-- First loop of `normalizeLongitude`: `while (longitude < -180) longitude += 360`. -/
def normUp (longitude : ℚ) : ℚ :=
  if h : longitude < -180 then normUp (longitude + 360) else longitude
termination_by (⌈(-180 - longitude) / 360⌉).toNat
decreasing_by
  have h1 : (-180 - (longitude + 360)) / 360 = (-180 - longitude) / 360 - 1 := by ring
  have h2 : (0 : ℤ) < ⌈(-180 - longitude) / 360⌉ := by
    rw [Int.ceil_pos]
    have : (0 : ℚ) < -180 - longitude := by linarith
    positivity
  rw [h1, Int.ceil_sub_one]
  omega

/-- Second loop of `normalizeLongitude`: `while (longitude >= 180) longitude -= 360`. -/
def normDown (longitude : ℚ) : ℚ :=
  if h : longitude ≥ 180 then normDown (longitude - 360) else longitude
termination_by (⌈(longitude + 180) / 360⌉).toNat
decreasing_by
  have h1 : (longitude - 360 + 180) / 360 = (longitude + 180) / 360 - 1 := by ring
  have h2 : (0 : ℤ) < ⌈(longitude + 180) / 360⌉ := by
    rw [Int.ceil_pos]
    have : (0 : ℚ) < longitude + 180 := by linarith
    positivity
  rw [h1, Int.ceil_sub_one]
  omega

/-- `normalizeLongitude`: normalize a longitude into the range -180 to 180,
not including 180 (lines 2612-2620 of the source). -/
def normalizeLongitude (longitude : ℚ) : ℚ := normDown (normUp longitude)

/-- `computeLatitudePrecision`: the latitude precision value for a given code
length (lines 2599-2604 of the source). -/
def computeLatitudePrecision (codeLength : ℕ) : ℚ :=
  if codeLength ≤ 10 then (20 : ℚ) ^ ⌊(codeLength : ℚ) / (-2) + 2⌋
  else (20 : ℚ) ^ (-3 : ℤ) / (GRID_ROWS : ℚ) ^ (codeLength - 10)

/-- JavaScript `%` (truncating remainder) on rationals; both operands are
nonnegative at every call site, where it agrees with the floor remainder. -/
def jsMod (a b : ℚ) : ℚ := a - b * (if a / b < 0 then ⌈a / b⌉ else ⌊a / b⌋)

/-- The `while (digitCount < codeLength)` loop of `encodePairs`
(lines 2643-2662 of the source). -/
def encodePairsLoop (adjustedLatitude adjustedLongitude : ℚ)
    (digitCount codeLength : ℕ) : List Char :=
  if _h : digitCount < codeLength then
    -- the value of digits in this place, in decimal degrees
    let placeValue := PAIR_RESOLUTIONS.getD (digitCount / 2) 0
    -- the latitude digit for this place
    let latDigitValue : ℤ := ⌊adjustedLatitude / placeValue⌋
    let adjustedLatitude' := adjustedLatitude - latDigitValue * placeValue
    -- the longitude digit for this place
    let lngDigitValue : ℤ := ⌊adjustedLongitude / placeValue⌋
    let adjustedLongitude' := adjustedLongitude - lngDigitValue * placeValue
    jsCharAt CODE_ALPHABET latDigitValue ++ jsCharAt CODE_ALPHABET lngDigitValue ++
      -- should we add a separator here?
      (if digitCount + 2 = SEPARATOR_POSITION ∧ digitCount + 2 < codeLength
       then [SEPARATOR] else []) ++
      encodePairsLoop adjustedLatitude' adjustedLongitude' (digitCount + 2) codeLength
  else []
termination_by codeLength - digitCount
decreasing_by omega

/-- `encodePairs`: encode a location into a sequence of OLC lat/lng pairs
(lines 2635-2670 of the source). -/
def encodePairs (latitude longitude : ℚ) (codeLength : ℕ) : List Char :=
  let code := encodePairsLoop (latitude + LATITUDE_MAX) (longitude + LONGITUDE_MAX)
    0 codeLength
  let code :=
    if code.length < SEPARATOR_POSITION
    then code ++ List.replicate (SEPARATOR_POSITION - code.length) PADDING_CHARACTER
    else code
  if code.length = SEPARATOR_POSITION then code ++ [SEPARATOR] else code

/-- The `for` loop of `encodeGrid` (lines 2692-2701 of the source),
recursing on the number of characters still required. -/
def encodeGridLoop (adjustedLatitude adjustedLongitude latPlaceValue lngPlaceValue : ℚ) :
    ℕ → List Char
  | 0 => []
  | n + 1 =>
    let row : ℤ := ⌊adjustedLatitude / (latPlaceValue / GRID_ROWS)⌋
    let col : ℤ := ⌊adjustedLongitude / (lngPlaceValue / GRID_COLUMNS)⌋
    let latPlaceValue' := latPlaceValue / GRID_ROWS
    let lngPlaceValue' := lngPlaceValue / GRID_COLUMNS
    jsCharAt CODE_ALPHABET (row * GRID_COLUMNS + col) ++
      encodeGridLoop (adjustedLatitude - row * latPlaceValue')
        (adjustedLongitude - col * lngPlaceValue') latPlaceValue' lngPlaceValue' n

/-- `encodeGrid`: encode a location using the grid refinement method
(lines 2684-2703 of the source). -/
def encodeGrid (latitude longitude : ℚ) (codeLength : ℕ) : List Char :=
  encodeGridLoop (jsMod (latitude + LATITUDE_MAX) GRID_SIZE_DEGREES)
    (jsMod (longitude + LONGITUDE_MAX) GRID_SIZE_DEGREES)
    GRID_SIZE_DEGREES GRID_SIZE_DEGREES codeLength

/-- `encode`: encode a location into an Open Location Code
(lines 2365-2390 of the source).  The thrown
`IllegalArgumentException` string becomes an `Except.error`. -/
def encode (latitude longitude : ℚ) (codeLength : ℕ) : Except String (List Char) :=
  if codeLength < 2 ∨ (codeLength < SEPARATOR_POSITION ∧ codeLength % 2 = 1) then
    .error "IllegalArgumentException: Invalid Open Location Code length"
  else
    -- ensure that latitude and longitude are valid
    let latitude := clipLatitude latitude
    let longitude := normalizeLongitude longitude
    -- latitude 90 needs to be adjusted to be just less
    let latitude :=
      if latitude = 90 then latitude - computeLatitudePrecision codeLength else latitude
    let code := encodePairs latitude longitude (min codeLength PAIR_CODE_LENGTH)
    -- grid refined codes
    if codeLength > PAIR_CODE_LENGTH then
      .ok (code ++ encodeGrid latitude longitude (codeLength - PAIR_CODE_LENGTH))
    else .ok code

/-- Coordinates of a decoded Open Location Code (`CodeArea`,
lines 2806-2825 of the source).  The centre fields are stored because
`recoverNearest` mutates them. -/
structure CodeArea where
  latitudeLo : ℚ
  longitudeLo : ℚ
  latitudeHi : ℚ
  longitudeHi : ℚ
  codeLength : ℕ
  latitudeCenter : ℚ
  longitudeCenter : ℚ
deriving DecidableEq, Repr

/-- The `CodeArea.fn.init` constructor: stores the bounds and computes the
centre, clamped to `LATITUDE_MAX` / `LONGITUDE_MAX`. -/
def CodeArea.init (latitudeLo longitudeLo latitudeHi longitudeHi : ℚ)
    (codeLength : ℕ) : CodeArea :=
  { latitudeLo := latitudeLo
    longitudeLo := longitudeLo
    latitudeHi := latitudeHi
    longitudeHi := longitudeHi
    codeLength := codeLength
    latitudeCenter := min (latitudeLo + (latitudeHi - latitudeLo) / 2) LATITUDE_MAX
    longitudeCenter := min (longitudeLo + (longitudeHi - longitudeLo) / 2) LONGITUDE_MAX }

/-- The `while` loop of `decodePairsSequence` (lines 2747-2753 of the source):
returns the final `i` and the accumulated value. -/
def decodePairsSequenceLoop (code : List Char) (offset i : ℕ) (value : ℚ) : ℕ × ℚ :=
  if _h : i * 2 + offset < code.length then
    decodePairsSequenceLoop code offset (i + 1)
      (value + (jsAlphaIndex (code.getD (i * 2 + offset) ' ') : ℚ) *
        PAIR_RESOLUTIONS.getD i 0)
  else (i, value)
termination_by code.length - (i * 2 + offset)
decreasing_by omega

/-- `decodePairsSequence`: decode either a latitude or longitude sequence
(lines 2746-2755 of the source); returns the low and high values. -/
def decodePairsSequence (code : List Char) (offset : ℕ) : ℚ × ℚ :=
  let r := decodePairsSequenceLoop code offset 0 0
  (r.2, r.2 + PAIR_RESOLUTIONS.getD (r.1 - 1) 0)

/-- `decodePairs`: decode an OLC code made up of lat/lng pairs
(lines 2715-2727 of the source). -/
def decodePairs (code : List Char) : CodeArea :=
  let latitude := decodePairsSequence code 0
  let longitude := decodePairsSequence code 1
  CodeArea.init (latitude.1 - LATITUDE_MAX) (longitude.1 - LONGITUDE_MAX)
    (latitude.2 - LATITUDE_MAX) (longitude.2 - LONGITUDE_MAX) code.length

/-- The `while` loop of `decodeGrid` (lines 2772-2783 of the source),
walking the remaining characters. -/
def decodeGridLoop : List Char → ℚ → ℚ → ℚ → ℚ → ℚ × ℚ × ℚ × ℚ
  | [], latitudeLo, longitudeLo, latPlaceValue, lngPlaceValue =>
    (latitudeLo, longitudeLo, latPlaceValue, lngPlaceValue)
  | ch :: rest, latitudeLo, longitudeLo, latPlaceValue, lngPlaceValue =>
    let codeIndex := jsAlphaIndex ch
    let row : ℤ := ⌊(codeIndex : ℚ) / GRID_COLUMNS⌋
    let col : ℤ := Int.tmod codeIndex GRID_COLUMNS
    let latPlaceValue' := latPlaceValue / GRID_ROWS
    let lngPlaceValue' := lngPlaceValue / GRID_COLUMNS
    decodeGridLoop rest (latitudeLo + row * latPlaceValue')
      (longitudeLo + col * lngPlaceValue') latPlaceValue' lngPlaceValue'

/-- `decodeGrid`: decode the grid refinement portion of an OLC code
(lines 2766-2787 of the source). -/
def decodeGrid (code : List Char) : CodeArea :=
  let r := decodeGridLoop code 0 0 GRID_SIZE_DEGREES GRID_SIZE_DEGREES
  CodeArea.init r.1 r.2.1 (r.1 + r.2.2.1) (r.2.1 + r.2.2.2) code.length

/-- `decode`: decode an Open Location Code into a `CodeArea`
(lines 2405-2429 of the source). -/
def decode (code : List Char) : Except String CodeArea :=
  if !isFull code then
    .error "IllegalArgumentException: Passed Open Location Code is not a valid full code"
  else
    -- strip the separator, the padding characters, and upper-case
    let code := ((stripFirstRun PADDING_CHARACTER (removeFirstOcc SEPARATOR code)).map
      Char.toUpper)
    let codeArea := decodePairs (code.take PAIR_CODE_LENGTH)
    if code.length ≤ PAIR_CODE_LENGTH then .ok codeArea
    else
      let gridArea := decodeGrid (code.drop PAIR_CODE_LENGTH)
      .ok (CodeArea.init (codeArea.latitudeLo + gridArea.latitudeLo)
        (codeArea.longitudeLo + gridArea.longitudeLo)
        (codeArea.latitudeLo + gridArea.latitudeHi)
        (codeArea.longitudeLo + gridArea.longitudeHi)
        (codeArea.codeLength + gridArea.codeLength))

/-- `shorten`: remove characters from the start of an OLC code
(lines 2550-2581 of the source).  The `for (var i = PAIR_RESOLUTIONS_.length - 2;
i >= 1; i--)` loop runs `i = 3, 2, 1` and is unrolled here. -/
def shorten (code : List Char) (latitude longitude : ℚ) : Except String (List Char) :=
  if !isFull code then .error "ValueError: Passed code is not valid and full"
  else if jsIndexOf code PADDING_CHARACTER ≠ -1 then
    .error "ValueError: Cannot shorten padded codes"
  else
    let code := code.map Char.toUpper
    match decode code with
    | .error e => .error e
    | .ok codeArea =>
      if codeArea.codeLength < MIN_TRIMMABLE_CODE_LEN then
        .error "ValueError: Code length must be at least 6"
      else
        -- how close are the latitude and longitude to the code center
        let latitude := clipLatitude latitude
        let longitude := normalizeLongitude longitude
        let range := max |codeArea.latitudeCenter - latitude|
          |codeArea.longitudeCenter - longitude|
        -- i = 3
        if range < PAIR_RESOLUTIONS.getD 3 0 * 0.3 then .ok (code.drop ((3 + 1) * 2))
        -- i = 2
        else if range < PAIR_RESOLUTIONS.getD 2 0 * 0.3 then .ok (code.drop ((2 + 1) * 2))
        -- i = 1
        else if range < PAIR_RESOLUTIONS.getD 1 0 * 0.3 then .ok (code.drop ((1 + 1) * 2))
        else .ok code

/-- `recoverNearest`: recover the nearest matching full code to a location
(lines 2466-2521 of the source). -/
def recoverNearest (shortCode : List Char)
    (referenceLatitude referenceLongitude : ℚ) : Except String (List Char) :=
  if !isShort shortCode then
    if isFull shortCode then .ok shortCode
    else .error "ValueError: Passed short code is not valid"
  else
    -- ensure that latitude and longitude are valid
    let referenceLatitude := clipLatitude referenceLatitude
    let referenceLongitude := normalizeLongitude referenceLongitude
    -- clean up the passed code
    let shortCode := shortCode.map Char.toUpper
    -- the number of digits we need to recover
    let paddingLength : ℕ := SEPARATOR_POSITION - (jsIndexOf shortCode SEPARATOR).toNat
    -- the resolution of the padded area in degrees; the padding length is
    -- always even here, so the integer division by 2 is exact
    let resolution : ℚ := (20 : ℚ) ^ (2 - (paddingLength : ℤ) / 2)
    -- distance from the center to an edge in degrees
    let areaToEdge : ℚ := resolution / 2
    -- round down the reference to the resolution
    let roundedLatitude := ⌊referenceLatitude / resolution⌋ * resolution
    let roundedLongitude := ⌊referenceLongitude / resolution⌋ * resolution
    -- pad the supplied short code with the reference and decode it
    match encode roundedLatitude roundedLongitude PAIR_CODE_LENGTH with
    | .error e => .error e
    | .ok full =>
      match decode (full.take paddingLength ++ shortCode) with
      | .error e => .error e
      | .ok codeArea =>
        -- move the latitude by one cell if more than half a cell away
        let latitudeCenter :=
          if codeArea.latitudeCenter - referenceLatitude > areaToEdge then
            codeArea.latitudeCenter - resolution
          else if codeArea.latitudeCenter - referenceLatitude < -areaToEdge then
            codeArea.latitudeCenter + resolution
          else codeArea.latitudeCenter
        -- move the longitude by one cell if more than half a cell away
        let longitudeCenter :=
          if codeArea.longitudeCenter - referenceLongitude > areaToEdge then
            codeArea.longitudeCenter - resolution
          else if codeArea.longitudeCenter - referenceLongitude < -areaToEdge then
            codeArea.longitudeCenter + resolution
          else codeArea.longitudeCenter
        encode latitudeCenter longitudeCenter codeArea.codeLength

/-! ### Facts about the constants -/

/-- Abbreviation for the pair resolution at index `j`. -/
def PR (j : ℕ) : ℚ := PAIR_RESOLUTIONS.getD j 0

lemma PR_step {j : ℕ} (hj : j ≤ 3) : PR j = 20 * PR (j + 1) := by
  interval_cases j <;> norm_num [PR, PAIR_RESOLUTIONS]

lemma PR_pos {j : ℕ} (hj : j ≤ 4) : 0 < PR j := by
  interval_cases j <;> norm_num [PR, PAIR_RESOLUTIONS]

lemma CODE_ALPHABET_length : CODE_ALPHABET.length = 20 := by decide

lemma CODE_ALPHABET_nodup : CODE_ALPHABET.Nodup := by decide

lemma sep_not_mem_alphabet : SEPARATOR ∉ CODE_ALPHABET := by decide

lemma pad_not_mem_alphabet : PADDING_CHARACTER ∉ CODE_ALPHABET := by decide

lemma alphabet_toUpper_fixed {ch : Char} (h : ch ∈ CODE_ALPHABET) :
    ch.toUpper = ch := by
  fin_cases h <;> decide

/-! ### Facts about the string primitives -/

lemma jsIndexOf_ge_neg_one (l : List Char) (c : Char) : -1 ≤ jsIndexOf l c := by
  induction l with
  | nil => simp [jsIndexOf]
  | cons x xs ih =>
    simp only [jsIndexOf]
    split_ifs <;> omega

lemma jsIndexOf_eq_neg_one {l : List Char} {c : Char} :
    jsIndexOf l c = -1 ↔ c ∉ l := by
  induction l with
  | nil => simp [jsIndexOf]
  | cons x xs ih =>
    have hge := jsIndexOf_ge_neg_one xs c
    simp only [jsIndexOf]
    split_ifs with h1 h2
    · subst h1; simp
    · constructor
      · intro _
        rw [List.mem_cons]
        push_neg
        exact ⟨fun hh => h1 hh.symm, ih.mp h2⟩
      · intro _; rfl
    · constructor
      · intro hh; omega
      · intro hh
        exfalso
        have hcc : c ∈ xs := by
          by_contra hc
          exact h2 (ih.mpr hc)
        exact hh (List.mem_cons_of_mem x hcc)

lemma jsIndexOf_nonneg {l : List Char} {c : Char} (h : c ∈ l) :
    0 ≤ jsIndexOf l c := by
  have h1 := jsIndexOf_ge_neg_one l c
  have h2 : jsIndexOf l c ≠ -1 := by
    rw [Ne, jsIndexOf_eq_neg_one]
    exact fun hh => hh h
  omega

lemma jsIndexOf_lt_length {l : List Char} {c : Char} (h : c ∈ l) :
    jsIndexOf l c < l.length := by
  induction l with
  | nil => simp at h
  | cons x xs ih =>
    simp only [jsIndexOf, List.length_cons]
    split_ifs with h1 h2
    · push_cast; omega
    · push_cast; omega
    · have hc : c ∈ xs := by
        by_contra hc
        exact h2 (jsIndexOf_eq_neg_one.mpr hc)
      have := ih hc
      push_cast
      omega

lemma getD_jsIndexOf {l : List Char} {c : Char} (h : c ∈ l) (d : Char) :
    l.getD (jsIndexOf l c).toNat d = c := by
  induction l with
  | nil => simp at h
  | cons x xs ih =>
    by_cases h1 : x = c
    · simp [jsIndexOf, h1]
    · have hc : c ∈ xs := by
        rcases List.mem_cons.mp h with hh | hh
        · exact absurd hh.symm h1
        · exact hh
      have hne : jsIndexOf xs c ≠ -1 := by
        rw [Ne, jsIndexOf_eq_neg_one]; exact fun hh => hh hc
      have h0 := jsIndexOf_nonneg hc
      simp only [jsIndexOf, if_neg h1, if_neg hne]
      have h2 : (jsIndexOf xs c + 1).toNat = (jsIndexOf xs c).toNat + 1 := by omega
      rw [h2]
      simpa using ih hc

lemma jsIndexOf_append_left {l₁ l₂ : List Char} {c : Char} (h : c ∈ l₁) :
    jsIndexOf (l₁ ++ l₂) c = jsIndexOf l₁ c := by
  induction l₁ with
  | nil => simp at h
  | cons x xs ih =>
    by_cases h1 : x = c
    · simp [jsIndexOf, h1]
    · have hc : c ∈ xs := by
        rcases List.mem_cons.mp h with hh | hh
        · exact absurd hh.symm h1
        · exact hh
      have hne : jsIndexOf xs c ≠ -1 := by
        rw [Ne, jsIndexOf_eq_neg_one]; exact fun hh => hh hc
      have hne2 : jsIndexOf (xs ++ l₂) c ≠ -1 := by
        rw [Ne, jsIndexOf_eq_neg_one]
        simp [hc]
      rw [List.cons_append]
      simp only [jsIndexOf, if_neg h1, if_neg hne, if_neg hne2, ih hc]

lemma jsIndexOf_append_right {l₁ l₂ : List Char} {c : Char} (h : c ∉ l₁) (h₂ : c ∈ l₂) :
    jsIndexOf (l₁ ++ l₂) c = l₁.length + jsIndexOf l₂ c := by
  induction l₁ with
  | nil => simp
  | cons x xs ih =>
    have h1 : x ≠ c := fun hh => h (by simp [hh])
    have hc : c ∉ xs := fun hh => h (by simp [hh])
    have hne : jsIndexOf (xs ++ l₂) c ≠ -1 := by
      rw [Ne, jsIndexOf_eq_neg_one]
      simp [h₂]
    rw [List.cons_append]
    simp only [jsIndexOf, if_neg h1]
    rw [if_neg hne, ih hc]
    push_cast [List.length_cons]
    ring

lemma jsLastIndexOf_ge_neg_one (l : List Char) (c : Char) : -1 ≤ jsLastIndexOf l c := by
  induction l with
  | nil => simp [jsLastIndexOf]
  | cons x xs ih =>
    simp only [jsLastIndexOf]
    split_ifs <;> omega

lemma jsLastIndexOf_eq_neg_one {l : List Char} {c : Char} :
    jsLastIndexOf l c = -1 ↔ c ∉ l := by
  induction l with
  | nil => simp [jsLastIndexOf]
  | cons x xs ih =>
    have hge := jsLastIndexOf_ge_neg_one xs c
    simp only [jsLastIndexOf, List.mem_cons]
    split_ifs with h1 h2
    · subst h2
      constructor
      · intro hh; exact absurd hh (by norm_num)
      · intro hh; exact absurd (Or.inl rfl) hh
    · constructor
      · intro _
        push_neg
        exact ⟨fun hh => h2 hh.symm, ih.mp h1⟩
      · intro _; rfl
    · constructor
      · intro hh; omega
      · intro hh
        push_neg at hh
        exact absurd (ih.mpr hh.2) h1

lemma jsLastIndexOf_not_mem {l : List Char} {c : Char} (h : c ∉ l) :
    jsLastIndexOf l c = -1 := jsLastIndexOf_eq_neg_one.mpr h

lemma jsLastIndexOf_append_right {l₁ l₂ : List Char} {c : Char} (h₂ : c ∈ l₂) :
    jsLastIndexOf (l₁ ++ l₂) c = l₁.length + jsLastIndexOf l₂ c := by
  induction l₁ with
  | nil => simp
  | cons x xs ih =>
    have hne : jsLastIndexOf (xs ++ l₂) c ≠ -1 := by
      rw [Ne, jsLastIndexOf_eq_neg_one]
      simp [h₂]
    rw [List.cons_append]
    show (if jsLastIndexOf (xs ++ l₂) c = -1 then (if x = c then 0 else -1)
      else jsLastIndexOf (xs ++ l₂) c + 1) = _
    rw [if_neg hne, ih]
    push_cast [List.length_cons]
    ring

lemma runLengthsAux_not_mem {l rest : List Char} {c : Char} (h : c ∉ l) :
    runLengthsAux c (l ++ rest) 0 = runLengthsAux c rest 0 := by
  induction l with
  | nil => simp
  | cons x xs ih =>
    have hx : x ≠ c := fun hh => h (by simp [hh])
    have hc : c ∉ xs := fun hh => h (by simp [hh])
    rw [List.cons_append]
    simp only [runLengthsAux, if_neg hx]
    simpa using ih hc

lemma runLengthsAux_replicate {rest : List Char} {c : Char} (p acc : ℕ) :
    runLengthsAux c (List.replicate p c ++ rest) acc = runLengthsAux c rest (acc + p) := by
  induction p generalizing acc with
  | zero => simp
  | succ q ih =>
    rw [List.replicate_succ, List.cons_append]
    have heq : runLengthsAux c (c :: (List.replicate q c ++ rest)) acc
        = runLengthsAux c (List.replicate q c ++ rest) (acc + 1) := by
      simp [runLengthsAux]
    rw [heq, ih]
    have harith : acc + 1 + q = acc + (q + 1) := by omega
    rw [harith]

lemma runLengthsAux_flush {rest : List Char} {c x : Char} {acc : ℕ}
    (hx : x ≠ c) (hacc : 0 < acc) :
    runLengthsAux c (x :: rest) acc = acc :: runLengthsAux c rest 0 := by
  simp [runLengthsAux, hx, hacc]

lemma runLengthsAux_eq_nil {l : List Char} {c : Char} {acc : ℕ} :
    runLengthsAux c l acc = [] ↔ c ∉ l ∧ acc = 0 := by
  induction l generalizing acc with
  | nil =>
    rcases Nat.eq_zero_or_pos acc with h | h
    · subst h
      simp [runLengthsAux]
    · have heq : runLengthsAux c [] acc = [acc] := by simp [runLengthsAux, h]
      rw [heq]
      constructor
      · intro hh; simp at hh
      · intro hh; exact absurd hh.2 (by omega)
  | cons x xs ih =>
    by_cases hx : x = c
    · have heq : runLengthsAux c (x :: xs) acc = runLengthsAux c xs (acc + 1) := by
        simp [runLengthsAux, hx]
      rw [heq, ih]
      constructor
      · intro hh; exact absurd hh.2 (by omega)
      · intro hh
        have hmem : c ∈ x :: xs := by rw [← hx]; exact List.mem_cons_self x xs
        exact absurd hmem hh.1
    · by_cases hacc : 0 < acc
      · rw [runLengthsAux_flush hx hacc]
        constructor
        · intro hh; simp at hh
        · intro hh; exact absurd hh.2 (by omega)
      · have h0 : acc = 0 := by omega
        subst h0
        have heq : runLengthsAux c (x :: xs) 0 = runLengthsAux c xs 0 := by
          simp [runLengthsAux, hx]
        rw [heq, ih]
        constructor
        · rintro ⟨h1, -⟩
          refine ⟨?_, rfl⟩
          rw [List.mem_cons]
          push_neg
          exact ⟨fun h2 => hx h2.symm, h1⟩
        · rintro ⟨h1, -⟩
          exact ⟨fun h2 => h1 (List.mem_cons_of_mem x h2), rfl⟩

lemma runLengths_eq_nil {l : List Char} {c : Char} :
    runLengths c l = [] ↔ c ∉ l := by
  rw [runLengths, runLengthsAux_eq_nil]
  simp

lemma runLengths_structured {a b : List Char} {c : Char} {p : ℕ}
    (ha : c ∉ a) (hp : 0 < p) (hb : ∀ y ∈ b.head?, y ≠ c) :
    runLengths c (a ++ List.replicate p c ++ b) = p :: runLengths c b := by
  rw [runLengths, List.append_assoc, runLengthsAux_not_mem ha, runLengthsAux_replicate]
  cases b with
  | nil => simp [runLengths, runLengthsAux, hp]
  | cons y ys =>
    have hy : y ≠ c := hb y (by simp)
    rw [runLengthsAux_flush hy (by omega)]
    have h2 : runLengths c (y :: ys) = runLengthsAux c ys 0 := by
      simp [runLengths, runLengthsAux, hy]
    rw [h2]
    congr 1
    omega

/-- Leading-run decomposition: any list is a (possibly empty) run of `c`
followed by a list not starting with `c`. -/
lemma exists_leading_run (c : Char) (l : List Char) :
    ∃ p b, l = List.replicate p c ++ b ∧ (∀ y ∈ b.head?, y ≠ c) := by
  induction l with
  | nil => exact ⟨0, [], by simp, by simp⟩
  | cons x xs ih =>
    obtain ⟨p, b, hl, hb⟩ := ih
    by_cases hx : x = c
    · subst hx
      exact ⟨p + 1, b, by simp [hl, List.replicate_succ], hb⟩
    · exact ⟨0, x :: xs, by simp, by simpa using hx⟩

/-- First-run decomposition of a list containing `c`. -/
lemma exists_first_run {l : List Char} {c : Char} (h : c ∈ l) :
    ∃ a p b, l = a ++ List.replicate p c ++ b ∧ c ∉ a ∧ 0 < p ∧
      (∀ y ∈ b.head?, y ≠ c) := by
  induction l with
  | nil => simp at h
  | cons x xs ih =>
    by_cases hx : x = c
    · subst hx
      obtain ⟨p, b, hl, hb⟩ := exists_leading_run x (x :: xs)
      have hp : 0 < p := by
        rcases Nat.eq_zero_or_pos p with h0 | h0
        · subst h0
          simp only [List.replicate_zero, List.nil_append] at hl
          have hhead : b.head? = some x := by rw [← hl]; rfl
          exact absurd rfl (hb x hhead)
        · exact h0
      exact ⟨[], p, b, by simpa using hl, by simp, hp, hb⟩
    · have hc : c ∈ xs := by
        rcases List.mem_cons.mp h with hh | hh
        · exact absurd hh.symm hx
        · exact hh
      obtain ⟨a, p, b, hl, ha, hp, hb⟩ := ih hc
      exact ⟨x :: a, p, b, by simp [hl], by
        simp only [List.mem_cons]
        push_neg
        exact ⟨fun hh => hx hh.symm, ha⟩, hp, hb⟩

lemma dropWhile_eq_c_replicate_append {b : List Char} {c : Char} (q : ℕ)
    (hb : ∀ y ∈ b.head?, y ≠ c) :
    (List.replicate q c ++ b).dropWhile (fun y => y = c) = b := by
  induction q with
  | zero =>
    simp only [List.replicate_zero, List.nil_append]
    cases b with
    | nil => rfl
    | cons y ys =>
      have := hb y (by simp)
      simp [List.dropWhile_cons, this]
  | succ r ih =>
    rw [List.replicate_succ, List.cons_append]
    simpa [List.dropWhile_cons] using ih

lemma stripFirstRun_not_mem {l : List Char} {c : Char} (h : c ∉ l) :
    stripFirstRun c l = l := by
  induction l with
  | nil => rfl
  | cons x xs ih =>
    have hx : x ≠ c := fun hh => h (by simp [hh])
    have hc : c ∉ xs := fun hh => h (by simp [hh])
    simp [stripFirstRun, hx, ih hc]

lemma stripFirstRun_structured {a b : List Char} {c : Char} {p : ℕ}
    (ha : c ∉ a) (hp : 0 < p) (hb : ∀ y ∈ b.head?, y ≠ c) :
    stripFirstRun c (a ++ List.replicate p c ++ b) = a ++ b := by
  induction a with
  | nil =>
    obtain ⟨q, rfl⟩ : ∃ q, p = q + 1 := ⟨p - 1, by omega⟩
    rw [List.nil_append, List.replicate_succ, List.cons_append]
    simp only [stripFirstRun, if_pos rfl]
    simpa using dropWhile_eq_c_replicate_append q hb
  | cons x xs ih =>
    have hx : x ≠ c := fun hh => ha (by simp [hh])
    have hc : c ∉ xs := fun hh => ha (by simp [hh])
    simp only [List.cons_append, stripFirstRun, if_neg hx]
    congr 1
    exact ih hc

lemma removeFirstOcc_not_mem {l : List Char} {c : Char} (h : c ∉ l) :
    removeFirstOcc c l = l := by
  induction l with
  | nil => rfl
  | cons x xs ih =>
    have hx : x ≠ c := fun hh => h (by simp [hh])
    have hc : c ∉ xs := fun hh => h (by simp [hh])
    simp [removeFirstOcc, hx, ih hc]

lemma removeFirstOcc_append {a rest : List Char} {c : Char} (ha : c ∉ a) :
    removeFirstOcc c (a ++ c :: rest) = a ++ rest := by
  induction a with
  | nil => simp [removeFirstOcc]
  | cons x xs ih =>
    have hx : x ≠ c := fun hh => ha (by simp [hh])
    have hc : c ∉ xs := fun hh => ha (by simp [hh])
    simp [removeFirstOcc, hx, ih hc]

lemma mem_dropWhile_or {l : List Char} {c x : Char} (h : x ∈ l) :
    x ∈ l.dropWhile (fun y => y = c) ∨ x = c := by
  induction l with
  | nil => simp at h
  | cons z zs ih =>
    by_cases hz : z = c
    · rcases List.mem_cons.mp h with hh | hh
      · exact Or.inr (hh.trans hz)
      · rcases ih hh with h1 | h1
        · left
          simpa [List.dropWhile_cons, hz] using h1
        · exact Or.inr h1
    · left
      simpa [List.dropWhile_cons, hz] using h

lemma mem_stripFirstRun_or {l : List Char} {c x : Char} (h : x ∈ l) :
    x ∈ stripFirstRun c l ∨ x = c := by
  induction l with
  | nil => simp at h
  | cons y ys ih =>
    by_cases hy : y = c
    · rcases List.mem_cons.mp h with hh | hh
      · exact Or.inr (hh.trans hy)
      · rcases mem_dropWhile_or (c := c) hh with h1 | h1
        · left
          simp only [stripFirstRun, if_pos hy]
          exact h1
        · exact Or.inr h1
    · rcases List.mem_cons.mp h with hh | hh
      · left
        subst hh
        simp [stripFirstRun, hy]
      · rcases ih hh with h1 | h1
        · left
          simp only [stripFirstRun, if_neg hy, List.mem_cons]
          exact Or.inr h1
        · exact Or.inr h1

/-! ### Alphabet digit/character round trips -/

lemma getD_mem_of_lt {α : Type} {l : List α} {n : ℕ} (h : n < l.length) (d : α) :
    l.getD n d ∈ l := by
  rw [List.getD_eq_getElem l d h]
  exact List.getElem_mem h

lemma getD_mem_alphabet {i : ℕ} (hi : i < 20) :
    CODE_ALPHABET.getD i ' ' ∈ CODE_ALPHABET :=
  getD_mem_of_lt (by rw [CODE_ALPHABET_length]; exact hi) ' '


lemma jsIndexOf_getD_nodup {l : List Char} (h : l.Nodup) :
    ∀ {i : ℕ}, i < l.length → ∀ d, jsIndexOf l (l.getD i d) = i := by
  induction l with
  | nil => intro i hi; simp at hi
  | cons x xs ih =>
    intro i hi d
    cases i with
    | zero => simp [jsIndexOf]
    | succ j =>
      have hj : j < xs.length := by simpa using hi
      have hmem : xs.getD j d ∈ xs := getD_mem_of_lt hj d
      have hx : x ≠ xs.getD j d := by
        intro hh
        exact (List.nodup_cons.mp h).1 (hh ▸ hmem)
      have hne : jsIndexOf xs (xs.getD j d) ≠ -1 := by
        rw [Ne, jsIndexOf_eq_neg_one]
        exact fun hh => hh hmem
      have := ih (List.nodup_cons.mp h).2 hj d
      simp only [List.getD_cons_succ, jsIndexOf, if_neg hx, if_neg hne, this]
      push_cast
      ring

lemma jsAlphaIndex_getD {v : ℤ} (h0 : 0 ≤ v) (h1 : v < 20) :
    jsAlphaIndex (CODE_ALPHABET.getD v.toNat ' ') = v := by
  rw [jsAlphaIndex, jsIndexOf_getD_nodup CODE_ALPHABET_nodup
    (by rw [CODE_ALPHABET_length]; omega) ' ']
  omega

lemma jsAlphaIndex_mem_range {ch : Char} (h : ch ∈ CODE_ALPHABET) :
    0 ≤ jsAlphaIndex ch ∧ jsAlphaIndex ch < 20 := by
  refine ⟨jsIndexOf_nonneg h, ?_⟩
  have := jsIndexOf_lt_length h
  rwa [CODE_ALPHABET_length] at this

lemma getD_jsAlphaIndex {ch : Char} (h : ch ∈ CODE_ALPHABET) :
    CODE_ALPHABET.getD (jsAlphaIndex ch).toNat ' ' = ch :=
  getD_jsIndexOf h ' '

/-! ### Digit sequences and their values -/

/-- All digit values are in the alphabet range. -/
def digitsOK (ds : List ℤ) : Prop := ∀ d ∈ ds, 0 ≤ d ∧ d < 20

/-- Value of a latitude (or longitude) digit sequence whose first digit sits
at pair-resolution index `j`. -/
def pairSeqValue : List ℤ → ℕ → ℚ
  | [], _ => 0
  | d :: ds, j => d * PR j + pairSeqValue ds (j + 1)

lemma pairSeqValue_nonneg {ds : List ℤ} (h : digitsOK ds) :
    ∀ j, j + ds.length ≤ 5 → 0 ≤ pairSeqValue ds j := by
  induction ds with
  | nil => intro j _; simp [pairSeqValue]
  | cons d ds ih =>
    intro j hj
    have hd := h d (by simp)
    have hds : digitsOK ds := fun e he => h e (by simp [he])
    have h1 : 0 ≤ pairSeqValue ds (j + 1) := by
      apply ih hds
      simp at hj
      omega
    have hpr : 0 < PR j := PR_pos (by simp at hj; omega)
    have : (0 : ℚ) ≤ d * PR j := by
      apply mul_nonneg _ (le_of_lt hpr)
      exact_mod_cast hd.1
    simp only [pairSeqValue]
    linarith

/-- The tail of a digit sequence plus a sub-resolution remainder stays below
one cell of the previous resolution. -/
lemma pairSeqValue_tail_lt {ds : List ℤ} (h : digitsOK ds) :
    ∀ j r, j + ds.length ≤ 4 → 0 ≤ r → r < PR (j + ds.length) →
    pairSeqValue ds (j + 1) + r < PR j := by
  induction ds with
  | nil =>
    intro j r hj hr0 hr
    simpa [pairSeqValue] using hr
  | cons d ds ih =>
    intro j r hj hr0 hr
    have hd := h d (by simp)
    have hds : digitsOK ds := fun e he => h e (by simp [he])
    simp only [List.length_cons] at hj
    have hlen : (j + 1) + ds.length ≤ 4 := by omega
    have hr2 : r < PR ((j + 1) + ds.length) := by
      have harith : (j + 1) + ds.length = j + (ds.length + 1) := by omega
      rw [harith]
      exact hr
    have h1 : pairSeqValue ds (j + 1 + 1) + r < PR (j + 1) := ih hds (j + 1) r hlen hr0 hr2
    have hpr1 : 0 < PR (j + 1) := PR_pos (by omega)
    have hstep : PR j = 20 * PR (j + 1) := PR_step (by omega)
    have hd20 : (d : ℚ) ≤ 19 := by exact_mod_cast (by omega : d ≤ 19)
    simp only [pairSeqValue]
    have : (d : ℚ) * PR (j + 1) ≤ 19 * PR (j + 1) := by
      apply mul_le_mul_of_nonneg_right hd20 (le_of_lt hpr1)
    linarith

/-- Floor extraction: if `x = d * p + r` with `0 ≤ r < p` then the integer
division of `x` by `p` recovers `d`. -/
lemma floor_div_extract {x p : ℚ} {d : ℤ} {r : ℚ} (hp : 0 < p)
    (hx : x = d * p + r) (hr0 : 0 ≤ r) (hr : r < p) : ⌊x / p⌋ = d := by
  have hdiv : x / p = d + r / p := by
    rw [hx]
    field_simp
  rw [hdiv, Int.floor_eq_iff]
  constructor
  · have : 0 ≤ r / p := div_nonneg hr0 (le_of_lt hp)
    linarith
  · have : r / p < 1 := (div_lt_one hp).mpr hr
    linarith

/-- Basic floor-remainder facts for a positive cell size. -/
lemma floor_rem_bounds {x p : ℚ} (hp : 0 < p) (hx : 0 ≤ x) :
    0 ≤ ⌊x / p⌋ ∧ 0 ≤ x - ⌊x / p⌋ * p ∧ x - ⌊x / p⌋ * p < p := by
  refine ⟨Int.floor_nonneg.mpr (div_nonneg hx (le_of_lt hp)), ?_, ?_⟩
  · have h1 : (⌊x / p⌋ : ℚ) ≤ x / p := Int.floor_le _
    have h2 : (⌊x / p⌋ : ℚ) * p ≤ x / p * p := mul_le_mul_of_nonneg_right h1 (le_of_lt hp)
    rw [div_mul_cancel₀ x (ne_of_gt hp)] at h2
    linarith
  · have h1 : x / p < ⌊x / p⌋ + 1 := Int.lt_floor_add_one _
    have h2 : x / p * p < (⌊x / p⌋ + 1) * p :=
      mul_lt_mul_of_pos_right h1 hp
    rw [div_mul_cancel₀ x (ne_of_gt hp)] at h2
    linarith

lemma floor_lt_of_lt_mul {x p : ℚ} {n : ℤ} (hp : 0 < p) (hx : x < n * p) :
    ⌊x / p⌋ < n := by
  rw [Int.floor_lt]
  rw [div_lt_iff₀ hp]
  exact_mod_cast hx

/-- The character (as a 1-element string) of an in-range digit value. -/
lemma jsCharAt_alphabet {v : ℤ} (h0 : 0 ≤ v) (h1 : v < 20) :
    jsCharAt CODE_ALPHABET v = [CODE_ALPHABET.getD v.toNat ' '] := by
  rw [jsCharAt, if_pos]
  constructor
  · exact h0
  · rw [CODE_ALPHABET_length]
    exact_mod_cast h1

/-- Interleave two equal-length strings, first list first. -/
def interleave : List Char → List Char → List Char
  | x :: xs, y :: ys => x :: y :: interleave xs ys
  | _, _ => []

lemma interleave_length {A B : List Char} (h : A.length = B.length) :
    (interleave A B).length = 2 * A.length := by
  induction A generalizing B with
  | nil =>
    cases B with
    | nil => simp [interleave]
    | cons y ys => simp at h
  | cons x xs ih =>
    cases B with
    | nil => simp at h
    | cons y ys =>
      simp only [List.length_cons] at h
      have h2 : xs.length = ys.length := by omega
      simp only [interleave, List.length_cons, ih h2]
      ring

lemma interleave_getD_even {A B : List Char} (h : A.length = B.length) :
    ∀ (i : ℕ) (d : Char), (interleave A B).getD (2 * i) d = A.getD i d := by
  induction A generalizing B with
  | nil =>
    intro i d
    cases B with
    | nil => simp [interleave]
    | cons y ys => simp at h
  | cons x xs ih =>
    intro i d
    cases B with
    | nil => simp at h
    | cons y ys =>
      simp only [List.length_cons] at h
      cases i with
      | zero => simp [interleave]
      | succ i2 =>
        have harith : 2 * (i2 + 1) = (2 * i2) + 1 + 1 := by omega
        simp only [interleave, harith, List.getD_cons_succ]
        exact ih (by omega) i2 d

lemma interleave_getD_odd {A B : List Char} (h : A.length = B.length) :
    ∀ (i : ℕ) (d : Char), (interleave A B).getD (2 * i + 1) d = B.getD i d := by
  induction A generalizing B with
  | nil =>
    intro i d
    cases B with
    | nil => simp [interleave]
    | cons y ys => simp at h
  | cons x xs ih =>
    intro i d
    cases B with
    | nil => simp at h
    | cons y ys =>
      simp only [List.length_cons] at h
      cases i with
      | zero => simp [interleave]
      | succ i2 =>
        have harith : 2 * (i2 + 1) + 1 = (2 * i2 + 1) + 1 + 1 := by omega
        simp only [interleave, harith, List.getD_cons_succ]
        exact ih (by omega) i2 d

lemma interleave_append {A B C D : List Char} (h : A.length = B.length) :
    interleave (A ++ C) (B ++ D) = interleave A B ++ interleave C D := by
  induction A generalizing B with
  | nil => cases B <;> simp_all [interleave]
  | cons x xs ih =>
    cases B with
    | nil => simp at h
    | cons y ys =>
      simp only [List.length_cons] at h
      have h2 : xs.length = ys.length := by omega
      simp [interleave, ih h2]

lemma PR_def (j : ℕ) : PAIR_RESOLUTIONS.getD j 0 = PR j := rfl

/-- One unfolding step of the `encodePairs` loop. -/
lemma encodePairsLoop_step {la ln : ℚ} {dc cl : ℕ} (h : dc < cl) :
    encodePairsLoop la ln dc cl =
      jsCharAt CODE_ALPHABET ⌊la / PAIR_RESOLUTIONS.getD (dc / 2) 0⌋ ++
      jsCharAt CODE_ALPHABET ⌊ln / PAIR_RESOLUTIONS.getD (dc / 2) 0⌋ ++
      (if dc + 2 = SEPARATOR_POSITION ∧ dc + 2 < cl then [SEPARATOR] else []) ++
      encodePairsLoop
        (la - ⌊la / PAIR_RESOLUTIONS.getD (dc / 2) 0⌋ * PAIR_RESOLUTIONS.getD (dc / 2) 0)
        (ln - ⌊ln / PAIR_RESOLUTIONS.getD (dc / 2) 0⌋ * PAIR_RESOLUTIONS.getD (dc / 2) 0)
        (dc + 2) cl := by
  rw [encodePairsLoop]
  rw [dif_pos h]

/-- The `encodePairs` loop stops when all digits are produced. -/
lemma encodePairsLoop_end {la ln : ℚ} {dc cl : ℕ} (h : ¬dc < cl) :
    encodePairsLoop la ln dc cl = [] := by
  rw [encodePairsLoop]
  rw [dif_neg h]

/-- The characters produced by the `encodePairs` loop, as a function of the
digit values of the two axes; `j` is the pair index and `cl` the requested
code length. -/
def pairChars : ℕ → ℕ → List ℤ → List ℤ → List Char
  | j, cl, a :: dl, b :: dn =>
    jsCharAt CODE_ALPHABET a ++ jsCharAt CODE_ALPHABET b ++
      (if 2 * j + 2 = SEPARATOR_POSITION ∧ 2 * j + 2 < cl then [SEPARATOR] else []) ++
      pairChars (j + 1) cl dl dn
  | _, _, _, _ => []

/-- Main extraction lemma: running the `encodePairs` loop on nonnegative
in-range coordinates produces the base-20 digit expansion of each axis,
leaving remainders below the last pair resolution. -/
lemma encodePairsLoop_extract :
    ∀ (t j : ℕ) (la ln : ℚ), j + t ≤ 5 → 0 ≤ la → 0 ≤ ln →
    (0 < t → la < 20 * PR j ∧ ln < 20 * PR j) →
    ∃ dl dn : List ℤ, ∃ rl rn : ℚ,
      dl.length = t ∧ dn.length = t ∧ digitsOK dl ∧ digitsOK dn ∧
      la = pairSeqValue dl j + rl ∧ ln = pairSeqValue dn j + rn ∧
      0 ≤ rl ∧ 0 ≤ rn ∧
      (0 < t → rl < PR (j + t - 1) ∧ rn < PR (j + t - 1)) ∧
      (t = 0 → rl = la ∧ rn = ln) ∧
      encodePairsLoop la ln (2 * j) (2 * (j + t)) = pairChars j (2 * (j + t)) dl dn := by
  intro t
  induction t with
  | zero =>
    intro j la ln hj5 hla0 hln0 _
    refine ⟨[], [], la, ln, rfl, rfl, ?_, ?_, by simp [pairSeqValue], by simp [pairSeqValue],
      hla0, hln0, by omega, fun _ => ⟨rfl, rfl⟩, ?_⟩
    · intro d hd; simp at hd
    · intro d hd; simp at hd
    · rw [encodePairsLoop_end (by omega)]
      rfl
  | succ s ih =>
    intro j la ln hj5 hla0 hln0 hbounds
    obtain ⟨hlab, hlnb⟩ := hbounds (by omega)
    have hj4 : j ≤ 4 := by omega
    have hp : 0 < PR j := PR_pos hj4
    have hfla := floor_rem_bounds hp hla0
    have hfln := floor_rem_bounds hp hln0
    have hdla : ⌊la / PR j⌋ < 20 := floor_lt_of_lt_mul hp (by exact_mod_cast hlab)
    have hdln : ⌊ln / PR j⌋ < 20 := floor_lt_of_lt_mul hp (by exact_mod_cast hlnb)
    have hbounds2 : 0 < s →
        la - ⌊la / PR j⌋ * PR j < 20 * PR (j + 1) ∧
        ln - ⌊ln / PR j⌋ * PR j < 20 * PR (j + 1) := by
      intro hs
      have hstep : PR j = 20 * PR (j + 1) := PR_step (by omega)
      rw [← hstep]
      exact ⟨hfla.2.2, hfln.2.2⟩
    obtain ⟨dl, dn, rl, rn, hdlen, hnlen, hdok, hnok, hval, hnval, hrl0, hrn0, hrlt, hr0, hloop⟩ :=
      ih (j + 1) (la - ⌊la / PR j⌋ * PR j) (ln - ⌊ln / PR j⌋ * PR j)
        (by omega) hfla.2.1 hfln.2.1 hbounds2
    refine ⟨⌊la / PR j⌋ :: dl, ⌊ln / PR j⌋ :: dn, rl, rn, by simp [hdlen], by simp [hnlen],
      ?_, ?_, ?_, ?_, hrl0, hrn0, ?_, by omega, ?_⟩
    · intro d hd
      rcases List.mem_cons.mp hd with hh | hh
      · subst hh; exact ⟨hfla.1, hdla⟩
      · exact hdok d hh
    · intro d hd
      rcases List.mem_cons.mp hd with hh | hh
      · subst hh; exact ⟨hfln.1, hdln⟩
      · exact hnok d hh
    · simp only [pairSeqValue]
      linarith [hval]
    · simp only [pairSeqValue]
      linarith [hnval]
    · intro _
      rcases Nat.eq_zero_or_pos s with hs | hs
      · subst hs
        obtain ⟨hrleq, hrneq⟩ := hr0 rfl
        subst hrleq; subst hrneq
        constructor
        · simpa using hfla.2.2
        · simpa using hfln.2.2
      · obtain ⟨h1, h2⟩ := hrlt hs
        have harith : (j + 1) + s - 1 = j + (s + 1) - 1 := by omega
        rw [harith] at h1 h2
        exact ⟨h1, h2⟩
    · -- the produced characters
      have hcond : 2 * j < 2 * (j + (s + 1)) := by omega
      rw [encodePairsLoop_step hcond]
      have hdiv : 2 * j / 2 = j := by omega
      rw [hdiv]
      simp only [PR_def]
      have harith1 : 2 * j + 2 = 2 * (j + 1) := by ring
      have harith2 : 2 * (j + (s + 1)) = 2 * ((j + 1) + s) := by ring
      rw [show pairChars j (2 * (j + (s + 1))) (⌊la / PR j⌋ :: dl) (⌊ln / PR j⌋ :: dn) =
          jsCharAt CODE_ALPHABET ⌊la / PR j⌋ ++ jsCharAt CODE_ALPHABET ⌊ln / PR j⌋ ++
          (if 2 * j + 2 = SEPARATOR_POSITION ∧ 2 * j + 2 < 2 * (j + (s + 1))
            then [SEPARATOR] else []) ++
          pairChars (j + 1) (2 * (j + (s + 1))) dl dn from rfl]
      rw [harith1, harith2]
      rw [hloop]

/-- The character of each digit value, in alphabet order. -/
def charsOfDigits (ds : List ℤ) : List Char :=
  ds.map (fun v => CODE_ALPHABET.getD v.toNat ' ')

lemma charsOfDigits_length (ds : List ℤ) : (charsOfDigits ds).length = ds.length := by
  simp [charsOfDigits]

/-- Flattened form of `pairChars`: the interleaved digit characters with the
separator inserted after the eighth one (when more follow). -/
lemma pairChars_flat :
    ∀ (dl dn : List ℤ) (j : ℕ), dl.length = dn.length → j + dl.length ≤ 5 →
    digitsOK dl → digitsOK dn →
    pairChars j (2 * (j + dl.length)) dl dn =
      (interleave (charsOfDigits dl) (charsOfDigits dn)).take (8 - 2 * j) ++
      (if 8 - 2 * j < (interleave (charsOfDigits dl) (charsOfDigits dn)).length ∧ 2 * j < 8
        then [SEPARATOR] else []) ++
      (interleave (charsOfDigits dl) (charsOfDigits dn)).drop (8 - 2 * j) := by
  intro dl
  induction dl with
  | nil =>
    intro dn j hlen hj _ _
    have hdn : dn = [] := List.eq_nil_of_length_eq_zero hlen.symm
    subst hdn
    simp [pairChars, charsOfDigits, interleave]
  | cons a dl' ih =>
    intro dn j hlen hj hok hnok
    obtain ⟨b, dn', rfl⟩ : ∃ b dn', dn = b :: dn' := by
      cases dn with
      | nil => simp at hlen
      | cons b dn' => exact ⟨b, dn', rfl⟩
    simp only [List.length_cons] at hlen hj
    have hlen' : dl'.length = dn'.length := by omega
    have hA := hok a (by simp)
    have hB := hnok b (by simp)
    have hok' : digitsOK dl' := fun e he => hok e (by simp [he])
    have hnok' : digitsOK dn' := fun e he => hnok e (by simp [he])
    have hchA : jsCharAt CODE_ALPHABET a = [CODE_ALPHABET.getD a.toNat ' '] :=
      jsCharAt_alphabet hA.1 hA.2
    have hchB : jsCharAt CODE_ALPHABET b = [CODE_ALPHABET.getD b.toNat ' '] :=
      jsCharAt_alphabet hB.1 hB.2
    have hchars : charsOfDigits (a :: dl') = CODE_ALPHABET.getD a.toNat ' ' ::
        charsOfDigits dl' := by simp [charsOfDigits]
    have hcharsB : charsOfDigits (b :: dn') = CODE_ALPHABET.getD b.toNat ' ' ::
        charsOfDigits dn' := by simp [charsOfDigits]
    have hFlen : (interleave (charsOfDigits dl') (charsOfDigits dn')).length
        = 2 * dl'.length := by
      rw [interleave_length (by simp [charsOfDigits, hlen'])]
      simp [charsOfDigits]
    have hstep : pairChars j (2 * (j + (dl'.length + 1))) (a :: dl') (b :: dn') =
        jsCharAt CODE_ALPHABET a ++ jsCharAt CODE_ALPHABET b ++
          (if 2 * j + 2 = SEPARATOR_POSITION ∧ 2 * j + 2 < 2 * (j + (dl'.length + 1))
            then [SEPARATOR] else []) ++
          pairChars (j + 1) (2 * (j + (dl'.length + 1))) dl' dn' := rfl
    have hcl : 2 * (j + (dl'.length + 1)) = 2 * ((j + 1) + dl'.length) := by ring
    have hIH := ih dn' (j + 1) hlen' (by omega) hok' hnok'
    simp only [List.length_cons]
    rw [hstep, hchA, hchB, hchars, hcharsB]
    rw [hcl, hIH]
    rw [show interleave (CODE_ALPHABET.getD a.toNat ' ' :: charsOfDigits dl')
        (CODE_ALPHABET.getD b.toNat ' ' :: charsOfDigits dn') =
        CODE_ALPHABET.getD a.toNat ' ' :: CODE_ALPHABET.getD b.toNat ' ' ::
        interleave (charsOfDigits dl') (charsOfDigits dn') from rfl]
    by_cases hj4 : j = 4
    · -- last pair: no separator anywhere
      subst hj4
      have hs0 : dl'.length = 0 := by omega
      have hd0 : dl' = [] := List.eq_nil_of_length_eq_zero hs0
      have hn0 : dn' = [] := List.eq_nil_of_length_eq_zero (hlen' ▸ hs0)
      subst hd0; subst hn0
      simp [interleave, charsOfDigits, pairChars]
    · have hj3le : j ≤ 3 := by omega
      have hsepp : SEPARATOR_POSITION = 8 := rfl
      have h8 : 8 - 2 * j = (6 - 2 * j) + 1 + 1 := by omega
      have h6 : 8 - 2 * (j + 1) = 6 - 2 * j := by omega
      rw [h6] at hIH ⊢
      rw [h8, List.take_succ_cons, List.take_succ_cons, List.drop_succ_cons,
        List.drop_succ_cons]
      simp only [hsepp, List.length_cons, hFlen]
      by_cases hj3 : j = 3
      · subst hj3
        norm_num
        split_ifs <;> first | (exfalso; omega) | simp
      · split_ifs <;> first | (exfalso; omega) | simp

/-- The canonical layout of an encoder output with digit characters `D`:
the first eight digits (padded with `0` to eight when shorter), the
separator, and the remaining digits. -/
def assembleCode (D : List Char) : List Char :=
  D.take 8 ++ List.replicate (8 - min D.length 8) PADDING_CHARACTER ++
    SEPARATOR :: D.drop 8

/-- Whenever the pair loop produces the digit characters of `dl`/`dn`,
`encodePairs` produces the corresponding assembled code: padded to eight
characters for short codes, with the separator appended or inserted. -/
lemma encodePairs_of_loop {dl dn : List ℤ} {la ln : ℚ}
    (hlen : dl.length = dn.length) (h1 : 1 ≤ dl.length) (h5 : dl.length ≤ 5)
    (hloop : encodePairsLoop (la + LATITUDE_MAX) (ln + LONGITUDE_MAX) 0
      (2 * dl.length) = pairChars 0 (2 * dl.length) dl dn)
    (hdok : digitsOK dl) (hnok : digitsOK dn) :
    encodePairs la ln (2 * dl.length) =
      assembleCode (interleave (charsOfDigits dl) (charsOfDigits dn)) := by
  have hFlen : (interleave (charsOfDigits dl) (charsOfDigits dn)).length
      = 2 * dl.length := by
    rw [interleave_length (by simp [charsOfDigits, hlen])]
    simp [charsOfDigits]
  have hflat := pairChars_flat dl dn 0 hlen (by omega) hdok hnok
  rw [show 2 * (0 + dl.length) = 2 * dl.length from by omega] at hflat
  have hflat0 : pairChars 0 (2 * dl.length) dl dn =
      (interleave (charsOfDigits dl) (charsOfDigits dn)).take 8 ++
      (if 8 < (interleave (charsOfDigits dl) (charsOfDigits dn)).length
        then [SEPARATOR] else []) ++
      (interleave (charsOfDigits dl) (charsOfDigits dn)).drop 8 := by
    rw [hflat]
    norm_num
  rw [encodePairs, hloop, hflat0]
  set F := interleave (charsOfDigits dl) (charsOfDigits dn) with hF
  rcases Nat.lt_or_ge (2 * dl.length) 8 with hc8 | hc8
  · have hsep : ¬(8 < F.length) := by omega
    rw [if_neg hsep]
    have htake : F.take 8 = F := by
      rw [List.take_eq_self_iff]
      omega
    have hdrop : F.drop 8 = [] := by
      apply List.drop_eq_nil_of_le
      omega
    rw [htake, hdrop]
    simp only [List.append_nil]
    have hlen1 : F.length < SEPARATOR_POSITION := by
      rw [hFlen]
      exact hc8
    rw [if_pos hlen1]
    have hlen2 : (F ++ List.replicate (SEPARATOR_POSITION - F.length) PADDING_CHARACTER).length
        = SEPARATOR_POSITION := by
      simp only [List.length_append, List.length_replicate]
      omega
    rw [if_pos hlen2]
    rw [assembleCode]
    have htake2 : F.take 8 = F := by
      rw [List.take_eq_self_iff]
      omega
    have hdrop2 : F.drop 8 = [] := by
      apply List.drop_eq_nil_of_le
      omega
    rw [htake2, hdrop2]
    have hmin : 8 - min F.length 8 = SEPARATOR_POSITION - F.length := by
      simp only [SEPARATOR_POSITION]
      omega
    rw [hmin]
  · rcases Nat.eq_or_lt_of_le hc8 with hc8e | hc10
    · have hsep : ¬(8 < F.length) := by omega
      rw [if_neg hsep]
      have htake : F.take 8 = F := by
        rw [List.take_eq_self_iff]
        omega
      have hdrop : F.drop 8 = [] := by
        apply List.drop_eq_nil_of_le
        omega
      rw [htake, hdrop]
      simp only [List.append_nil]
      have hlen1 : ¬(F.length < SEPARATOR_POSITION) := by
        simp only [SEPARATOR_POSITION]
        omega
      rw [if_neg hlen1]
      have hlen2 : F.length = SEPARATOR_POSITION := by
        simp only [SEPARATOR_POSITION]
        omega
      rw [if_pos hlen2]
      rw [assembleCode]
      have htake2 : F.take 8 = F := by
        rw [List.take_eq_self_iff]
        omega
      have hdrop2 : F.drop 8 = [] := by
        apply List.drop_eq_nil_of_le
        omega
      rw [htake2, hdrop2]
      have hmin : 8 - min F.length 8 = 0 := by
        omega
      rw [hmin]
      simp
    · have hsep : (8 < F.length) := by omega
      rw [if_pos hsep]
      have hlen1 : ¬((F.take 8 ++ [SEPARATOR] ++ F.drop 8).length
          < SEPARATOR_POSITION) := by
        simp only [List.length_append, List.length_take, List.length_drop,
          List.length_cons, List.length_nil, SEPARATOR_POSITION]
        omega
      rw [if_neg hlen1]
      have hlen2 : ¬((F.take 8 ++ [SEPARATOR] ++ F.drop 8).length
          = SEPARATOR_POSITION) := by
        simp only [List.length_append, List.length_take, List.length_drop,
          List.length_cons, List.length_nil, SEPARATOR_POSITION]
        omega
      rw [if_neg hlen2]
      rw [assembleCode]
      have hmin : 8 - min F.length 8 = 0 := by
        omega
      rw [hmin]
      simp

/-- `encodePairs` on in-range adjusted coordinates produces the assembled
interleaved digit characters, and those digits are the base-20 expansions
of the two axes. -/
lemma encodePairs_spec {lat lng : ℚ} {cl : ℕ} (hcl2 : 2 ≤ cl) (hcl10 : cl ≤ 10)
    (hcle : cl % 2 = 0)
    (hla0 : 0 ≤ lat + LATITUDE_MAX) (hlab : lat + LATITUDE_MAX < 400)
    (hln0 : 0 ≤ lng + LONGITUDE_MAX) (hlnb : lng + LONGITUDE_MAX < 400) :
    ∃ dl dn : List ℤ, ∃ rl rn : ℚ,
      dl.length = cl / 2 ∧ dn.length = cl / 2 ∧ digitsOK dl ∧ digitsOK dn ∧
      lat + LATITUDE_MAX = pairSeqValue dl 0 + rl ∧
      lng + LONGITUDE_MAX = pairSeqValue dn 0 + rn ∧
      0 ≤ rl ∧ 0 ≤ rn ∧ rl < PR (cl / 2 - 1) ∧ rn < PR (cl / 2 - 1) ∧
      encodePairs lat lng cl =
        assembleCode (interleave (charsOfDigits dl) (charsOfDigits dn)) := by
  have h20 : (20 : ℚ) * PR 0 = 400 := by norm_num [PR, PAIR_RESOLUTIONS]
  have ht5 : cl / 2 ≤ 5 := by omega
  have htpos : 0 < cl / 2 := by omega
  obtain ⟨dl, dn, rl, rn, hdlen, hnlen, hdok, hnok, hval, hnval, hrl0, hrn0, hrlt, -, hloop⟩ :=
    encodePairsLoop_extract (cl / 2) 0 (lat + LATITUDE_MAX) (lng + LONGITUDE_MAX)
      (by omega) hla0 hln0
      (fun _ => ⟨by rw [h20]; exact hlab, by rw [h20]; exact hlnb⟩)
  obtain ⟨hrl, hrn⟩ := hrlt htpos
  refine ⟨dl, dn, rl, rn, hdlen, hnlen, hdok, hnok, hval, hnval, hrl0, hrn0,
    by simpa using hrl, by simpa using hrn, ?_⟩
  have hcl : 2 * (0 + cl / 2) = 2 * dl.length := by omega
  rw [hcl] at hloop
  have hres := encodePairs_of_loop (by omega) (by omega) (by omega) hloop hdok hnok
  rw [show 2 * dl.length = cl from by omega] at hres
  exact hres

/-! ### Grid digit sequences -/

/-- Value of a grid digit sequence: each step divides the place value by
`divisor` and weights the digit with it. -/
def gridSeqValue (divisor : ℚ) : List ℤ → ℚ → ℚ
  | [], _ => 0
  | r :: rs, pv => r * (pv / divisor) + gridSeqValue divisor rs (pv / divisor)

/-- The characters produced by the grid encoder for given row/column digits. -/
def gridChars : List ℤ → List ℤ → List Char
  | r :: rs, c :: cs =>
    jsCharAt CODE_ALPHABET (r * GRID_COLUMNS + c) ++ gridChars rs cs
  | _, _ => []

lemma gridSeqValue_nonneg {m : ℕ} (hm : 0 < m) :
    ∀ {rows : List ℤ}, (∀ r ∈ rows, 0 ≤ r) →
    ∀ {pv : ℚ}, 0 ≤ pv → 0 ≤ gridSeqValue m rows pv := by
  intro rows
  induction rows with
  | nil => intro _ pv _; simp [gridSeqValue]
  | cons r rs ih =>
    intro h pv hpv
    have hr := h r (by simp)
    have hrs : ∀ x ∈ rs, 0 ≤ x := fun x hx => h x (by simp [hx])
    have hm0 : (0 : ℚ) < m := by exact_mod_cast hm
    have hpv5 : 0 ≤ pv / m := div_nonneg hpv (le_of_lt hm0)
    have h1 := ih hrs hpv5
    have h2 : (0 : ℚ) ≤ r * (pv / m) := by
      apply mul_nonneg _ hpv5
      exact_mod_cast hr
    simp only [gridSeqValue]
    linarith

lemma gridSeqValue_add_lt {m : ℕ} (hm : 0 < m) :
    ∀ {rows : List ℤ}, (∀ r ∈ rows, 0 ≤ r ∧ r < m) →
    ∀ {pv rem : ℚ}, 0 < pv → 0 ≤ rem → rem < pv / (m : ℚ) ^ rows.length →
    gridSeqValue m rows pv + rem < pv := by
  intro rows
  induction rows with
  | nil =>
    intro _ pv rem hpv hrem0 hrem
    simpa [gridSeqValue] using hrem
  | cons r rs ih =>
    intro h pv rem hpv hrem0 hrem
    have hr := h r (by simp)
    have hrs : ∀ x ∈ rs, 0 ≤ x ∧ x < m := fun x hx => h x (by simp [hx])
    have hm0 : (0 : ℚ) < m := by exact_mod_cast hm
    have hpv5 : 0 < pv / m := div_pos hpv hm0
    have hrem2 : rem < (pv / m) / (m : ℚ) ^ rs.length := by
      rw [div_div]
      have : (m : ℚ) * (m : ℚ) ^ rs.length = (m : ℚ) ^ (r :: rs).length := by
        rw [List.length_cons, pow_succ]
        ring
      rw [this]
      exact hrem
    have h1 := ih hrs hpv5 hrem0 hrem2
    have h2 : (r : ℚ) * (pv / m) ≤ (m - 1 : ℚ) * (pv / m) := by
      apply mul_le_mul_of_nonneg_right _ (le_of_lt hpv5)
      have : r ≤ (m : ℤ) - 1 := by omega
      exact_mod_cast this
    simp only [gridSeqValue]
    have hfinal : (m - 1 : ℚ) * (pv / m) + pv / m = pv := by
      field_simp
      ring
    linarith

/-- JavaScript `%` recovers the sub-cell offset of a value that is a
nonnegative integer number of cells plus the offset. -/
lemma jsMod_eq {x m f : ℚ} {K : ℤ} (hm : 0 < m) (hK : 0 ≤ K)
    (hx : x = K * m + f) (hf0 : 0 ≤ f) (hf : f < m) : jsMod x m = f := by
  have hx0 : 0 ≤ x := by
    rw [hx]
    have : (0 : ℚ) ≤ K * m := mul_nonneg (by exact_mod_cast hK) (le_of_lt hm)
    linarith
  have hfl : ⌊x / m⌋ = K := floor_div_extract hm hx hf0 hf
  have hnneg : ¬(x / m < 0) := by
    push_neg
    exact div_nonneg hx0 (le_of_lt hm)
  rw [jsMod, if_neg hnneg, hfl, hx]
  ring

/-- One step of the grid encoder loop. -/
lemma encodeGridLoop_step (la ln latPV lngPV : ℚ) (n : ℕ) :
    encodeGridLoop la ln latPV lngPV (n + 1) =
      jsCharAt CODE_ALPHABET
        (⌊la / (latPV / GRID_ROWS)⌋ * GRID_COLUMNS + ⌊ln / (lngPV / GRID_COLUMNS)⌋) ++
      encodeGridLoop (la - ⌊la / (latPV / GRID_ROWS)⌋ * (latPV / GRID_ROWS))
        (ln - ⌊ln / (lngPV / GRID_COLUMNS)⌋ * (lngPV / GRID_COLUMNS))
        (latPV / GRID_ROWS) (lngPV / GRID_COLUMNS) n := rfl

/-- Extraction lemma for the grid encoder loop. -/
lemma encodeGridLoop_extract :
    ∀ (g : ℕ) (la ln latPV lngPV : ℚ), 0 < latPV → 0 < lngPV →
    0 ≤ la → la < latPV → 0 ≤ ln → ln < lngPV →
    ∃ rows cols : List ℤ, ∃ rl rn : ℚ,
      rows.length = g ∧ cols.length = g ∧
      (∀ r ∈ rows, 0 ≤ r ∧ r < 5) ∧ (∀ c ∈ cols, 0 ≤ c ∧ c < 4) ∧
      la = gridSeqValue GRID_ROWS rows latPV + rl ∧
      ln = gridSeqValue GRID_COLUMNS cols lngPV + rn ∧
      0 ≤ rl ∧ rl < latPV / (GRID_ROWS : ℚ) ^ g ∧
      0 ≤ rn ∧ rn < lngPV / (GRID_COLUMNS : ℚ) ^ g ∧
      encodeGridLoop la ln latPV lngPV g = gridChars rows cols := by
  intro g
  induction g with
  | zero =>
    intro la ln latPV lngPV _ _ hla0 hlab hln0 hlnb
    exact ⟨[], [], la, ln, rfl, rfl, by simp, by simp,
      by simp [gridSeqValue], by simp [gridSeqValue],
      hla0, by simpa using hlab, hln0, by simpa using hlnb, rfl⟩
  | succ g ih =>
    intro la ln latPV lngPV hlatPV hlngPV hla0 hlab hln0 hlnb
    have h5 : (0 : ℚ) < (GRID_ROWS : ℚ) := by norm_num [GRID_ROWS]
    have h4 : (0 : ℚ) < (GRID_COLUMNS : ℚ) := by norm_num [GRID_COLUMNS]
    have hlat5 : 0 < latPV / GRID_ROWS := div_pos hlatPV h5
    have hlng4 : 0 < lngPV / GRID_COLUMNS := div_pos hlngPV h4
    have hrowlt : ⌊la / (latPV / GRID_ROWS)⌋ < 5 := by
      apply floor_lt_of_lt_mul hlat5
      rw [show ((5 : ℤ) : ℚ) * (latPV / GRID_ROWS) = latPV by
        norm_num [GRID_ROWS]
        ring]
      exact hlab
    have hcollt : ⌊ln / (lngPV / GRID_COLUMNS)⌋ < 4 := by
      apply floor_lt_of_lt_mul hlng4
      push_cast
      rw [show (4 : ℚ) * (lngPV / GRID_COLUMNS) = lngPV by
        norm_num [GRID_COLUMNS]
        ring]
      exact hlnb
    have hfla := floor_rem_bounds hlat5 hla0
    have hfln := floor_rem_bounds hlng4 hln0
    obtain ⟨rows, cols, rl, rn, hrlen, hclen, hrok, hcok, hrval, hcval,
        hrl0, hrlb, hrn0, hrnb, hloop⟩ :=
      ih (la - ⌊la / (latPV / GRID_ROWS)⌋ * (latPV / GRID_ROWS))
        (ln - ⌊ln / (lngPV / GRID_COLUMNS)⌋ * (lngPV / GRID_COLUMNS))
        (latPV / GRID_ROWS) (lngPV / GRID_COLUMNS)
        hlat5 hlng4 hfla.2.1 hfla.2.2 hfln.2.1 hfln.2.2
    refine ⟨⌊la / (latPV / GRID_ROWS)⌋ :: rows, ⌊ln / (lngPV / GRID_COLUMNS)⌋ :: cols,
      rl, rn, by simp [hrlen], by simp [hclen], ?_, ?_, ?_, ?_, hrl0, ?_, hrn0, ?_, ?_⟩
    · intro r hr
      rcases List.mem_cons.mp hr with hh | hh
      · subst hh; exact ⟨hfla.1, hrowlt⟩
      · exact hrok r hh
    · intro ccc hc
      rcases List.mem_cons.mp hc with hh | hh
      · subst hh; exact ⟨hfln.1, hcollt⟩
      · exact hcok ccc hh
    · simp only [gridSeqValue]
      linarith [hrval]
    · simp only [gridSeqValue]
      linarith [hcval]
    · rw [show latPV / (GRID_ROWS : ℚ) ^ (g + 1) = (latPV / GRID_ROWS) / (GRID_ROWS : ℚ) ^ g by
        rw [div_div, pow_succ]
        ring_nf]
      exact hrlb
    · rw [show lngPV / (GRID_COLUMNS : ℚ) ^ (g + 1) =
          (lngPV / GRID_COLUMNS) / (GRID_COLUMNS : ℚ) ^ g by
        rw [div_div, pow_succ]
        ring_nf]
      exact hrnb
    · rw [encodeGridLoop_step, hloop]
      rfl

/-! ### Decoding lemmas -/

lemma decodePairsSequenceLoop_step {code : List Char} {offset i : ℕ} {v : ℚ}
    (h : i * 2 + offset < code.length) :
    decodePairsSequenceLoop code offset i v =
      decodePairsSequenceLoop code offset (i + 1)
        (v + (jsAlphaIndex (code.getD (i * 2 + offset) ' ') : ℚ) *
          PAIR_RESOLUTIONS.getD i 0) := by
  rw [decodePairsSequenceLoop]
  rw [dif_pos h]

lemma decodePairsSequenceLoop_end {code : List Char} {offset i : ℕ} {v : ℚ}
    (h : ¬(i * 2 + offset < code.length)) :
    decodePairsSequenceLoop code offset i v = (i, v) := by
  rw [decodePairsSequenceLoop]
  rw [dif_neg h]

lemma dps_loop_even {A B : List Char} (h : A.length = B.length) :
    ∀ (k i : ℕ) (v : ℚ), A.length - i = k → i ≤ A.length →
    decodePairsSequenceLoop (interleave A B) 0 i v =
      (A.length, v + pairSeqValue ((A.drop i).map jsAlphaIndex) i) := by
  intro k
  induction k with
  | zero =>
    intro i v hk hi
    have hieq : i = A.length := by omega
    subst hieq
    rw [decodePairsSequenceLoop_end]
    · simp [pairSeqValue, List.drop_eq_nil_of_le]
    · rw [interleave_length h]
      omega
  | succ k2 ih =>
    intro i v hk hi
    have hilt : i < A.length := by omega
    rw [decodePairsSequenceLoop_step (by rw [interleave_length h]; omega)]
    rw [ih (i + 1) _ (by omega) (by omega)]
    have hgd : (interleave A B).getD (i * 2 + 0) ' ' = A.getD i ' ' := by
      rw [show i * 2 + 0 = 2 * i by ring]
      exact interleave_getD_even h i ' '
    have hdrop : A.drop i = A.getD i ' ' :: A.drop (i + 1) := by
      rw [List.getD_eq_getElem A ' ' hilt]
      exact List.drop_eq_getElem_cons hilt
    rw [hgd, hdrop]
    simp only [List.map_cons, pairSeqValue, PR_def]
    refine congrArg _ ?_
    ring

lemma dps_loop_odd {A B : List Char} (h : A.length = B.length) :
    ∀ (k i : ℕ) (v : ℚ), B.length - i = k → i ≤ B.length →
    decodePairsSequenceLoop (interleave A B) 1 i v =
      (B.length, v + pairSeqValue ((B.drop i).map jsAlphaIndex) i) := by
  intro k
  induction k with
  | zero =>
    intro i v hk hi
    have hieq : i = B.length := by omega
    subst hieq
    rw [decodePairsSequenceLoop_end]
    · simp [pairSeqValue, List.drop_eq_nil_of_le]
    · rw [interleave_length h]
      omega
  | succ k2 ih =>
    intro i v hk hi
    have hilt : i < B.length := by omega
    rw [decodePairsSequenceLoop_step (by rw [interleave_length h]; omega)]
    rw [ih (i + 1) _ (by omega) (by omega)]
    have hgd : (interleave A B).getD (i * 2 + 1) ' ' = B.getD i ' ' := by
      rw [show i * 2 + 1 = 2 * i + 1 by ring]
      exact interleave_getD_odd h i ' '
    have hdrop : B.drop i = B.getD i ' ' :: B.drop (i + 1) := by
      rw [List.getD_eq_getElem B ' ' hilt]
      exact List.drop_eq_getElem_cons hilt
    rw [hgd, hdrop]
    simp only [List.map_cons, pairSeqValue, PR_def]
    refine congrArg _ ?_
    ring

/-- `decodePairs` on an interleaved pair string computes the axis values. -/
lemma decodePairs_interleave {A B : List Char} (h : A.length = B.length) :
    decodePairs (interleave A B) =
      CodeArea.init (pairSeqValue (A.map jsAlphaIndex) 0 - LATITUDE_MAX)
        (pairSeqValue (B.map jsAlphaIndex) 0 - LONGITUDE_MAX)
        (pairSeqValue (A.map jsAlphaIndex) 0 + PR (A.length - 1) - LATITUDE_MAX)
        (pairSeqValue (B.map jsAlphaIndex) 0 + PR (A.length - 1) - LONGITUDE_MAX)
        (2 * A.length) := by
  have heven := dps_loop_even h (A.length - 0) 0 0 rfl (by omega)
  have hodd := dps_loop_odd h (B.length - 0) 0 0 rfl (by omega)
  simp only [List.drop_zero] at heven hodd
  rw [decodePairs, decodePairsSequence, decodePairsSequence, heven, hodd]
  rw [interleave_length h, ← h]
  simp [PR]

/-- `decodeGrid`'s loop on the characters produced by the grid encoder. -/
lemma decodeGridLoop_spec :
    ∀ (rows cols : List ℤ), rows.length = cols.length →
    (∀ r ∈ rows, 0 ≤ r ∧ r < 5) → (∀ c ∈ cols, 0 ≤ c ∧ c < 4) →
    ∀ (latLo lngLo latPV lngPV : ℚ),
    decodeGridLoop (gridChars rows cols) latLo lngLo latPV lngPV =
      (latLo + gridSeqValue GRID_ROWS rows latPV,
       lngLo + gridSeqValue GRID_COLUMNS cols lngPV,
       latPV / (GRID_ROWS : ℚ) ^ rows.length,
       lngPV / (GRID_COLUMNS : ℚ) ^ rows.length) := by
  intro rows
  induction rows with
  | nil =>
    intro cols hlen _ _ latLo lngLo latPV lngPV
    have hcols : cols = [] := List.eq_nil_of_length_eq_zero hlen.symm
    subst hcols
    simp [gridChars, decodeGridLoop, gridSeqValue]
  | cons r rs ih =>
    intro cols hlen hrok hcok latLo lngLo latPV lngPV
    obtain ⟨c, cs, rfl⟩ : ∃ c cs, cols = c :: cs := by
      cases cols with
      | nil => simp at hlen
      | cons c cs => exact ⟨c, cs, rfl⟩
    simp only [List.length_cons] at hlen
    have hr := hrok r (by simp)
    have hc := hcok c (by simp)
    have hrok2 : ∀ x ∈ rs, 0 ≤ x ∧ x < 5 := fun x hx => hrok x (by simp [hx])
    have hcok2 : ∀ x ∈ cs, 0 ≤ x ∧ x < 4 := fun x hx => hcok x (by simp [hx])
    have hGC : (GRID_COLUMNS : ℤ) = 4 := rfl
    have hGCQ : (GRID_COLUMNS : ℚ) = 4 := rfl
    have hidx0 : (0 : ℤ) ≤ r * GRID_COLUMNS + c := by rw [hGC]; omega
    have hidx20 : r * (GRID_COLUMNS : ℤ) + c < 20 := by rw [hGC]; omega
    have hch : jsCharAt CODE_ALPHABET (r * GRID_COLUMNS + c) =
        [CODE_ALPHABET.getD (r * (GRID_COLUMNS : ℤ) + c).toNat ' '] :=
      jsCharAt_alphabet hidx0 hidx20
    have hgc : gridChars (r :: rs) (c :: cs) =
        CODE_ALPHABET.getD (r * (GRID_COLUMNS : ℤ) + c).toNat ' ' :: gridChars rs cs := by
      rw [show gridChars (r :: rs) (c :: cs) =
        jsCharAt CODE_ALPHABET (r * GRID_COLUMNS + c) ++ gridChars rs cs from rfl, hch]
      rfl
    have halpha : jsAlphaIndex (CODE_ALPHABET.getD (r * (GRID_COLUMNS : ℤ) + c).toNat ' ')
        = r * (GRID_COLUMNS : ℤ) + c := jsAlphaIndex_getD hidx0 hidx20
    have hrowfl : ⌊((r * (GRID_COLUMNS : ℤ) + c : ℤ) : ℚ) / (GRID_COLUMNS : ℚ)⌋ = r := by
      apply floor_div_extract (r := (c : ℚ)) (by rw [hGCQ]; norm_num)
      · rw [hGCQ]
        push_cast [hGC]
        ring
      · exact_mod_cast hc.1
      · rw [hGCQ]
        exact_mod_cast hc.2
    have hcolmod : Int.tmod (r * (GRID_COLUMNS : ℤ) + c) GRID_COLUMNS = c := by
      rw [hGC]
      rw [Int.tmod_eq_emod (by omega) (by norm_num)]
      omega
    rw [hgc]
    have hloop : decodeGridLoop
        (CODE_ALPHABET.getD (r * (GRID_COLUMNS : ℤ) + c).toNat ' ' :: gridChars rs cs)
        latLo lngLo latPV lngPV =
        decodeGridLoop (gridChars rs cs)
          (latLo + (r : ℚ) * (latPV / GRID_ROWS))
          (lngLo + (c : ℚ) * (lngPV / GRID_COLUMNS))
          (latPV / GRID_ROWS) (lngPV / GRID_COLUMNS) := by
      simp only [decodeGridLoop, halpha]
      rw [hrowfl]
      rw [show Int.tmod (r * (GRID_COLUMNS : ℤ) + c) GRID_COLUMNS = c from hcolmod]
    rw [hloop, ih cs (by omega) hrok2 hcok2]
    simp only [gridSeqValue, List.length_cons, Prod.mk.injEq]
    refine ⟨by ring, by ring, ?_, ?_⟩
    · rw [div_div, pow_succ]
      ring_nf
    · rw [div_div, pow_succ]
      ring_nf

/-! ### Validity of assembled codes -/

lemma sep_toUpper : SEPARATOR.toUpper = SEPARATOR := by decide

lemma pad_toUpper : PADDING_CHARACTER.toUpper = PADDING_CHARACTER := by decide

lemma assembleCode_parts (D : List Char) :
    assembleCode D = (D.take 8 ++ List.replicate (8 - min D.length 8) PADDING_CHARACTER) ++
      SEPARATOR :: D.drop 8 := by
  rw [assembleCode, List.append_assoc]

lemma assembleCode_pre_length (D : List Char) (h2 : 2 ≤ D.length) :
    (D.take 8 ++ List.replicate (8 - min D.length 8) PADDING_CHARACTER).length = 8 := by
  simp only [List.length_append, List.length_take, List.length_replicate]
  omega

lemma assembleCode_length (D : List Char) (h2 : 2 ≤ D.length) :
    (assembleCode D).length = 9 + (D.length - 8) := by
  rw [assembleCode_parts]
  rw [List.length_append, assembleCode_pre_length D h2]
  simp only [List.length_cons, List.length_drop]
  omega

lemma sep_not_mem_pre {D : List Char} (hmem : ∀ ch ∈ D, ch ∈ CODE_ALPHABET) :
    SEPARATOR ∉ D.take 8 ++ List.replicate (8 - min D.length 8) PADDING_CHARACTER := by
  intro hsep
  rcases List.mem_append.mp hsep with hh | hh
  · exact sep_not_mem_alphabet (hmem _ (List.take_subset 8 D hh))
  · have := List.eq_of_mem_replicate hh
    exact absurd this (by decide)

lemma sep_not_mem_post {D : List Char} (hmem : ∀ ch ∈ D, ch ∈ CODE_ALPHABET) :
    SEPARATOR ∉ D.drop 8 := by
  intro hsep
  exact sep_not_mem_alphabet (hmem _ (List.drop_subset 8 D hsep))

lemma assembleCode_sepIndex {D : List Char} (h2 : 2 ≤ D.length)
    (hmem : ∀ ch ∈ D, ch ∈ CODE_ALPHABET) :
    jsIndexOf (assembleCode D) SEPARATOR = 8 := by
  rw [assembleCode_parts]
  rw [jsIndexOf_append_right (sep_not_mem_pre hmem) (by simp)]
  rw [assembleCode_pre_length D h2]
  simp [jsIndexOf]

lemma assembleCode_lastSepIndex {D : List Char} (h2 : 2 ≤ D.length)
    (hmem : ∀ ch ∈ D, ch ∈ CODE_ALPHABET) :
    jsLastIndexOf (assembleCode D) SEPARATOR = 8 := by
  rw [assembleCode_parts]
  rw [jsLastIndexOf_append_right (by simp)]
  rw [assembleCode_pre_length D h2]
  have hnot : jsLastIndexOf (D.drop 8) SEPARATOR = -1 :=
    jsLastIndexOf_not_mem (sep_not_mem_post hmem)
  simp [jsLastIndexOf, hnot]

lemma assembleCode_stripped {D : List Char} (h2 : 2 ≤ D.length)
    (hmem : ∀ ch ∈ D, ch ∈ CODE_ALPHABET) :
    stripFirstRun PADDING_CHARACTER (stripFirstRun SEPARATOR (assembleCode D)) = D := by
  have hpadA : PADDING_CHARACTER ∉ D.take 8 := by
    intro hpad
    exact pad_not_mem_alphabet (hmem _ (List.take_subset 8 D hpad))
  have hpadP : PADDING_CHARACTER ∉ D.drop 8 := by
    intro hpad
    exact pad_not_mem_alphabet (hmem _ (List.drop_subset 8 D hpad))
  have hsepstrip : stripFirstRun SEPARATOR (assembleCode D) =
      D.take 8 ++ List.replicate (8 - min D.length 8) PADDING_CHARACTER ++ D.drop 8 := by
    rw [assembleCode_parts]
    have hshape : (D.take 8 ++ List.replicate (8 - min D.length 8) PADDING_CHARACTER) ++
        SEPARATOR :: D.drop 8 =
        (D.take 8 ++ List.replicate (8 - min D.length 8) PADDING_CHARACTER) ++
        List.replicate 1 SEPARATOR ++ D.drop 8 := by
      simp
    rw [hshape]
    exact stripFirstRun_structured (sep_not_mem_pre hmem) (by omega)
      (fun y hy hcontra => sep_not_mem_post hmem (hcontra ▸ List.mem_of_mem_head? hy))
  rw [hsepstrip]
  rcases Nat.eq_zero_or_pos (8 - min D.length 8) with hp | hp
  · rw [hp]
    simp only [List.replicate_zero, List.append_nil]
    rw [stripFirstRun_not_mem (by
      intro hpad
      rcases List.mem_append.mp hpad with hh | hh
      · exact hpadA hh
      · exact hpadP hh)]
    exact List.take_append_drop 8 D
  · have hlen8 : D.length < 8 := by omega
    have hdrop : D.drop 8 = [] := List.drop_eq_nil_of_le (by omega)
    rw [hdrop]
    rw [stripFirstRun_structured hpadA hp (by intro y hy; simp at hy)]
    rw [List.append_nil, List.take_eq_self_iff]
    omega

lemma assembleCode_getLast {D : List Char} (hpost : D.drop 8 = []) :
    (assembleCode D).getLast? = some SEPARATOR := by
  rw [assembleCode_parts, hpost]
  rw [show SEPARATOR :: ([] : List Char) = [SEPARATOR] from rfl]
  exact List.getLast?_concat _

/-- The assembled code of a well-formed digit list is a valid, full,
non-short Open Location Code. -/
lemma assembleCode_isFull {D : List Char} (h2 : 2 ≤ D.length) (h9 : D.length ≠ 9)
    (hev : D.length < 8 → D.length % 2 = 0)
    (hmem : ∀ ch ∈ D, ch ∈ CODE_ALPHABET)
    (hfst : jsAlphaIndex (D.getD 0 ' ') < 9)
    (hsnd : jsAlphaIndex (D.getD 1 ' ') < 18) :
    isValid (assembleCode D) = true ∧ isShort (assembleCode D) = false ∧
      isFull (assembleCode D) = true := by
  have hsepi := assembleCode_sepIndex h2 hmem
  have hlasti := assembleCode_lastSepIndex h2 hmem
  have hstrip := assembleCode_stripped h2 hmem
  have hlen := assembleCode_length D h2
  have hne : assembleCode D ≠ [] := by
    intro hcontra
    have := congrArg List.length hcontra
    rw [hlen] at this
    simp at this
  have hpadneg : ¬(jsIndexOf (assembleCode D) PADDING_CHARACTER > -1 ∧
      (jsIndexOf (assembleCode D) PADDING_CHARACTER = 0 ∨
       (runLengths PADDING_CHARACTER (assembleCode D)).length > 1 ∨
       (runLengths PADDING_CHARACTER (assembleCode D)).headD 0 % 2 = 1 ∨
       (runLengths PADDING_CHARACTER (assembleCode D)).headD 0 > SEPARATOR_POSITION - 2 ∨
       (assembleCode D).getLast? ≠ some SEPARATOR)) := by
    rintro ⟨hpad1, hpad2⟩
    -- padding is present, so the code has fewer than eight digits
    have hppos : 0 < 8 - min D.length 8 := by
      by_contra hcontra
      have hrep : (8 - min D.length 8) = 0 := by omega
      have hnom : PADDING_CHARACTER ∉ assembleCode D := by
        rw [assembleCode_parts, hrep]
        intro hmem2
        simp only [List.replicate_zero, List.append_nil, List.mem_append,
          List.mem_cons] at hmem2
        rcases hmem2 with hh | hh | hh
        · exact pad_not_mem_alphabet (hmem _ (List.take_subset 8 D hh))
        · exact absurd hh (by decide)
        · exact pad_not_mem_alphabet (hmem _ (List.drop_subset 8 D hh))
      rw [jsIndexOf_eq_neg_one.mpr hnom] at hpad1
      norm_num at hpad1
    have hshortD : D.length < 8 := by omega
    have hpost : D.drop 8 = [] := List.drop_eq_nil_of_le (by omega)
    have htakeD : D.take 8 = D := by
      rw [List.take_eq_self_iff]
      omega
    have hruns : runLengths PADDING_CHARACTER (assembleCode D) =
        [8 - min D.length 8] := by
      rw [assembleCode_parts, hpost, htakeD]
      refine runLengths_structured (fun hh => pad_not_mem_alphabet (hmem _ hh)) hppos ?_
      intro y hy
      simp at hy
      subst hy
      decide
    have hidx : jsIndexOf (assembleCode D) PADDING_CHARACTER = D.length := by
      rw [assembleCode_parts, hpost, htakeD]
      rw [jsIndexOf_append_left (by
        apply List.mem_append_right
        simp [List.mem_replicate]
        omega)]
      rw [jsIndexOf_append_right (fun hh => pad_not_mem_alphabet (hmem _ hh))
        (by simp [List.mem_replicate]; omega)]
      have hrep0 : jsIndexOf (List.replicate (8 - min D.length 8) PADDING_CHARACTER)
          PADDING_CHARACTER = 0 := by
        obtain ⟨q, hq⟩ : ∃ q, 8 - min D.length 8 = q + 1 :=
          ⟨8 - min D.length 8 - 1, by omega⟩
        rw [hq, List.replicate_succ]
        simp [jsIndexOf]
      rw [hrep0]
      ring
    rcases hpad2 with hh | hh | hh | hh | hh
    · rw [hidx] at hh
      have : D.length = 0 := by exact_mod_cast hh
      omega
    · rw [hruns] at hh
      simp at hh
    · rw [hruns] at hh
      simp only [List.headD_cons] at hh
      have := hev hshortD
      omega
    · rw [hruns] at hh
      simp only [List.headD_cons, SEPARATOR_POSITION] at hh
      omega
    · exact hh (assembleCode_getLast hpost)
  have hafter : ¬(((assembleCode D).length : ℤ) - 8 - 1 = 1) := by
    rw [hlen]
    intro hcontra
    have hcase : D.length - 8 = 0 ∨ D.length - 8 ≥ 2 := by omega
    push_cast at hcontra
    omega
  have hvalid : isValid (assembleCode D) = true := by
    rw [isValid]
    rw [if_neg hne, hsepi, hlasti]
    rw [if_neg (by norm_num), if_neg (by norm_num),
      if_neg (by simp [SEPARATOR_POSITION])]
    rw [if_neg hpadneg, if_neg hafter, hstrip]
    rw [List.all_eq_true]
    intro ch hch
    have hmem2 := hmem ch hch
    rw [alphabet_toUpper_fixed hmem2]
    have hcont : CODE_ALPHABET.contains ch = true := by
      rw [List.contains_iff_exists_mem_beq]
      exact ⟨ch, hmem2, by simp⟩
    rw [hcont]
    simp
  have hshort : isShort (assembleCode D) = false := by
    rw [isShort, hvalid, hsepi]
    simp [SEPARATOR_POSITION]
  refine ⟨hvalid, hshort, ?_⟩
  obtain ⟨d0, d1, D2, rfl⟩ : ∃ d0 d1 D2, D = d0 :: d1 :: D2 := by
    cases D with
    | nil => simp at h2
    | cons d0 rest =>
      cases rest with
      | nil => simp at h2
      | cons d1 D2 => exact ⟨d0, d1, D2, rfl⟩
  have hd0 : d0 ∈ CODE_ALPHABET := hmem d0 (by simp)
  have hd1 : d1 ∈ CODE_ALPHABET := hmem d1 (by simp)
  have hhead : (assembleCode (d0 :: d1 :: D2)).headD ' ' = d0 := by
    rw [assembleCode_parts]
    rw [show (8 : ℕ) = 6 + 1 + 1 from rfl, List.take_succ_cons, List.take_succ_cons]
    rfl
  have hget1 : (assembleCode (d0 :: d1 :: D2)).getD 1 ' ' = d1 := by
    rw [assembleCode_parts]
    rw [show (8 : ℕ) = 6 + 1 + 1 from rfl, List.take_succ_cons, List.take_succ_cons]
    rfl
  have hEB : (ENCODING_BASE : ℤ) = 20 := by decide
  rw [isFull, hvalid, hshort]
  rw [if_neg (by simp)]
  rw [if_neg (by simp)]
  simp only [hhead, hget1]
  rw [alphabet_toUpper_fixed hd0, alphabet_toUpper_fixed hd1]
  have hfst2 : ¬((jsAlphaIndex d0 * ENCODING_BASE : ℤ) : ℚ) ≥ LATITUDE_MAX * 2 := by
    have hb := (jsAlphaIndex_mem_range hd0).1
    have hlt : jsAlphaIndex d0 < 9 := by simpa using hfst
    have : (jsAlphaIndex d0 * ENCODING_BASE : ℤ) ≤ 160 := by
      rw [hEB]
      omega
    intro hcontra
    rw [show LATITUDE_MAX * 2 = ((180 : ℤ) : ℚ) by norm_num [LATITUDE_MAX]] at hcontra
    have : (180 : ℤ) ≤ jsAlphaIndex d0 * ENCODING_BASE := by exact_mod_cast hcontra
    omega
  rw [if_neg hfst2]
  have hlen2 : (assembleCode (d0 :: d1 :: D2)).length > 1 := by
    rw [hlen]
    omega
  rw [if_pos hlen2]
  have hsnd2 : ¬((jsAlphaIndex d1 * ENCODING_BASE : ℤ) : ℚ) ≥ LONGITUDE_MAX * 2 := by
    have hb := (jsAlphaIndex_mem_range hd1).1
    have hlt : jsAlphaIndex d1 < 18 := by simpa using hsnd
    have : (jsAlphaIndex d1 * ENCODING_BASE : ℤ) ≤ 340 := by
      rw [hEB]
      omega
    intro hcontra
    rw [show LONGITUDE_MAX * 2 = ((360 : ℤ) : ℚ) by norm_num [LONGITUDE_MAX]] at hcontra
    have : (360 : ℤ) ≤ jsAlphaIndex d1 * ENCODING_BASE := by exact_mod_cast hcontra
    omega
  rw [if_neg hsnd2]

/-! ### Glue lemmas between digits, characters and codes -/

lemma mem_charsOfDigits {dl : List ℤ} (h : digitsOK dl) :
    ∀ ch ∈ charsOfDigits dl, ch ∈ CODE_ALPHABET := by
  intro ch hch
  rw [charsOfDigits, List.mem_map] at hch
  obtain ⟨v, hv, rfl⟩ := hch
  have := h v hv
  apply getD_mem_alphabet
  omega

lemma map_alpha_charsOfDigits {dl : List ℤ} (h : digitsOK dl) :
    (charsOfDigits dl).map jsAlphaIndex = dl := by
  induction dl with
  | nil => simp [charsOfDigits]
  | cons d ds ih =>
    have hd := h d (by simp)
    have hds : digitsOK ds := fun e he => h e (by simp [he])
    simp only [charsOfDigits, List.map_cons] at *
    rw [jsAlphaIndex_getD hd.1 hd.2]
    rw [ih hds]

lemma charsOfDigits_getD {dl : List ℤ} {i : ℕ} (hi : i < dl.length) :
    (charsOfDigits dl).getD i ' ' = CODE_ALPHABET.getD (dl.getD i 0).toNat ' ' := by
  rw [charsOfDigits]
  rw [List.getD_eq_getElem _ _ (by simpa using hi), List.getElem_map,
    List.getD_eq_getElem _ _ hi]

lemma gridChars_eq_map {rows cols : List ℤ} (hlen : rows.length = cols.length)
    (hrok : ∀ r ∈ rows, 0 ≤ r ∧ r < 5) (hcok : ∀ c ∈ cols, 0 ≤ c ∧ c < 4) :
    gridChars rows cols =
      (List.zip rows cols).map
        (fun p => CODE_ALPHABET.getD (p.1 * (GRID_COLUMNS : ℤ) + p.2).toNat ' ') := by
  induction rows generalizing cols with
  | nil => cases cols <;> simp [gridChars]
  | cons r rs ih =>
    cases cols with
    | nil => simp at hlen
    | cons c cs =>
      simp only [List.length_cons] at hlen
      have hr := hrok r (by simp)
      have hc := hcok c (by simp)
      have hGC : (GRID_COLUMNS : ℤ) = 4 := rfl
      have hch : jsCharAt CODE_ALPHABET (r * GRID_COLUMNS + c) =
          [CODE_ALPHABET.getD (r * (GRID_COLUMNS : ℤ) + c).toNat ' '] :=
        jsCharAt_alphabet (by rw [hGC]; omega) (by rw [hGC]; omega)
      rw [show gridChars (r :: rs) (c :: cs) =
        jsCharAt CODE_ALPHABET (r * GRID_COLUMNS + c) ++ gridChars rs cs from rfl, hch]
      rw [List.zip_cons_cons, List.map_cons]
      rw [ih (by omega) (fun x hx => hrok x (by simp [hx])) (fun x hx => hcok x (by simp [hx]))]
      rfl

lemma gridChars_length {rows cols : List ℤ} (hlen : rows.length = cols.length)
    (hrok : ∀ r ∈ rows, 0 ≤ r ∧ r < 5) (hcok : ∀ c ∈ cols, 0 ≤ c ∧ c < 4) :
    (gridChars rows cols).length = rows.length := by
  rw [gridChars_eq_map hlen hrok hcok]
  rw [List.length_map, List.length_zip]
  omega

lemma mem_gridChars {rows cols : List ℤ} (hlen : rows.length = cols.length)
    (hrok : ∀ r ∈ rows, 0 ≤ r ∧ r < 5) (hcok : ∀ c ∈ cols, 0 ≤ c ∧ c < 4) :
    ∀ ch ∈ gridChars rows cols, ch ∈ CODE_ALPHABET := by
  rw [gridChars_eq_map hlen hrok hcok]
  intro ch hch
  rw [List.mem_map] at hch
  obtain ⟨⟨r, c⟩, hmem, rfl⟩ := hch
  have hr := hrok r (List.of_mem_zip hmem).1
  have hc := hcok c (List.of_mem_zip hmem).2
  have hGC : (GRID_COLUMNS : ℤ) = 4 := rfl
  apply getD_mem_alphabet
  rw [hGC] at *
  omega

/-- Non-strict bound for the tail of a pair digit sequence. -/
lemma pairSeqValue_tail_le {ds : List ℤ} (h : digitsOK ds) :
    ∀ j, j + ds.length ≤ 4 → pairSeqValue ds (j + 1) ≤ PR j - PR (j + ds.length) := by
  induction ds with
  | nil =>
    intro j hj
    simp [pairSeqValue]
  | cons d ds ih =>
    intro j hj
    have hd := h d (by simp)
    have hds : digitsOK ds := fun e he => h e (by simp [he])
    simp only [List.length_cons] at hj
    have h1 := ih hds (j + 1) (by omega)
    have hpr1 : 0 < PR (j + 1) := PR_pos (by omega)
    have hstep : PR j = 20 * PR (j + 1) := PR_step (by omega)
    have hd19 : (d : ℚ) ≤ 19 := by exact_mod_cast (by omega : d ≤ 19)
    have h2 : (d : ℚ) * PR (j + 1) ≤ 19 * PR (j + 1) :=
      mul_le_mul_of_nonneg_right hd19 (le_of_lt hpr1)
    have harith : (j + 1) + ds.length = j + (ds.length + 1) := by omega
    rw [harith] at h1
    simp only [pairSeqValue, List.length_cons]
    linarith

/-- Non-strict bound for a grid digit sequence. -/
lemma gridSeqValue_le {m : ℕ} (hm : 0 < m) :
    ∀ {rows : List ℤ}, (∀ r ∈ rows, 0 ≤ r ∧ r < m) →
    ∀ {pv : ℚ}, 0 < pv →
    gridSeqValue m rows pv ≤ pv - pv / (m : ℚ) ^ rows.length := by
  intro rows
  induction rows with
  | nil =>
    intro _ pv hpv
    simp [gridSeqValue]
  | cons r rs ih =>
    intro h pv hpv
    have hr := h r (by simp)
    have hrs : ∀ x ∈ rs, 0 ≤ x ∧ x < m := fun x hx => h x (by simp [hx])
    have hm0 : (0 : ℚ) < m := by exact_mod_cast hm
    have hpv5 : 0 < pv / m := div_pos hpv hm0
    have h1 := ih hrs hpv5
    have h2 : (r : ℚ) * (pv / m) ≤ (m - 1 : ℚ) * (pv / m) := by
      apply mul_le_mul_of_nonneg_right _ (le_of_lt hpv5)
      have : r ≤ (m : ℤ) - 1 := by omega
      exact_mod_cast this
    have hdd : (pv / m) / (m : ℚ) ^ rs.length = pv / (m : ℚ) ^ (rs.length + 1) := by
      rw [div_div, pow_succ]
      ring_nf
    rw [hdd] at h1
    simp only [gridSeqValue, List.length_cons]
    have hfinal : (m - 1 : ℚ) * (pv / m) + pv / m = pv := by
      field_simp
      ring
    linarith

lemma map_toUpper_fixed {l : List Char} (h : ∀ ch ∈ l, ch ∈ CODE_ALPHABET) :
    l.map Char.toUpper = l := by
  induction l with
  | nil => rfl
  | cons x xs ih =>
    rw [List.map_cons, alphabet_toUpper_fixed (h x (by simp)),
      ih (fun ch hch => h ch (by simp [hch]))]

/-- The string inside `decode`, after separator and padding removal and
upper-casing, is exactly the digit list of an assembled code. -/
lemma decode_strip_assemble {D : List Char}
    (hmem : ∀ ch ∈ D, ch ∈ CODE_ALPHABET) :
    (stripFirstRun PADDING_CHARACTER
      (removeFirstOcc SEPARATOR (assembleCode D))).map Char.toUpper = D := by
  have hpadA : PADDING_CHARACTER ∉ D.take 8 := by
    intro hpad
    exact pad_not_mem_alphabet (hmem _ (List.take_subset 8 D hpad))
  have hpadP : PADDING_CHARACTER ∉ D.drop 8 := by
    intro hpad
    exact pad_not_mem_alphabet (hmem _ (List.drop_subset 8 D hpad))
  have hsepstrip : removeFirstOcc SEPARATOR (assembleCode D) =
      D.take 8 ++ List.replicate (8 - min D.length 8) PADDING_CHARACTER ++ D.drop 8 := by
    rw [assembleCode_parts]
    rw [removeFirstOcc_append (sep_not_mem_pre hmem)]
  rw [hsepstrip]
  have hstripped : stripFirstRun PADDING_CHARACTER
      (D.take 8 ++ List.replicate (8 - min D.length 8) PADDING_CHARACTER ++ D.drop 8)
      = D := by
    rcases Nat.eq_zero_or_pos (8 - min D.length 8) with hp | hp
    · rw [hp]
      simp only [List.replicate_zero, List.append_nil]
      rw [stripFirstRun_not_mem (by
        intro hpad
        rcases List.mem_append.mp hpad with hh | hh
        · exact hpadA hh
        · exact hpadP hh)]
      exact List.take_append_drop 8 D
    · have hdrop : D.drop 8 = [] := List.drop_eq_nil_of_le (by omega)
      rw [hdrop]
      rw [stripFirstRun_structured hpadA hp (by intro y hy; simp at hy)]
      rw [List.append_nil, List.take_eq_self_iff]
      omega
  rw [hstripped]
  exact map_toUpper_fixed hmem

lemma mem_interleave {A B : List Char} {x : Char} :
    x ∈ interleave A B → x ∈ A ∨ x ∈ B := by
  induction A generalizing B with
  | nil => intro h; cases B <;> simp [interleave] at h
  | cons a as ih =>
    intro h
    cases B with
    | nil => simp [interleave] at h
    | cons b bs =>
      simp only [interleave, List.mem_cons] at h
      rcases h with h | h | h
      · exact Or.inl (by simp [h])
      · exact Or.inr (by simp [h])
      · rcases ih h with hh | hh
        · exact Or.inl (by simp [hh])
        · exact Or.inr (by simp [hh])

/-- Unfolded form of `decode` on a full code. -/
lemma decode_eq_of_isFull {code : List Char} (h : isFull code = true) :
    decode code =
      (let code2 := (stripFirstRun PADDING_CHARACTER
        (removeFirstOcc SEPARATOR code)).map Char.toUpper
      let codeArea := decodePairs (code2.take PAIR_CODE_LENGTH)
      if code2.length ≤ PAIR_CODE_LENGTH then .ok codeArea
      else
        let gridArea := decodeGrid (code2.drop PAIR_CODE_LENGTH)
        .ok (CodeArea.init (codeArea.latitudeLo + gridArea.latitudeLo)
          (codeArea.longitudeLo + gridArea.longitudeLo)
          (codeArea.latitudeLo + gridArea.latitudeHi)
          (codeArea.longitudeLo + gridArea.longitudeHi)
          (codeArea.codeLength + gridArea.codeLength))) := by
  rw [decode, h]
  rw [if_neg (by simp)]

/-- Common well-formedness facts about an interleaved pair-digit string. -/
lemma interleave_digit_facts {dl dn : List ℤ}
    (ht1 : 1 ≤ dl.length) (hlen : dl.length = dn.length)
    (hdok : digitsOK dl) (hnok : digitsOK dn) :
    (interleave (charsOfDigits dl) (charsOfDigits dn)).length = 2 * dl.length ∧
    (∀ ch ∈ interleave (charsOfDigits dl) (charsOfDigits dn), ch ∈ CODE_ALPHABET) ∧
    jsAlphaIndex ((interleave (charsOfDigits dl) (charsOfDigits dn)).getD 0 ' ')
      = dl.getD 0 0 ∧
    jsAlphaIndex ((interleave (charsOfDigits dl) (charsOfDigits dn)).getD 1 ' ')
      = dn.getD 0 0 := by
  have hABlen : (charsOfDigits dl).length = (charsOfDigits dn).length := by
    simp [charsOfDigits_length, hlen]
  have hd0mem := hdok (dl.getD 0 0) (getD_mem_of_lt (by omega) 0)
  have hn0mem := hnok (dn.getD 0 0) (getD_mem_of_lt (by omega) 0)
  refine ⟨?_, ?_, ?_, ?_⟩
  · rw [interleave_length hABlen, charsOfDigits_length]
  · intro ch hch
    rcases mem_interleave hch with hh | hh
    · exact mem_charsOfDigits hdok ch hh
    · exact mem_charsOfDigits hnok ch hh
  · rw [show (0 : ℕ) = 2 * 0 from rfl, interleave_getD_even hABlen 0 ' ']
    rw [charsOfDigits_getD (by omega)]
    exact jsAlphaIndex_getD hd0mem.1 hd0mem.2
  · rw [show (1 : ℕ) = 2 * 0 + 1 from rfl, interleave_getD_odd hABlen 0 ' ']
    rw [charsOfDigits_getD (by omega)]
    exact jsAlphaIndex_getD hn0mem.1 hn0mem.2

/-- Decoding an assembled pure-pair code recovers the digit values. -/
lemma decode_assemble_pair {dl dn : List ℤ}
    (ht1 : 1 ≤ dl.length) (ht5 : dl.length ≤ 5) (hlen : dl.length = dn.length)
    (hdok : digitsOK dl) (hnok : digitsOK dn)
    (hfst : dl.getD 0 0 < 9) (hsnd : dn.getD 0 0 < 18) :
    decode (assembleCode (interleave (charsOfDigits dl) (charsOfDigits dn))) =
      .ok (CodeArea.init (pairSeqValue dl 0 - LATITUDE_MAX)
        (pairSeqValue dn 0 - LONGITUDE_MAX)
        (pairSeqValue dl 0 + PR (dl.length - 1) - LATITUDE_MAX)
        (pairSeqValue dn 0 + PR (dl.length - 1) - LONGITUDE_MAX)
        (2 * dl.length)) := by
  obtain ⟨hDlen, hDmem, halpha0, halpha1⟩ := interleave_digit_facts ht1 hlen hdok hnok
  have hful := assembleCode_isFull (by omega) (by omega) (by intro _; omega) hDmem
    (by rw [halpha0]; exact hfst) (by rw [halpha1]; exact hsnd)
  rw [decode_eq_of_isFull hful.2.2]
  rw [decode_strip_assemble hDmem]
  have htake : (interleave (charsOfDigits dl) (charsOfDigits dn)).take PAIR_CODE_LENGTH
      = interleave (charsOfDigits dl) (charsOfDigits dn) := by
    rw [List.take_eq_self_iff, hDlen, PAIR_CODE_LENGTH]
    omega
  have hle : (interleave (charsOfDigits dl) (charsOfDigits dn)).length ≤ PAIR_CODE_LENGTH := by
    rw [hDlen, PAIR_CODE_LENGTH]
    omega
  simp only [htake, if_pos hle]
  have hABlen : (charsOfDigits dl).length = (charsOfDigits dn).length := by
    simp [charsOfDigits_length, hlen]
  rw [decodePairs_interleave hABlen]
  rw [map_alpha_charsOfDigits hdok, map_alpha_charsOfDigits hnok, charsOfDigits_length]

/-- Decoding an assembled pair-and-grid code recovers all digit values. -/
lemma decode_assemble_grid {dl dn rows cols : List ℤ}
    (ht : dl.length = 5) (hlen : dn.length = 5)
    (hdok : digitsOK dl) (hnok : digitsOK dn)
    (hfst : dl.getD 0 0 < 9) (hsnd : dn.getD 0 0 < 18)
    (hg1 : 1 ≤ rows.length) (hglen : rows.length = cols.length)
    (hrok : ∀ r ∈ rows, 0 ≤ r ∧ r < 5) (hcok : ∀ c ∈ cols, 0 ≤ c ∧ c < 4) :
    decode (assembleCode (interleave (charsOfDigits dl) (charsOfDigits dn) ++
        gridChars rows cols)) =
      .ok (CodeArea.init
        (pairSeqValue dl 0 - LATITUDE_MAX + gridSeqValue GRID_ROWS rows GRID_SIZE_DEGREES)
        (pairSeqValue dn 0 - LONGITUDE_MAX + gridSeqValue GRID_COLUMNS cols GRID_SIZE_DEGREES)
        (pairSeqValue dl 0 - LATITUDE_MAX + gridSeqValue GRID_ROWS rows GRID_SIZE_DEGREES +
          GRID_SIZE_DEGREES / (GRID_ROWS : ℚ) ^ rows.length)
        (pairSeqValue dn 0 - LONGITUDE_MAX + gridSeqValue GRID_COLUMNS cols GRID_SIZE_DEGREES +
          GRID_SIZE_DEGREES / (GRID_COLUMNS : ℚ) ^ rows.length)
        (10 + rows.length)) := by
  obtain ⟨hIlen, hImem, halpha0, halpha1⟩ :=
    interleave_digit_facts (by omega) (by omega) hdok hnok
  have hGlen := gridChars_length hglen hrok hcok
  have hGmem := mem_gridChars hglen hrok hcok
  have hDlen : (interleave (charsOfDigits dl) (charsOfDigits dn) ++
      gridChars rows cols).length = 10 + rows.length := by
    rw [List.length_append, hIlen, hGlen, ht]
  have hDmem : ∀ ch ∈ interleave (charsOfDigits dl) (charsOfDigits dn) ++
      gridChars rows cols, ch ∈ CODE_ALPHABET := by
    intro ch hch
    rcases List.mem_append.mp hch with hh | hh
    · exact hImem ch hh
    · exact hGmem ch hh
  have hI10 : (interleave (charsOfDigits dl) (charsOfDigits dn)).length = 10 := by
    rw [hIlen, ht]
  have hget0 : (interleave (charsOfDigits dl) (charsOfDigits dn) ++
      gridChars rows cols).getD 0 ' ' =
      (interleave (charsOfDigits dl) (charsOfDigits dn)).getD 0 ' ' :=
    List.getD_append _ _ ' ' 0 (by omega)
  have hget1 : (interleave (charsOfDigits dl) (charsOfDigits dn) ++
      gridChars rows cols).getD 1 ' ' =
      (interleave (charsOfDigits dl) (charsOfDigits dn)).getD 1 ' ' :=
    List.getD_append _ _ ' ' 1 (by omega)
  have hful := assembleCode_isFull (D := interleave (charsOfDigits dl) (charsOfDigits dn) ++
      gridChars rows cols)
    (by omega) (by omega) (by intro hcontra; omega) hDmem
    (by rw [hget0, halpha0]; exact hfst) (by rw [hget1, halpha1]; exact hsnd)
  rw [decode_eq_of_isFull hful.2.2]
  rw [decode_strip_assemble hDmem]
  have htake : (interleave (charsOfDigits dl) (charsOfDigits dn) ++
      gridChars rows cols).take PAIR_CODE_LENGTH
      = interleave (charsOfDigits dl) (charsOfDigits dn) := by
    rw [PAIR_CODE_LENGTH, ← hI10]
    exact List.take_left _ _
  have hdrop : (interleave (charsOfDigits dl) (charsOfDigits dn) ++
      gridChars rows cols).drop PAIR_CODE_LENGTH = gridChars rows cols := by
    rw [PAIR_CODE_LENGTH, ← hI10]
    exact List.drop_left _ _
  have hnotle : ¬((interleave (charsOfDigits dl) (charsOfDigits dn) ++
      gridChars rows cols).length ≤ PAIR_CODE_LENGTH) := by
    rw [hDlen, PAIR_CODE_LENGTH]
    omega
  simp only [htake, hdrop, if_neg hnotle]
  have hABlen : (charsOfDigits dl).length = (charsOfDigits dn).length := by
    simp [charsOfDigits_length, hlen, ht]
  rw [decodePairs_interleave hABlen]
  rw [map_alpha_charsOfDigits hdok, map_alpha_charsOfDigits hnok, charsOfDigits_length]
  rw [decodeGrid]
  rw [decodeGridLoop_spec rows cols hglen hrok hcok 0 0 GRID_SIZE_DEGREES GRID_SIZE_DEGREES]
  rw [gridChars_length hglen hrok hcok]
  simp only [CodeArea.init, zero_add, ht]
  norm_num
  constructor <;> ring

/-! ### Clipping and longitude normalization -/

lemma clipLatitude_mem (lat : ℚ) : -90 ≤ clipLatitude lat ∧ clipLatitude lat ≤ 90 :=
  ⟨le_min (by norm_num) (le_max_left _ _), min_le_left _ _⟩

lemma clipLatitude_eq_self {lat : ℚ} (h0 : -90 ≤ lat) (h1 : lat ≤ 90) :
    clipLatitude lat = lat := by
  rw [clipLatitude, max_eq_right h0, min_eq_right h1]

lemma normUp_eq_self {lng : ℚ} (h : ¬lng < -180) : normUp lng = lng := by
  rw [normUp, dif_neg h]

lemma normDown_eq_self {lng : ℚ} (h : ¬lng ≥ 180) : normDown lng = lng := by
  rw [normDown, dif_neg h]

lemma normUp_facts : ∀ (n : ℕ) (lng : ℚ), (⌈(-180 - lng) / 360⌉).toNat ≤ n →
    -180 ≤ normUp lng ∧ (lng < 180 → normUp lng < 180) := by
  intro n
  induction n with
  | zero =>
    intro lng hm
    have h : ¬lng < -180 := by
      intro hlt
      have hpos : (0 : ℤ) < ⌈(-180 - lng) / 360⌉ := by
        rw [Int.ceil_pos]
        have : (0 : ℚ) < -180 - lng := by linarith
        positivity
      omega
    rw [normUp_eq_self h]
    exact ⟨not_lt.mp h, fun h2 => h2⟩
  | succ n ih =>
    intro lng hm
    by_cases h : lng < -180
    · rw [normUp, dif_pos h]
      have h1 : (-180 - (lng + 360)) / 360 = (-180 - lng) / 360 - 1 := by ring
      have h2 : (0 : ℤ) < ⌈(-180 - lng) / 360⌉ := by
        rw [Int.ceil_pos]
        have : (0 : ℚ) < -180 - lng := by linarith
        positivity
      have h3 : (⌈(-180 - (lng + 360)) / 360⌉).toNat ≤ n := by
        rw [h1, Int.ceil_sub_one]
        omega
      have h4 := ih (lng + 360) h3
      exact ⟨h4.1, fun _ => h4.2 (by linarith)⟩
    · rw [normUp_eq_self h]
      exact ⟨not_lt.mp h, fun h2 => h2⟩

lemma normDown_facts : ∀ (n : ℕ) (lng : ℚ), (⌈(lng + 180) / 360⌉).toNat ≤ n →
    normDown lng < 180 ∧ (-180 ≤ lng → -180 ≤ normDown lng) := by
  intro n
  induction n with
  | zero =>
    intro lng hm
    have h : ¬lng ≥ 180 := by
      intro hge
      have hpos : (0 : ℤ) < ⌈(lng + 180) / 360⌉ := by
        rw [Int.ceil_pos]
        have : (0 : ℚ) < lng + 180 := by linarith
        positivity
      omega
    rw [normDown_eq_self h]
    exact ⟨not_le.mp h, fun h2 => h2⟩
  | succ n ih =>
    intro lng hm
    by_cases h : lng ≥ 180
    · rw [normDown, dif_pos h]
      have h1 : (lng - 360 + 180) / 360 = (lng + 180) / 360 - 1 := by ring
      have h2 : (0 : ℤ) < ⌈(lng + 180) / 360⌉ := by
        rw [Int.ceil_pos]
        have : (0 : ℚ) < lng + 180 := by linarith
        positivity
      have h3 : (⌈(lng - 360 + 180) / 360⌉).toNat ≤ n := by
        rw [h1, Int.ceil_sub_one]
        omega
      have h4 := ih (lng - 360) h3
      exact ⟨h4.1, fun _ => h4.2 (by linarith)⟩
    · rw [normDown_eq_self h]
      exact ⟨not_le.mp h, fun h2 => h2⟩

lemma normalizeLongitude_mem (lng : ℚ) :
    -180 ≤ normalizeLongitude lng ∧ normalizeLongitude lng < 180 := by
  rw [normalizeLongitude]
  have h1 := normUp_facts _ lng le_rfl
  have h2 := normDown_facts _ (normUp lng) le_rfl
  exact ⟨h2.2 h1.1, h2.1⟩

lemma normalizeLongitude_eq_self {lng : ℚ} (h0 : -180 ≤ lng) (h1 : lng < 180) :
    normalizeLongitude lng = lng := by
  rw [normalizeLongitude, normUp_eq_self (by linarith), normDown_eq_self (by linarith)]

/-! ### The latitude precision -/

lemma computeLatitudePrecision_pos (cl : ℕ) : 0 < computeLatitudePrecision cl := by
  rw [computeLatitudePrecision]
  split_ifs
  · exact zpow_pos (by norm_num) _
  · apply div_pos (zpow_pos (by norm_num) _)
    norm_num [GRID_ROWS]

lemma computeLatitudePrecision_le {cl : ℕ} (h : 2 ≤ cl) :
    computeLatitudePrecision cl ≤ 20 := by
  rw [computeLatitudePrecision]
  split_ifs with h10
  · have he : ⌊(cl : ℚ) / (-2) + 2⌋ ≤ 1 := by
      have hcl : (2 : ℚ) ≤ (cl : ℚ) := by exact_mod_cast h
      calc ⌊(cl : ℚ) / (-2) + 2⌋ ≤ ⌊(1 : ℚ)⌋ := Int.floor_le_floor (by linarith)
        _ = 1 := Int.floor_one
    calc (20 : ℚ) ^ ⌊(cl : ℚ) / (-2) + 2⌋ ≤ (20 : ℚ) ^ (1 : ℤ) :=
          zpow_le_zpow_right₀ (by norm_num) he
      _ = 20 := by norm_num
  · have h5 : (1 : ℚ) ≤ (GRID_ROWS : ℚ) ^ (cl - 10) := by
      apply one_le_pow₀
      norm_num [GRID_ROWS]
    have h0 : (0 : ℚ) < (20 : ℚ) ^ (-3 : ℤ) := zpow_pos (by norm_num) _
    calc (20 : ℚ) ^ (-3 : ℤ) / (GRID_ROWS : ℚ) ^ (cl - 10) ≤ (20 : ℚ) ^ (-3 : ℤ) := by
          apply div_le_self (le_of_lt h0) h5
      _ ≤ 20 := by norm_num

/-- A helper to compute integer floors of explicit rationals. -/
lemma floor_eq_of {x : ℚ} {z : ℤ} (h1 : (z : ℚ) ≤ x) (h2 : x < z + 1) : ⌊x⌋ = z :=
  Int.floor_eq_iff.mpr ⟨h1, h2⟩

/-- For the accepted pair lengths the latitude precision is exactly the cell
size of the last encoded pair.  Length 9 runs the pair loop five times, so it
shares the cell size of length 10. -/
lemma computeLatitudePrecision_pairs {cl : ℕ} (h2 : 2 ≤ cl) (h10 : cl ≤ 10)
    (he : cl % 2 = 0 ∨ cl = 9) :
    computeLatitudePrecision cl = PR ((min cl 10 + 1) / 2 - 1) := by
  rw [computeLatitudePrecision, if_pos h10]
  interval_cases cl
  · push_cast
    rw [show ⌊(2 : ℚ) / (-2) + 2⌋ = 1 from floor_eq_of (by norm_num) (by norm_num)]
    norm_num [PR, PAIR_RESOLUTIONS]
  · omega
  · push_cast
    rw [show ⌊(4 : ℚ) / (-2) + 2⌋ = 0 from floor_eq_of (by norm_num) (by norm_num)]
    norm_num [PR, PAIR_RESOLUTIONS]
  · omega
  · push_cast
    rw [show ⌊(6 : ℚ) / (-2) + 2⌋ = -1 from floor_eq_of (by norm_num) (by norm_num)]
    norm_num [PR, PAIR_RESOLUTIONS]
  · omega
  · push_cast
    rw [show ⌊(8 : ℚ) / (-2) + 2⌋ = -2 from floor_eq_of (by norm_num) (by norm_num)]
    norm_num [PR, PAIR_RESOLUTIONS]
  · push_cast
    rw [show ⌊(9 : ℚ) / (-2) + 2⌋ = -3 from floor_eq_of (by norm_num) (by norm_num)]
    norm_num [PR, PAIR_RESOLUTIONS]
  · push_cast
    rw [show ⌊(10 : ℚ) / (-2) + 2⌋ = -3 from floor_eq_of (by norm_num) (by norm_num)]
    norm_num [PR, PAIR_RESOLUTIONS]

lemma computeLatitudePrecision_grid {cl : ℕ} (h : 10 < cl) :
    computeLatitudePrecision cl =
      GRID_SIZE_DEGREES / (GRID_ROWS : ℚ) ^ (cl - 10) := by
  rw [computeLatitudePrecision, if_neg (by omega)]
  norm_num [GRID_SIZE_DEGREES]

/-! ### Arithmetic structure of the digit values -/

lemma assembleCode_append {D G : List Char} (h : 8 ≤ D.length) :
    assembleCode D ++ G = assembleCode (D ++ G) := by
  rw [assembleCode, assembleCode]
  have h1 : 8 - min D.length 8 = 0 := by omega
  have h2 : 8 - min (D ++ G).length 8 = 0 := by
    rw [List.length_append]
    omega
  rw [h1, h2, List.take_append_of_le_length h, List.drop_append_of_le_length h]
  simp

lemma PR_pow : ∀ (k j : ℕ), j + k ≤ 4 → PR j = (20 : ℚ) ^ k * PR (j + k) := by
  intro k
  induction k with
  | zero => intro j _; simp
  | succ k ih =>
    intro j hj
    have harith : j + (k + 1) = (j + 1) + k := by omega
    rw [harith, PR_step (by omega), ih (j + 1) (by omega), pow_succ]
    ring

lemma PR_four_eq : PR 4 = GRID_SIZE_DEGREES := by
  norm_num [PR, PAIR_RESOLUTIONS, GRID_SIZE_DEGREES]

/-- The value of a digit sequence above resolution `m` is an integer
multiple of `PR m`, nonnegative for in-range digits. -/
lemma pairSeqValue_int_mul : ∀ (ds : List ℤ) (j m : ℕ), j + ds.length ≤ m + 1 → m ≤ 4 →
    ∃ K : ℤ, pairSeqValue ds j = K * PR m ∧ (digitsOK ds → 0 ≤ K) := by
  intro ds
  induction ds with
  | nil =>
    intro j m _ _
    exact ⟨0, by simp [pairSeqValue], fun _ => le_refl 0⟩
  | cons d ds ih =>
    intro j m hj hm
    simp only [List.length_cons] at hj
    obtain ⟨K, hK, hK0⟩ := ih (j + 1) m (by omega) hm
    refine ⟨d * 20 ^ (m - j) + K, ?_, ?_⟩
    · have hpow := PR_pow (m - j) j (by omega)
      rw [show j + (m - j) = m from by omega] at hpow
      simp only [pairSeqValue, hK, hpow]
      push_cast
      ring
    · intro hok
      have hd := (hok d (by simp)).1
      have hds : digitsOK ds := fun e he => hok e (by simp [he])
      have h1 := hK0 hds
      have h2 : (0 : ℤ) ≤ d * 20 ^ (m - j) := mul_nonneg hd (by positivity)
      omega

lemma pairSeqValue_split : ∀ (ds : List ℤ) (j k : ℕ),
    pairSeqValue ds j = pairSeqValue (ds.take k) j + pairSeqValue (ds.drop k) (j + k) := by
  intro ds
  induction ds with
  | nil => intro j k; simp [pairSeqValue]
  | cons d ds ih =>
    intro j k
    cases k with
    | zero => simp [pairSeqValue]
    | succ k =>
      simp only [List.take_succ_cons, List.drop_succ_cons, pairSeqValue]
      rw [ih (j + 1) k, show j + (k + 1) = (j + 1) + k from by omega]
      ring

/-- Upper bound on a digit-sequence value in terms of its first digit. -/
lemma pairSeqValue_le_of_first {ds : List ℤ} (h : digitsOK ds) (h1 : 1 ≤ ds.length)
    (h5 : ds.length ≤ 5) {b : ℤ} (hb : ds.getD 0 0 ≤ b) :
    pairSeqValue ds 0 ≤ (b + 1) * 20 - PR (ds.length - 1) := by
  cases ds with
  | nil => simp at h1
  | cons d tl =>
    simp only [List.getD_cons_zero] at hb
    simp only [List.length_cons] at h5 ⊢
    have htl : digitsOK tl := fun e he => h e (by simp [he])
    have h2 := pairSeqValue_tail_le htl 0 (by omega)
    simp only [pairSeqValue]
    have hd : (d : ℚ) ≤ (b : ℚ) := by exact_mod_cast hb
    have hPR0 : PR 0 = 20 := by norm_num [PR, PAIR_RESOLUTIONS]
    have hidx : 0 + tl.length = tl.length + 1 - 1 := by omega
    rw [hidx] at h2
    rw [hPR0] at h2 ⊢
    nlinarith [PR_pos (show tl.length + 1 - 1 ≤ 4 by omega)]

lemma pairSeqValue_ge_first {ds : List ℤ} (h : digitsOK ds) (h1 : 1 ≤ ds.length)
    (h5 : ds.length ≤ 5) :
    (ds.getD 0 0 : ℚ) * 20 ≤ pairSeqValue ds 0 := by
  cases ds with
  | nil => simp at h1
  | cons d tl =>
    simp only [List.getD_cons_zero, pairSeqValue]
    have htl : digitsOK tl := fun e he => h e (by simp [he])
    have h2 : 0 ≤ pairSeqValue tl 1 := pairSeqValue_nonneg htl 1 (by
      simp only [List.length_cons] at h5
      omega)
    have hPR0 : PR 0 = 20 := by norm_num [PR, PAIR_RESOLUTIONS]
    rw [hPR0]
    linarith

/-! ### Length 9 runs the pair loop exactly like length 10 -/

lemma encodePairsLoop_nine : ∀ (t j : ℕ), j + t = 5 → ∀ la ln : ℚ,
    encodePairsLoop la ln (2 * j) 9 = encodePairsLoop la ln (2 * j) 10 := by
  intro t
  induction t with
  | zero =>
    intro j hj la ln
    rw [encodePairsLoop_end (by omega), encodePairsLoop_end (by omega)]
  | succ t ih =>
    intro j hj la ln
    rw [encodePairsLoop_step (by omega : 2 * j < 9),
      encodePairsLoop_step (by omega : 2 * j < 10)]
    have hsep : (if 2 * j + 2 = SEPARATOR_POSITION ∧ 2 * j + 2 < 9
        then [SEPARATOR] else []) =
        (if 2 * j + 2 = SEPARATOR_POSITION ∧ 2 * j + 2 < 10
        then [SEPARATOR] else []) := by
      have hs : SEPARATOR_POSITION = 8 := rfl
      by_cases h8 : 2 * j + 2 = 8
      · rw [if_pos ⟨by omega, by omega⟩, if_pos ⟨by omega, by omega⟩]
      · rw [if_neg (by rw [hs]; omega), if_neg (by rw [hs]; omega)]
    rw [hsep, show 2 * j + 2 = 2 * (j + 1) from by omega, ih (j + 1) (by omega)]

lemma encodePairs_nine (la ln : ℚ) : encodePairs la ln 9 = encodePairs la ln 10 := by
  rw [encodePairs, encodePairs,
    show (0 : ℕ) = 2 * 0 from rfl, encodePairsLoop_nine 5 0 (by omega)]

/-! ### The master encoder specification -/

/-- Core specification of `encode` after latitude clipping, the latitude-90
adjustment and longitude normalization have produced in-range coordinates:
the result is an assembled full code that decodes to a cell containing the
point, of height exactly `computeLatitudePrecision`. -/
lemma encode_spec_core {la ln : ℚ} {cl : ℕ}
    (hok8 : ¬(cl < 2 ∨ (cl < 8 ∧ cl % 2 = 1)))
    (hla_lo : -90 ≤ la) (hla_lt : la < 90)
    (hln_lo : -180 ≤ ln) (hln_lt : ln < 180) :
    ∃ D : List Char, ∃ area : CodeArea,
      (if cl > PAIR_CODE_LENGTH
        then (Except.ok (encodePairs la ln (min cl PAIR_CODE_LENGTH) ++
          encodeGrid la ln (cl - PAIR_CODE_LENGTH)) : Except String (List Char))
        else Except.ok (encodePairs la ln (min cl PAIR_CODE_LENGTH))) =
        Except.ok (assembleCode D) ∧
      2 ≤ D.length ∧ (∀ ch ∈ D, ch ∈ CODE_ALPHABET) ∧
      isValid (assembleCode D) = true ∧
      isShort (assembleCode D) = false ∧
      isFull (assembleCode D) = true ∧
      decode (assembleCode D) = .ok area ∧
      area.latitudeLo ≤ la ∧ la < area.latitudeHi ∧
      area.latitudeHi = area.latitudeLo + computeLatitudePrecision cl ∧
      area.longitudeLo ≤ ln ∧ ln < area.longitudeHi := by
  have hLM : LATITUDE_MAX = (90 : ℚ) := rfl
  have hLN : LONGITUDE_MAX = (180 : ℚ) := rfl
  have hPCL : PAIR_CODE_LENGTH = 10 := rfl
  have hcl2 : 2 ≤ cl := by omega
  obtain ⟨t, ht_def⟩ : ∃ t : ℕ, t = (min cl 10 + 1) / 2 := ⟨_, rfl⟩
  have ht1 : 1 ≤ t := by omega
  have ht5 : t ≤ 5 := by omega
  obtain ⟨dl, dn, rl, rn, hdlen, hnlen, hdok, hnok, hval, hnval, hrl0, hrn0, hrl, hrn, hEP⟩ :=
    @encodePairs_spec la ln (2 * t) (by omega) (by omega) (by omega)
      (by rw [hLM]; linarith) (by rw [hLM]; linarith)
      (by rw [hLN]; linarith) (by rw [hLN]; linarith)
  rw [hLM] at hval
  rw [hLN] at hnval
  have hdl5 : dl.length = t := by omega
  have hdn5 : dn.length = t := by omega
  rw [show 2 * t / 2 - 1 = t - 1 from by omega] at hrl hrn
  have hldn : dl.length = dn.length := by omega
  -- first-digit bounds
  have hge := pairSeqValue_ge_first hdok (by omega) (by omega)
  have hnge := pairSeqValue_ge_first hnok (by omega) (by omega)
  have hfst : dl.getD 0 0 < 9 := by
    have hq : (dl.getD 0 0 : ℚ) < 9 := by linarith
    exact_mod_cast hq
  have hsnd : dn.getD 0 0 < 18 := by
    have hq : (dn.getD 0 0 : ℚ) < 18 := by linarith
    exact_mod_cast hq
  obtain ⟨hIlen, hImem, halpha0, halpha1⟩ := interleave_digit_facts (by omega) hldn hdok hnok
  have hPRpos : 0 < PR (t - 1) := PR_pos (by omega)
  rcases le_or_lt cl 10 with hcase | hcase
  · -- pair-only code
    have hEPcl : encodePairs la ln (min cl PAIR_CODE_LENGTH) =
        assembleCode (interleave (charsOfDigits dl) (charsOfDigits dn)) := by
      rw [hPCL, show min cl 10 = cl from by omega]
      rcases (by omega : cl = 2 * t ∨ cl = 9) with h | h
      · rw [h]
        exact hEP
      · rw [h, encodePairs_nine]
        rw [show 2 * t = 10 from by omega] at hEP
        exact hEP
    have hful := assembleCode_isFull (by omega) (by omega) (by intro _; omega) hImem
      (by rw [halpha0]; exact hfst) (by rw [halpha1]; exact hsnd)
    have hdec := decode_assemble_pair (by omega) (by omega) hldn hdok hnok hfst hsnd
    refine ⟨interleave (charsOfDigits dl) (charsOfDigits dn),
      CodeArea.init (pairSeqValue dl 0 - LATITUDE_MAX)
        (pairSeqValue dn 0 - LONGITUDE_MAX)
        (pairSeqValue dl 0 + PR (dl.length - 1) - LATITUDE_MAX)
        (pairSeqValue dn 0 + PR (dl.length - 1) - LONGITUDE_MAX)
        (2 * dl.length),
      ?_, by omega, hImem, hful.1, hful.2.1, hful.2.2, hdec, ?_, ?_, ?_, ?_, ?_⟩
    · rw [if_neg (by omega : ¬cl > PAIR_CODE_LENGTH), hEPcl]
    · simp only [CodeArea.init, hLM]
      linarith
    · simp only [CodeArea.init, hLM, hdl5]
      linarith
    · simp only [CodeArea.init, hLM]
      rw [computeLatitudePrecision_pairs hcl2 hcase (by omega), ← ht_def, hdl5]
      ring
    · simp only [CodeArea.init, hLN]
      linarith
    · simp only [CodeArea.init, hLN, hdl5]
      linarith
  · -- grid-refined code
    have ht10 : t = 5 := by omega
    have hGSD : (0 : ℚ) < GRID_SIZE_DEGREES := by norm_num [GRID_SIZE_DEGREES]
    obtain ⟨K, hK, hK0⟩ := pairSeqValue_int_mul dl 0 4 (by omega) (by omega)
    obtain ⟨L, hL, hL0⟩ := pairSeqValue_int_mul dn 0 4 (by omega) (by omega)
    rw [show t - 1 = 4 from by omega, PR_four_eq] at hrl hrn
    have hjsLat : jsMod (la + LATITUDE_MAX) GRID_SIZE_DEGREES = rl := by
      apply jsMod_eq hGSD (hK0 hdok) _ hrl0 hrl
      rw [hLM, hval, hK, PR_four_eq]
    have hjsLng : jsMod (ln + LONGITUDE_MAX) GRID_SIZE_DEGREES = rn := by
      apply jsMod_eq hGSD (hL0 hnok) _ hrn0 hrn
      rw [hLN, hnval, hL, PR_four_eq]
    obtain ⟨rows, cols, rl', rn', hrowlen, hcollen, hrok, hcok, hgval, hgnval,
        hrl'0, hrl't, hrn'0, hrn't, hGL⟩ :=
      encodeGridLoop_extract (cl - 10) rl rn GRID_SIZE_DEGREES GRID_SIZE_DEGREES
        hGSD hGSD hrl0 hrl hrn0 hrn
    have hEG : encodeGrid la ln (cl - PAIR_CODE_LENGTH) = gridChars rows cols := by
      rw [encodeGrid, hjsLat, hjsLng, hPCL]
      exact hGL
    have hDmem : ∀ ch ∈ interleave (charsOfDigits dl) (charsOfDigits dn) ++
        gridChars rows cols, ch ∈ CODE_ALPHABET := by
      intro ch hch
      rcases List.mem_append.mp hch with hh | hh
      · exact hImem ch hh
      · exact mem_gridChars (by omega) hrok hcok ch hh
    have hDlen : (interleave (charsOfDigits dl) (charsOfDigits dn) ++
        gridChars rows cols).length = 10 + (cl - 10) := by
      rw [List.length_append, hIlen, gridChars_length (by omega) hrok hcok, hdl5, ht10,
        hrowlen]
    have hget0 : (interleave (charsOfDigits dl) (charsOfDigits dn) ++
        gridChars rows cols).getD 0 ' ' =
        (interleave (charsOfDigits dl) (charsOfDigits dn)).getD 0 ' ' :=
      List.getD_append _ _ ' ' 0 (by omega)
    have hget1 : (interleave (charsOfDigits dl) (charsOfDigits dn) ++
        gridChars rows cols).getD 1 ' ' =
        (interleave (charsOfDigits dl) (charsOfDigits dn)).getD 1 ' ' :=
      List.getD_append _ _ ' ' 1 (by omega)
    have hful := assembleCode_isFull (by omega) (by omega) (by intro _; omega) hDmem
      (by rw [hget0, halpha0]; exact hfst) (by rw [hget1, halpha1]; exact hsnd)
    have hdec := decode_assemble_grid (by omega) (by omega) hdok hnok hfst hsnd
      (by omega) (by omega) hrok hcok
    refine ⟨interleave (charsOfDigits dl) (charsOfDigits dn) ++ gridChars rows cols,
      CodeArea.init
        (pairSeqValue dl 0 - LATITUDE_MAX + gridSeqValue GRID_ROWS rows GRID_SIZE_DEGREES)
        (pairSeqValue dn 0 - LONGITUDE_MAX + gridSeqValue GRID_COLUMNS cols GRID_SIZE_DEGREES)
        (pairSeqValue dl 0 - LATITUDE_MAX + gridSeqValue GRID_ROWS rows GRID_SIZE_DEGREES +
          GRID_SIZE_DEGREES / (GRID_ROWS : ℚ) ^ rows.length)
        (pairSeqValue dn 0 - LONGITUDE_MAX + gridSeqValue GRID_COLUMNS cols GRID_SIZE_DEGREES +
          GRID_SIZE_DEGREES / (GRID_COLUMNS : ℚ) ^ rows.length)
        (10 + rows.length),
      ?_, by omega, hDmem, hful.1, hful.2.1, hful.2.2, hdec, ?_, ?_, ?_, ?_, ?_⟩
    · rw [if_pos (by omega : cl > PAIR_CODE_LENGTH), hEG, hPCL,
        show min cl 10 = 10 from by omega]
      rw [show (10 : ℕ) = 2 * t from by omega, hEP,
        assembleCode_append (by rw [hIlen]; omega)]
    · simp only [CodeArea.init, hLM]
      linarith
    · simp only [CodeArea.init, hLM, hrowlen]
      linarith
    · simp only [CodeArea.init, hLM]
      rw [computeLatitudePrecision_grid hcase, hrowlen]
    · simp only [CodeArea.init, hLN]
      linarith
    · simp only [CodeArea.init, hLN, hrowlen]
      have hgc : ((GRID_COLUMNS : ℕ) : ℚ) = 4 := by norm_num [GRID_COLUMNS]
      linarith

/-- `encode` on arbitrary inputs: clipping and normalization included. -/
lemma encode_spec {lat lng : ℚ} {cl : ℕ}
    (hok : ¬(cl < 2 ∨ (cl < SEPARATOR_POSITION ∧ cl % 2 = 1))) :
    ∃ D : List Char, ∃ area : CodeArea,
      encode lat lng cl = .ok (assembleCode D) ∧
      2 ≤ D.length ∧ (∀ ch ∈ D, ch ∈ CODE_ALPHABET) ∧
      isValid (assembleCode D) = true ∧
      isShort (assembleCode D) = false ∧
      isFull (assembleCode D) = true ∧
      decode (assembleCode D) = .ok area ∧
      area.latitudeLo ≤ (if clipLatitude lat = 90
        then clipLatitude lat - computeLatitudePrecision cl else clipLatitude lat) ∧
      (if clipLatitude lat = 90
        then clipLatitude lat - computeLatitudePrecision cl else clipLatitude lat) <
        area.latitudeHi ∧
      area.latitudeHi = area.latitudeLo + computeLatitudePrecision cl ∧
      area.longitudeLo ≤ normalizeLongitude lng ∧
      normalizeLongitude lng < area.longitudeHi := by
  have hok8 : ¬(cl < 2 ∨ (cl < 8 ∧ cl % 2 = 1)) := by
    have hs : SEPARATOR_POSITION = 8 := rfl
    rw [hs] at hok
    exact hok
  have hclip := clipLatitude_mem lat
  have hnl := normalizeLongitude_mem lng
  have hprec_pos := computeLatitudePrecision_pos cl
  have hprec_le := computeLatitudePrecision_le (by omega : 2 ≤ cl)
  have hla_lo : -90 ≤ (if clipLatitude lat = 90
      then clipLatitude lat - computeLatitudePrecision cl else clipLatitude lat) := by
    split_ifs with h
    · rw [h]
      linarith
    · exact hclip.1
  have hla_lt : (if clipLatitude lat = 90
      then clipLatitude lat - computeLatitudePrecision cl else clipLatitude lat) < 90 := by
    split_ifs with h
    · rw [h]
      linarith
    · exact lt_of_le_of_ne hclip.2 h
  obtain ⟨D, area, hif, hrest⟩ := encode_spec_core hok8 hla_lo hla_lt hnl.1 hnl.2
  refine ⟨D, area, ?_, hrest⟩
  simp only [encode]
  rw [if_neg hok]
  exact hif

/-! ### The directed pair encoder: prescribed digits are reproduced -/

/-- If the adjusted coordinates are exactly a digit-sequence value plus a
sub-cell remainder, the pair loop emits exactly those digits. -/
lemma encodePairsLoop_digits :
    ∀ (dl dn : List ℤ) (j : ℕ) (rl rn : ℚ), dl.length = dn.length →
    j + dl.length ≤ 5 → digitsOK dl → digitsOK dn → 0 ≤ rl → 0 ≤ rn →
    rl < PR (j + dl.length - 1) → rn < PR (j + dl.length - 1) →
    encodePairsLoop (pairSeqValue dl j + rl) (pairSeqValue dn j + rn) (2 * j)
      (2 * (j + dl.length)) = pairChars j (2 * (j + dl.length)) dl dn := by
  intro dl
  induction dl with
  | nil =>
    intro dn j rl rn hlen _ _ _ _ _ _ _
    have hdn : dn = [] := List.eq_nil_of_length_eq_zero (by simp at hlen; omega)
    subst hdn
    simp only [List.length_nil, Nat.add_zero]
    rw [encodePairsLoop_end (by omega)]
    simp [pairChars]
  | cons d dl ih =>
    intro dn j rl rn hlen hj hdok hnok hrl0 hrn0 hrl hrn
    cases dn with
    | nil => simp at hlen
    | cons e dn =>
      simp only [List.length_cons] at hlen hj hrl hrn ⊢
      have hlen' : dl.length = dn.length := by omega
      have hdok' : digitsOK dl := fun x hx => hdok x (by simp [hx])
      have hnok' : digitsOK dn := fun x hx => hnok x (by simp [hx])
      have hPRj : 0 < PR j := PR_pos (by omega)
      have htailL : 0 ≤ pairSeqValue dl (j + 1) :=
        pairSeqValue_nonneg hdok' (j + 1) (by omega)
      have htailN : 0 ≤ pairSeqValue dn (j + 1) :=
        pairSeqValue_nonneg hnok' (j + 1) (by omega)
      have hidx : j + (dl.length + 1) - 1 = j + dl.length := by omega
      rw [hidx] at hrl hrn
      have hrn2 : rn < PR (j + dn.length) := by
        rw [← hlen']
        exact hrn
      have hltL : pairSeqValue dl (j + 1) + rl < PR j :=
        pairSeqValue_tail_lt hdok' j rl (by omega) hrl0 hrl
      have hltN : pairSeqValue dn (j + 1) + rn < PR j :=
        pairSeqValue_tail_lt hnok' j rn (by omega) hrn0 hrn2
      rw [encodePairsLoop_step (by omega)]
      rw [show 2 * j / 2 = j from by omega, PR_def]
      have hflL : ⌊(pairSeqValue (d :: dl) j + rl) / PR j⌋ = d :=
        floor_div_extract hPRj (by simp only [pairSeqValue]; ring)
          (by linarith) hltL
      have hflN : ⌊(pairSeqValue (e :: dn) j + rn) / PR j⌋ = e :=
        floor_div_extract hPRj (by simp only [pairSeqValue]; ring)
          (by linarith) hltN
      rw [hflL, hflN]
      have hremL : pairSeqValue (d :: dl) j + rl - (d : ℚ) * PR j =
          pairSeqValue dl (j + 1) + rl := by
        simp only [pairSeqValue]
        ring
      have hremN : pairSeqValue (e :: dn) j + rn - (e : ℚ) * PR j =
          pairSeqValue dn (j + 1) + rn := by
        simp only [pairSeqValue]
        ring
      rw [hremL, hremN]
      simp only [pairChars]
      have hc : 2 * (j + (dl.length + 1)) = 2 * ((j + 1) + dl.length) := by omega
      rw [hc]
      have hc2 : (2 : ℕ) * j + 2 = 2 * (j + 1) := by omega
      rw [hc2]
      rw [ih dn (j + 1) rl rn hlen' (by omega) hdok' hnok' hrl0 hrn0
        (by rw [show j + 1 + dl.length - 1 = j + dl.length from by omega]; exact hrl)
        (by rw [show j + 1 + dl.length - 1 = j + dl.length from by omega]; exact hrn)]

/-- Directed form of `encodePairs`: encoding a point whose adjusted
coordinates expand exactly into the digits `dl`, `dn` with sub-cell
remainders reproduces the assembled code of those digits. -/
lemma encodePairs_digits {dl dn : List ℤ} {rl rn la ln : ℚ}
    (hlen : dl.length = dn.length) (h1 : 1 ≤ dl.length) (h5 : dl.length ≤ 5)
    (hdok : digitsOK dl) (hnok : digitsOK dn) (hrl0 : 0 ≤ rl) (hrn0 : 0 ≤ rn)
    (hrl : rl < PR (dl.length - 1)) (hrn : rn < PR (dl.length - 1))
    (hla : la + LATITUDE_MAX = pairSeqValue dl 0 + rl)
    (hln : ln + LONGITUDE_MAX = pairSeqValue dn 0 + rn) :
    encodePairs la ln (2 * dl.length) =
      assembleCode (interleave (charsOfDigits dl) (charsOfDigits dn)) := by
  apply encodePairs_of_loop hlen h1 h5 _ hdok hnok
  rw [hla, hln]
  have h0 := encodePairsLoop_digits dl dn 0 rl rn hlen (by omega) hdok hnok hrl0 hrn0
    (by rw [show 0 + dl.length - 1 = dl.length - 1 from by omega]; exact hrl)
    (by rw [show 0 + dl.length - 1 = dl.length - 1 from by omega]; exact hrn)
  rw [show (0 : ℕ) = 2 * 0 from rfl, show 2 * dl.length = 2 * (0 + dl.length) from by omega]
  exact h0

/-- Directed form of the grid loop: prescribed row/column digits plus a
sub-cell remainder are reproduced. -/
lemma encodeGridLoop_digits :
    ∀ (rows cols : List ℤ) (rl rn latPV lngPV : ℚ),
    rows.length = cols.length →
    (∀ r ∈ rows, 0 ≤ r ∧ r < 5) → (∀ c ∈ cols, 0 ≤ c ∧ c < 4) →
    0 < latPV → 0 < lngPV →
    0 ≤ rl → rl < latPV / (GRID_ROWS : ℚ) ^ rows.length →
    0 ≤ rn → rn < lngPV / (GRID_COLUMNS : ℚ) ^ rows.length →
    encodeGridLoop (gridSeqValue GRID_ROWS rows latPV + rl)
      (gridSeqValue GRID_COLUMNS cols lngPV + rn) latPV lngPV rows.length =
      gridChars rows cols := by
  intro rows
  induction rows with
  | nil =>
    intro cols rl rn latPV lngPV hlen _ _ _ _ _ _ _ _
    have hc : cols = [] := List.eq_nil_of_length_eq_zero (by simp at hlen; omega)
    subst hc
    rfl
  | cons r rs ih =>
    intro cols rl rn latPV lngPV hlen hrok hcok hlatPV hlngPV hrl0 hrl hrn0 hrn
    cases cols with
    | nil => simp at hlen
    | cons c cs =>
      simp only [List.length_cons] at hlen hrl hrn ⊢
      have hlen' : rs.length = cs.length := by omega
      have hrok' : ∀ x ∈ rs, 0 ≤ x ∧ x < 5 := fun x hx => hrok x (by simp [hx])
      have hcok' : ∀ x ∈ cs, 0 ≤ x ∧ x < 4 := fun x hx => hcok x (by simp [hx])
      have hG5 : ((GRID_ROWS : ℕ) : ℚ) = 5 := by norm_num [GRID_ROWS]
      have hG4 : ((GRID_COLUMNS : ℕ) : ℚ) = 4 := by norm_num [GRID_COLUMNS]
      have hG5i : ((GRID_ROWS : ℕ) : ℤ) = 5 := by norm_num [GRID_ROWS]
      have hG4i : ((GRID_COLUMNS : ℕ) : ℤ) = 4 := by norm_num [GRID_COLUMNS]
      have h5 : (0 : ℚ) < (GRID_ROWS : ℚ) := by rw [hG5]; norm_num
      have h4 : (0 : ℚ) < (GRID_COLUMNS : ℚ) := by rw [hG4]; norm_num
      have hlat5 : 0 < latPV / (GRID_ROWS : ℚ) := div_pos hlatPV h5
      have hlng4 : 0 < lngPV / (GRID_COLUMNS : ℚ) := div_pos hlngPV h4
      have hrestL0 : 0 ≤ gridSeqValue GRID_ROWS rs (latPV / GRID_ROWS) :=
        gridSeqValue_nonneg (by norm_num [GRID_ROWS]) (fun x hx => (hrok' x hx).1)
          (le_of_lt hlat5)
      have hrestN0 : 0 ≤ gridSeqValue GRID_COLUMNS cs (lngPV / GRID_COLUMNS) :=
        gridSeqValue_nonneg (by norm_num [GRID_COLUMNS]) (fun x hx => (hcok' x hx).1)
          (le_of_lt hlng4)
      have hrestL : gridSeqValue GRID_ROWS rs (latPV / GRID_ROWS) + rl
          < latPV / GRID_ROWS := by
        have h1 := gridSeqValue_le (show 0 < GRID_ROWS by norm_num [GRID_ROWS])
          (fun x hx => ⟨(hrok' x hx).1, by rw [hG5i]; exact (hrok' x hx).2⟩) hlat5
        have h2 : latPV / (GRID_ROWS : ℚ) ^ (rs.length + 1) =
            latPV / GRID_ROWS / (GRID_ROWS : ℚ) ^ rs.length := by
          rw [div_div, pow_succ']
        rw [h2] at hrl
        linarith
      have hrestN : gridSeqValue GRID_COLUMNS cs (lngPV / GRID_COLUMNS) + rn
          < lngPV / GRID_COLUMNS := by
        have h1 := gridSeqValue_le (show 0 < GRID_COLUMNS by norm_num [GRID_COLUMNS])
          (fun x hx => ⟨(hcok' x hx).1, by rw [hG4i]; exact (hcok' x hx).2⟩) hlng4
        have h2 : lngPV / (GRID_COLUMNS : ℚ) ^ (rs.length + 1) =
            lngPV / GRID_COLUMNS / (GRID_COLUMNS : ℚ) ^ rs.length := by
          rw [div_div, pow_succ']
        rw [h2] at hrn
        rw [← hlen'] at h1
        linarith
      rw [encodeGridLoop_step]
      have hflR : ⌊(gridSeqValue GRID_ROWS (r :: rs) latPV + rl) /
          (latPV / GRID_ROWS)⌋ = r :=
        floor_div_extract hlat5 (by simp only [gridSeqValue]; ring)
          (by linarith) hrestL
      have hflC : ⌊(gridSeqValue GRID_COLUMNS (c :: cs) lngPV + rn) /
          (lngPV / GRID_COLUMNS)⌋ = c :=
        floor_div_extract hlng4 (by simp only [gridSeqValue]; ring)
          (by linarith) hrestN
      rw [hflR, hflC]
      have hremL : gridSeqValue GRID_ROWS (r :: rs) latPV + rl -
          (r : ℚ) * (latPV / GRID_ROWS) =
          gridSeqValue GRID_ROWS rs (latPV / GRID_ROWS) + rl := by
        simp only [gridSeqValue]
        ring
      have hremN : gridSeqValue GRID_COLUMNS (c :: cs) lngPV + rn -
          (c : ℚ) * (lngPV / GRID_COLUMNS) =
          gridSeqValue GRID_COLUMNS cs (lngPV / GRID_COLUMNS) + rn := by
        simp only [gridSeqValue]
        ring
      rw [hremL, hremN]
      rw [ih cs rl rn (latPV / GRID_ROWS) (lngPV / GRID_COLUMNS) hlen' hrok' hcok'
        hlat5 hlng4 hrl0 (by
          rw [div_div, ← pow_succ']
          exact hrl) hrn0 (by
          rw [div_div, ← pow_succ']
          exact hrn)]
      simp [gridChars]

/-- Directed form of `encode` for pair-only lengths: a point whose adjusted
coordinates expand into the digits `dl`, `dn` with sub-cell remainders
encodes to the assembled code of those digits. -/
lemma encode_digits_pairs {dl dn : List ℤ} {x y rx ry : ℚ}
    (h1 : 1 ≤ dl.length) (h5 : dl.length ≤ 5) (hlen : dl.length = dn.length)
    (hdok : digitsOK dl) (hnok : digitsOK dn)
    (hfst : dl.getD 0 0 < 9) (hsnd : dn.getD 0 0 < 18)
    (hrx0 : 0 ≤ rx) (hrx : rx < PR (dl.length - 1))
    (hry0 : 0 ≤ ry) (hry : ry < PR (dl.length - 1))
    (hx : x + LATITUDE_MAX = pairSeqValue dl 0 + rx)
    (hy : y + LONGITUDE_MAX = pairSeqValue dn 0 + ry) :
    encode x y (2 * dl.length) =
      .ok (assembleCode (interleave (charsOfDigits dl) (charsOfDigits dn))) := by
  have hLM : LATITUDE_MAX = (90 : ℚ) := rfl
  have hLN : LONGITUDE_MAX = (180 : ℚ) := rfl
  have hPCL : PAIR_CODE_LENGTH = 10 := rfl
  have hP0 : 0 ≤ pairSeqValue dl 0 := pairSeqValue_nonneg hdok 0 (by omega)
  have hN0 : 0 ≤ pairSeqValue dn 0 := pairSeqValue_nonneg hnok 0 (by omega)
  have hPle := pairSeqValue_le_of_first hdok h1 h5 (show dl.getD 0 0 ≤ 8 from by omega)
  have hNle := pairSeqValue_le_of_first hnok (by omega) (by omega)
    (show dn.getD 0 0 ≤ 17 from by omega)
  rw [← hlen] at hNle
  norm_num at hPle hNle
  rw [hLM] at hx
  rw [hLN] at hy
  have hx0 : -90 ≤ x := by linarith
  have hxlt : x < 90 := by linarith
  have hy0 : -180 ≤ y := by linarith
  have hylt : y < 180 := by linarith
  simp only [encode]
  rw [if_neg (by omega)]
  rw [clipLatitude_eq_self hx0 (le_of_lt hxlt)]
  rw [if_neg (show ¬x = 90 from by linarith)]
  rw [normalizeLongitude_eq_self hy0 hylt]
  rw [if_neg (show ¬2 * dl.length > PAIR_CODE_LENGTH from by rw [hPCL]; omega)]
  rw [show min (2 * dl.length) PAIR_CODE_LENGTH = 2 * dl.length from by
    rw [hPCL]; omega]
  rw [encodePairs_digits hlen h1 h5 hdok hnok hrx0 hry0 hrx hry
    (by rw [hLM]; linarith) (by rw [hLN]; linarith)]

/-- Directed form of `encode` for grid-refined lengths. -/
lemma encode_digits_grid {dl dn rows cols : List ℤ} {x y rx ry : ℚ}
    (hdl : dl.length = 5) (hdn : dn.length = 5)
    (hdok : digitsOK dl) (hnok : digitsOK dn)
    (hfst : dl.getD 0 0 < 9) (hsnd : dn.getD 0 0 < 18)
    (hg1 : 1 ≤ rows.length) (hglen : rows.length = cols.length)
    (hrok : ∀ r ∈ rows, 0 ≤ r ∧ r < 5) (hcok : ∀ c ∈ cols, 0 ≤ c ∧ c < 4)
    (hrx0 : 0 ≤ rx) (hrx : rx < GRID_SIZE_DEGREES / (GRID_ROWS : ℚ) ^ rows.length)
    (hry0 : 0 ≤ ry) (hry : ry < GRID_SIZE_DEGREES / (GRID_COLUMNS : ℚ) ^ rows.length)
    (hx : x + LATITUDE_MAX = pairSeqValue dl 0 +
      (gridSeqValue GRID_ROWS rows GRID_SIZE_DEGREES + rx))
    (hy : y + LONGITUDE_MAX = pairSeqValue dn 0 +
      (gridSeqValue GRID_COLUMNS cols GRID_SIZE_DEGREES + ry)) :
    encode x y (10 + rows.length) =
      .ok (assembleCode (interleave (charsOfDigits dl) (charsOfDigits dn) ++
        gridChars rows cols)) := by
  have hLM : LATITUDE_MAX = (90 : ℚ) := rfl
  have hLN : LONGITUDE_MAX = (180 : ℚ) := rfl
  have hPCL : PAIR_CODE_LENGTH = 10 := rfl
  have hGSD : (0 : ℚ) < GRID_SIZE_DEGREES := by norm_num [GRID_SIZE_DEGREES]
  have hG5i : ((GRID_ROWS : ℕ) : ℤ) = 5 := by norm_num [GRID_ROWS]
  have hG4i : ((GRID_COLUMNS : ℕ) : ℤ) = 4 := by norm_num [GRID_COLUMNS]
  have hgseq0 : 0 ≤ gridSeqValue GRID_ROWS rows GRID_SIZE_DEGREES :=
    gridSeqValue_nonneg (by norm_num [GRID_ROWS]) (fun e he => (hrok e he).1)
      (le_of_lt hGSD)
  have hgseqn0 : 0 ≤ gridSeqValue GRID_COLUMNS cols GRID_SIZE_DEGREES :=
    gridSeqValue_nonneg (by norm_num [GRID_COLUMNS]) (fun e he => (hcok e he).1)
      (le_of_lt hGSD)
  have hgseqle := gridSeqValue_le (show 0 < GRID_ROWS by norm_num [GRID_ROWS])
    (fun e he => ⟨(hrok e he).1, by rw [hG5i]; exact (hrok e he).2⟩) hGSD
  have hgseqnle := gridSeqValue_le (show 0 < GRID_COLUMNS by norm_num [GRID_COLUMNS])
    (fun e he => ⟨(hcok e he).1, by rw [hG4i]; exact (hcok e he).2⟩) hGSD
  rw [← hglen] at hgseqnle
  have hrl : gridSeqValue GRID_ROWS rows GRID_SIZE_DEGREES + rx < PR 4 := by
    rw [PR_four_eq]
    linarith
  have hrn : gridSeqValue GRID_COLUMNS cols GRID_SIZE_DEGREES + ry < PR 4 := by
    rw [PR_four_eq]
    linarith
  have hrl0 : 0 ≤ gridSeqValue GRID_ROWS rows GRID_SIZE_DEGREES + rx := by linarith
  have hrn0 : 0 ≤ gridSeqValue GRID_COLUMNS cols GRID_SIZE_DEGREES + ry := by linarith
  have hP0 : 0 ≤ pairSeqValue dl 0 := pairSeqValue_nonneg hdok 0 (by omega)
  have hN0 : 0 ≤ pairSeqValue dn 0 := pairSeqValue_nonneg hnok 0 (by omega)
  have hPle := pairSeqValue_le_of_first hdok (by omega) (by omega)
    (show dl.getD 0 0 ≤ 8 from by omega)
  have hNle := pairSeqValue_le_of_first hnok (by omega) (by omega)
    (show dn.getD 0 0 ≤ 17 from by omega)
  rw [hdl] at hPle
  rw [hdn] at hNle
  norm_num at hPle hNle
  rw [hLM] at hx
  rw [hLN] at hy
  have hPR4 : 0 < PR 4 := PR_pos (by omega)
  have hx0 : -90 ≤ x := by linarith
  have hxlt : x < 90 := by linarith
  have hy0 : -180 ≤ y := by linarith
  have hylt : y < 180 := by linarith
  obtain ⟨K, hKe, hK0⟩ := pairSeqValue_int_mul dl 0 4 (by omega) (by omega)
  obtain ⟨L, hLe, hL0⟩ := pairSeqValue_int_mul dn 0 4 (by omega) (by omega)
  have hjsLat : jsMod (x + LATITUDE_MAX) GRID_SIZE_DEGREES =
      gridSeqValue GRID_ROWS rows GRID_SIZE_DEGREES + rx := by
    apply jsMod_eq hGSD (hK0 hdok) _ hrl0 (by rw [← PR_four_eq]; exact hrl)
    rw [hLM, hx, hKe, PR_four_eq]
  have hjsLng : jsMod (y + LONGITUDE_MAX) GRID_SIZE_DEGREES =
      gridSeqValue GRID_COLUMNS cols GRID_SIZE_DEGREES + ry := by
    apply jsMod_eq hGSD (hL0 hnok) _ hrn0 (by rw [← PR_four_eq]; exact hrn)
    rw [hLN, hy, hLe, PR_four_eq]
  obtain ⟨hIlen, hImem, halpha0, halpha1⟩ :=
    interleave_digit_facts (by omega) (by omega) hdok hnok
  simp only [encode]
  rw [if_neg (by
    have hs : SEPARATOR_POSITION = 8 := rfl
    omega)]
  rw [clipLatitude_eq_self hx0 (le_of_lt hxlt)]
  rw [if_neg (show ¬x = 90 from by linarith)]
  rw [normalizeLongitude_eq_self hy0 hylt]
  rw [if_pos (show 10 + rows.length > PAIR_CODE_LENGTH from by rw [hPCL]; omega)]
  rw [show min (10 + rows.length) PAIR_CODE_LENGTH = 2 * dl.length from by
    rw [hPCL, hdl]; omega]
  rw [encodePairs_digits (by omega) (by omega) (by omega) hdok hnok hrl0 hrn0
    (by simpa [hdl] using hrl) (by simpa [hdl] using hrn)
    (by rw [hLM]; exact hx) (by rw [hLN]; exact hy)]
  rw [show 10 + rows.length - PAIR_CODE_LENGTH = rows.length from by rw [hPCL]; omega]
  rw [encodeGrid, hjsLat, hjsLng]
  rw [encodeGridLoop_digits rows cols rx ry GRID_SIZE_DEGREES GRID_SIZE_DEGREES
    hglen hrok hcok hGSD hGSD hrx0 hrx hry0 hry]
  rw [assembleCode_append (by rw [hIlen, hdl]; omega)]

/-! ### Decomposition of a valid full code into its digit characters -/

lemma jsIndexOf_decomp {l : List Char} {c : Char} (h : c ∈ l) :
    ∃ a b : List Char, l = a ++ c :: b ∧ c ∉ a ∧ (a.length : ℤ) = jsIndexOf l c := by
  induction l with
  | nil => simp at h
  | cons x xs ih =>
    by_cases hx : x = c
    · subst hx
      refine ⟨[], xs, rfl, by simp, ?_⟩
      rw [jsIndexOf, if_pos rfl]
      simp
    · have hc : c ∈ xs := by
        rcases List.mem_cons.mp h with hh | hh
        · exact absurd hh.symm hx
        · exact hh
      obtain ⟨a, b, hl, ha, hlen⟩ := ih hc
      refine ⟨x :: a, b, by simp [hl], by
        simp only [List.mem_cons]
        push_neg
        exact ⟨fun hh => hx hh.symm, ha⟩, ?_⟩
      rw [jsIndexOf, if_neg hx, if_neg (by
        intro he
        exact (jsIndexOf_eq_neg_one.mp he) hc)]
      simp only [List.length_cons]
      push_cast
      omega

lemma jsLastIndexOf_nonneg {l : List Char} {c : Char} (h : c ∈ l) :
    0 ≤ jsLastIndexOf l c := by
  have h1 := jsLastIndexOf_ge_neg_one l c
  have h2 : jsLastIndexOf l c ≠ -1 := fun he => (jsLastIndexOf_eq_neg_one.mp he) h
  omega

lemma isFull_isValid {c : List Char} (h : isFull c = true) : isValid c = true := by
  cases hb : isValid c with
  | true => rfl
  | false =>
    rw [isFull, hb] at h
    simp at h

lemma isShort_isValid {c : List Char} (h : isShort c = true) : isValid c = true := by
  cases hb : isValid c with
  | true => rfl
  | false =>
    rw [isShort, hb] at h
    simp at h

lemma isFull_not_isShort {c : List Char} (h : isFull c = true) : isShort c = false := by
  cases hb : isShort c with
  | false => rfl
  | true =>
    have hv := isFull_isValid h
    rw [isFull, hv, hb] at h
    simp at h

lemma headD_eq_getD (l : List Char) (d : Char) : l.headD d = l.getD 0 d := by
  cases l <;> rfl

lemma getD_replicate {n i : ℕ} {x d : Char} (h : i < n) :
    (List.replicate n x).getD i d = x := by
  rw [List.getD_eq_getElem _ _ (by simpa using h)]
  simp

lemma mem_of_getLast? {l : List Char} {a : Char} (h : l.getLast? = some a) : a ∈ l := by
  have h1 : a ∈ l.getLast? := by
    rw [h]
    rfl
  obtain ⟨hne, heq⟩ := List.mem_getLast?_eq_getLast h1
  rw [heq]
  exact List.getLast_mem hne

/-- The final alphabet check of `isValid`, on an upper-case separator-free
string, forces membership in the code alphabet. -/
lemma stripped_all_alphabet {l : List Char}
    (hall : (l.all (fun ch => ch.toUpper == SEPARATOR ||
      CODE_ALPHABET.contains ch.toUpper)) = true)
    (hup : ∀ ch ∈ l, ch.toUpper = ch) (hsep : SEPARATOR ∉ l) :
    ∀ ch ∈ l, ch ∈ CODE_ALPHABET := by
  intro ch hch
  rw [List.all_eq_true] at hall
  have h := hall ch hch
  rw [hup ch hch] at h
  rcases Bool.or_eq_true_iff.mp h with h1 | h1
  · exact absurd (by rw [← beq_iff_eq.mp h1]; exact hch) hsep
  · simpa using h1

/-- Inversion of the `isValid` boolean: every early rejection condition must
be false and the alphabet check must pass. -/
lemma isValid_conditions {c : List Char} (hv : isValid c = true) :
    c ≠ [] ∧ SEPARATOR ∈ c ∧
    jsIndexOf c SEPARATOR = jsLastIndexOf c SEPARATOR ∧
    jsIndexOf c SEPARATOR ≤ 8 ∧
    ¬(jsIndexOf c PADDING_CHARACTER > -1 ∧
      (jsIndexOf c PADDING_CHARACTER = 0 ∨
       (runLengths PADDING_CHARACTER c).length > 1 ∨
       (runLengths PADDING_CHARACTER c).headD 0 % 2 = 1 ∨
       (runLengths PADDING_CHARACTER c).headD 0 > SEPARATOR_POSITION - 2 ∨
       c.getLast? ≠ some SEPARATOR)) ∧
    (c.length : ℤ) - jsIndexOf c SEPARATOR - 1 ≠ 1 ∧
    (stripFirstRun PADDING_CHARACTER (stripFirstRun SEPARATOR c)).all
      (fun ch => ch.toUpper == SEPARATOR || CODE_ALPHABET.contains ch.toUpper)
      = true := by
  rw [isValid] at hv
  split_ifs at hv with hc1 hc2 hc3 hc4 hc5 hc6
  refine ⟨hc1, ?_, not_ne_iff.mp hc3, ?_, hc5, hc6, hv⟩
  · by_contra hn
    exact hc2 (jsIndexOf_eq_neg_one.mpr hn)
  · push_neg at hc4
    have hsp : ((SEPARATOR_POSITION : ℕ) : ℤ) = 8 := rfl
    have h1 := hc4.1
    omega

/-- Inversion of the `isFull` boolean: the separator sits at index eight and
the two leading digits are in range. -/
lemma isFull_conditions {c : List Char} (hf : isFull c = true) :
    jsIndexOf c SEPARATOR = 8 ∧
    jsAlphaIndex (c.headD ' ').toUpper < 9 ∧
    (1 < c.length → jsAlphaIndex (c.getD 1 ' ').toUpper < 18) := by
  have hv := isFull_isValid hf
  have hs := isFull_not_isShort hf
  have hcond := isValid_conditions hv
  have hLM : LATITUDE_MAX = (90 : ℚ) := rfl
  have hLN : LONGITUDE_MAX = (180 : ℚ) := rfl
  refine ⟨?_, ?_, ?_⟩
  · have hge := jsIndexOf_nonneg hcond.2.1
    rw [isShort, hv] at hs
    simp only [Bool.not_true, Bool.false_eq_true, if_false] at hs
    split_ifs at hs with h1
    push_neg at h1
    have hsp : ((SEPARATOR_POSITION : ℕ) : ℤ) = 8 := rfl
    have h2 := hcond.2.2.2.1
    have h3 := h1 hge
    omega
  · rw [isFull, hv, hs] at hf
    simp only [Bool.not_true, Bool.false_eq_true, if_false] at hf
    split_ifs at hf with h1 h2 h3
    all_goals
      push_neg at h1
      rw [hLM] at h1
      push_cast at h1
      have hq : (jsAlphaIndex (c.headD ' ').toUpper : ℚ) < 9 := by
        have hE2 : ((ENCODING_BASE : ℕ) : ℚ) = 20 := rfl
        rw [hE2] at h1
        linarith
      exact_mod_cast hq
  · intro hlen
    rw [isFull, hv, hs] at hf
    simp only [Bool.not_true, Bool.false_eq_true, if_false] at hf
    split_ifs at hf with h1 h2
    push_neg at h2
    rw [hLN] at h2
    push_cast at h2
    have hq : (jsAlphaIndex (c.getD 1 ' ').toUpper : ℚ) < 18 := by
      have hE2 : ((ENCODING_BASE : ℕ) : ℚ) = 20 := rfl
      rw [hE2] at h2
      linarith
    exact_mod_cast hq

/-- Structural decomposition of a canonical full Open Location Code (upper
case, any padding run immediately preceding the separator): such a code is
the assembled form of its digit characters. -/
lemma isFull_decomp {c : List Char} (hful : isFull c = true)
    (hup : ∀ ch ∈ c, ch.toUpper = ch)
    (hpadadj : ∀ i : ℕ, c.getD i ' ' = PADDING_CHARACTER →
      c.getD (i + 1) ' ' = PADDING_CHARACTER ∨ c.getD (i + 1) ' ' = SEPARATOR) :
    ∃ D : List Char, c = assembleCode D ∧ 2 ≤ D.length ∧ D.length ≠ 9 ∧
      (D.length < 8 → D.length % 2 = 0) ∧ (∀ ch ∈ D, ch ∈ CODE_ALPHABET) ∧
      jsAlphaIndex (D.getD 0 ' ') < 9 ∧ jsAlphaIndex (D.getD 1 ' ') < 18 ∧
      (PADDING_CHARACTER ∉ c → 8 ≤ D.length) := by
  have hv := isFull_isValid hful
  obtain ⟨-, hsmem, heq, -, hc5, hc6, hall⟩ := isValid_conditions hv
  obtain ⟨hidx8, hd0, hd1⟩ := isFull_conditions hful
  obtain ⟨pre, post, hcdec, hpre, hprelen⟩ := jsIndexOf_decomp hsmem
  have hprelen8 : pre.length = 8 := by
    have h := hprelen
    rw [hidx8] at h
    exact_mod_cast h
  have hpost : SEPARATOR ∉ post := by
    intro hmem2
    have hlast : jsLastIndexOf c SEPARATOR =
        (pre.length : ℤ) + (1 + jsLastIndexOf post SEPARATOR) := by
      rw [hcdec]
      rw [jsLastIndexOf_append_right (by simp)]
      congr 1
      rw [show SEPARATOR :: post = [SEPARATOR] ++ post from rfl,
        jsLastIndexOf_append_right hmem2]
      simp
    have h0 := jsLastIndexOf_nonneg hmem2
    rw [← heq, hidx8, hprelen8] at hlast
    norm_num at hlast
    omega
  have hclen : c.length = 9 + post.length := by
    rw [hcdec, List.length_append, List.length_cons, hprelen8]
    omega
  have hpostlen1 : post.length ≠ 1 := by
    intro h1
    apply hc6
    rw [hidx8, hclen, h1]
    norm_num
  have hc0mem : c.getD 0 ' ' ∈ c := getD_mem_of_lt (by omega) ' '
  have hc1mem : c.getD 1 ' ' ∈ c := getD_mem_of_lt (by omega) ' '
  rw [headD_eq_getD, hup _ hc0mem] at hd0
  have hd1' := hd1 (by omega)
  rw [hup _ hc1mem] at hd1'
  by_cases hpadmem : PADDING_CHARACTER ∈ c
  · -- padded code: the digits are the part before the padding run
    have hpidx := jsIndexOf_nonneg hpadmem
    have hB : ¬(jsIndexOf c PADDING_CHARACTER = 0 ∨
        (runLengths PADDING_CHARACTER c).length > 1 ∨
        (runLengths PADDING_CHARACTER c).headD 0 % 2 = 1 ∨
        (runLengths PADDING_CHARACTER c).headD 0 > SEPARATOR_POSITION - 2 ∨
        c.getLast? ≠ some SEPARATOR) := fun hd => hc5 ⟨by omega, hd⟩
    push_neg at hB
    obtain ⟨hB1, hB2, hB3, hB4, hB5⟩ := hB
    obtain ⟨a, p, b, hsplit, hamem, hppos, hbhead⟩ := exists_first_run hpadmem
    have hruns := runLengths_structured hamem hppos hbhead
    have hpadb : PADDING_CHARACTER ∉ b := by
      apply runLengths_eq_nil.mp
      rw [hsplit, hruns] at hB2
      simp only [List.length_cons] at hB2
      exact List.eq_nil_of_length_eq_zero (by omega)
    have hphead : (runLengths PADDING_CHARACTER c).headD 0 = p := by
      rw [hsplit, hruns]
      rfl
    have hpeven : p % 2 = 0 := by
      rw [hphead] at hB3
      omega
    have hple6 : p ≤ 6 := by
      rw [hphead] at hB4
      have hsp : SEPARATOR_POSITION - 2 = 6 := rfl
      omega
    have hpadidx : jsIndexOf c PADDING_CHARACTER = a.length := by
      obtain ⟨q, rfl⟩ : ∃ q, p = q + 1 := ⟨p - 1, by omega⟩
      rw [hsplit, List.append_assoc]
      rw [jsIndexOf_append_right hamem (by
        apply List.mem_append.mpr
        left
        simp)]
      rw [List.replicate_succ, List.cons_append, jsIndexOf, if_pos rfl]
      simp
    have halen1 : 1 ≤ a.length := by
      rw [hpadidx] at hB1
      have : a.length ≠ 0 := by exact_mod_cast hB1
      omega
    have hgetpad : c.getD (a.length + (p - 1)) ' ' = PADDING_CHARACTER := by
      rw [hsplit, List.getD_append _ _ ' ' _ (by
        rw [List.length_append, List.length_replicate]
        omega)]
      rw [List.getD_append_right _ _ _ _ (by omega)]
      exact getD_replicate (by omega)
    have hnext := hpadadj (a.length + (p - 1)) hgetpad
    rw [show a.length + (p - 1) + 1 = a.length + p from by omega] at hnext
    cases b with
    | nil =>
      exfalso
      rw [hsplit] at hnext
      rw [List.getD_eq_default _ _ (by
        simp only [List.append_nil, List.length_append, List.length_replicate]
        omega)] at hnext
      rcases hnext with h | h <;> exact absurd h (by decide)
    | cons z b' =>
      have hcz : c.getD (a.length + p) ' ' = z := by
        rw [hsplit, List.getD_append_right _ _ _ _ (by
          rw [List.length_append, List.length_replicate])]
        rw [List.length_append, List.length_replicate]
        simp
      have hzsep : z = SEPARATOR := by
        rcases hnext with h | h
        · exfalso
          rw [hcz] at h
          exact (hbhead z (by simp)) h
        · rw [hcz] at h
          exact h
      subst hzsep
      have hsepnrep : SEPARATOR ∉ List.replicate p PADDING_CHARACTER := by
        intro hh
        have := List.eq_of_mem_replicate hh
        exact absurd this (by decide)
      have hsepa : SEPARATOR ∉ a := by
        intro hh
        have hfst : jsIndexOf c SEPARATOR = jsIndexOf a SEPARATOR := by
          rw [hsplit, List.append_assoc, jsIndexOf_append_left hh]
        have hlt := jsIndexOf_lt_length hh
        have hlst : (a.length : ℤ) + p ≤ jsLastIndexOf c SEPARATOR := by
          rw [hsplit]
          rw [jsLastIndexOf_append_right (by simp)]
          have h0 : 0 ≤ jsLastIndexOf (SEPARATOR :: b') SEPARATOR :=
            jsLastIndexOf_nonneg (by simp)
          rw [List.length_append, List.length_replicate]
          push_cast
          omega
        rw [← heq, hfst] at hlst
        omega
      have hsepidx : jsIndexOf c SEPARATOR = (a.length : ℤ) + p := by
        rw [hsplit]
        rw [jsIndexOf_append_right (by
          intro hh
          rcases List.mem_append.mp hh with h | h
          · exact hsepa h
          · exact hsepnrep h) (by simp)]
        rw [jsIndexOf, if_pos rfl, List.length_append, List.length_replicate]
        push_cast
        ring
      have hap8 : a.length + p = 8 := by
        rw [hidx8] at hsepidx
        exact_mod_cast hsepidx.symm
      have hb' : b' = [] := by
        cases hbe : b' with
        | nil => rfl
        | cons w ws =>
          exfalso
          rw [hbe] at hsplit
          have hglast : c.getLast? = (w :: ws).getLast? := by
            rw [hsplit, show SEPARATOR :: w :: ws = [SEPARATOR] ++ (w :: ws) from rfl]
            rw [← List.append_assoc, List.getLast?_append]
            rw [List.getLast?_eq_getLast (w :: ws) (by simp)]
            rfl
          have hsepb : SEPARATOR ∈ w :: ws := by
            have h1 := hB5
            rw [hglast] at h1
            have := mem_of_getLast? h1
            exact this
          have hlst : (a.length : ℤ) + p + 1 ≤ jsLastIndexOf c SEPARATOR := by
            rw [hsplit, show a ++ List.replicate p PADDING_CHARACTER ++
                SEPARATOR :: w :: ws =
                (a ++ List.replicate p PADDING_CHARACTER ++ [SEPARATOR]) ++
                (w :: ws) from by simp]
            rw [jsLastIndexOf_append_right hsepb]
            have h0 := jsLastIndexOf_nonneg hsepb
            simp only [List.length_append, List.length_replicate, List.length_cons,
              List.length_nil]
            push_cast
            omega
          rw [← heq, hidx8] at hlst
          omega
      subst hb'
      refine ⟨a, ?_, by omega, by omega, fun _ => by omega, ?_, ?_, ?_, ?_⟩
      · rw [assembleCode]
        rw [List.take_eq_self_iff _ |>.mpr (by omega)]
        rw [List.drop_eq_nil_of_le (by omega)]
        rw [hsplit]
        have hmin : 8 - min a.length 8 = p := by omega
        rw [hmin]
      · -- alphabet membership
        have hstrip1 : stripFirstRun SEPARATOR c =
            a ++ List.replicate p PADDING_CHARACTER := by
          rw [hsplit, show (SEPARATOR :: ([] : List Char)) =
            List.replicate 1 SEPARATOR ++ [] from rfl]
          rw [← List.append_assoc]
          rw [stripFirstRun_structured (by
            intro hh
            rcases List.mem_append.mp hh with h | h
            · exact hsepa h
            · exact hsepnrep h) (by omega) (by simp)]
          simp
        have hstrip2 : stripFirstRun PADDING_CHARACTER
            (a ++ List.replicate p PADDING_CHARACTER) = a := by
          rw [show a ++ List.replicate p PADDING_CHARACTER =
            a ++ List.replicate p PADDING_CHARACTER ++ [] from by simp]
          rw [stripFirstRun_structured hamem (by omega) (by simp)]
          simp
        rw [hstrip1, hstrip2] at hall
        apply stripped_all_alphabet hall
        · intro ch hch
          apply hup
          rw [hsplit]
          exact List.mem_append.mpr (Or.inl (List.mem_append.mpr (Or.inl hch)))
        · exact hsepa
      · rw [show a.getD 0 ' ' = c.getD 0 ' ' from by
          rw [hsplit, List.append_assoc, List.getD_append _ _ ' ' _ (by omega)]]
        exact hd0
      · rw [show a.getD 1 ' ' = c.getD 1 ' ' from by
          rw [hsplit, List.append_assoc, List.getD_append _ _ ' ' _ (by omega)]]
        exact hd1'
      · intro hn
        exact absurd hpadmem hn
  · -- unpadded code: the digits are everything but the separator
    have hpadpre : PADDING_CHARACTER ∉ pre := by
      intro hh
      apply hpadmem
      rw [hcdec]
      exact List.mem_append.mpr (Or.inl hh)
    have hpadpost : PADDING_CHARACTER ∉ post := by
      intro hh
      apply hpadmem
      rw [hcdec]
      exact List.mem_append.mpr (Or.inr (by simp [hh]))
    have htk : (pre ++ post).take 8 = pre := by
      rw [← hprelen8]
      exact List.take_left _ _
    have hdp : (pre ++ post).drop 8 = post := by
      rw [← hprelen8]
      exact List.drop_left _ _
    refine ⟨pre ++ post, ?_, ?_, ?_, ?_, ?_, ?_, ?_, fun _ => ?_⟩
    · rw [assembleCode, htk, hdp]
      have hmin : 8 - min (pre ++ post).length 8 = 0 := by
        rw [List.length_append]
        omega
      rw [hmin, hcdec]
      simp
    · rw [List.length_append]
      omega
    · rw [List.length_append]
      omega
    · rw [List.length_append]
      omega
    · -- alphabet membership
      have hstrip1 : stripFirstRun SEPARATOR c = pre ++ post := by
        rw [hcdec, show SEPARATOR :: post = List.replicate 1 SEPARATOR ++ post from rfl]
        rw [← List.append_assoc]
        exact stripFirstRun_structured hpre (by omega) (fun y hy =>
          fun hc => hpost (hc ▸ List.mem_of_mem_head? hy))
      have hstrip2 : stripFirstRun PADDING_CHARACTER (pre ++ post) = pre ++ post := by
        apply stripFirstRun_not_mem
        intro hh
        rcases List.mem_append.mp hh with h | h
        · exact hpadpre h
        · exact hpadpost h
      rw [hstrip1, hstrip2] at hall
      apply stripped_all_alphabet hall
      · intro ch hch
        apply hup
        rw [hcdec]
        rcases List.mem_append.mp hch with h | h
        · exact List.mem_append.mpr (Or.inl h)
        · exact List.mem_append.mpr (Or.inr (by simp [h]))
      · intro hh
        rcases List.mem_append.mp hh with h | h
        · exact hpre h
        · exact hpost h
    · rw [show (pre ++ post).getD 0 ' ' = c.getD 0 ' ' from by
        rw [hcdec, List.getD_append _ _ ' ' _ (by omega),
          List.getD_append _ _ ' ' _ (by omega)]]
      exact hd0
    · rw [show (pre ++ post).getD 1 ' ' = c.getD 1 ' ' from by
        rw [hcdec, List.getD_append _ _ ' ' _ (by omega),
          List.getD_append _ _ ' ' _ (by omega)]]
      exact hd1'
    · rw [List.length_append]
      omega

/-- Every even-length alphabet string is the interleaving of two digit
sequences. -/
lemma exists_digits_of_chars : ∀ (D : List Char), (∀ ch ∈ D, ch ∈ CODE_ALPHABET) →
    D.length % 2 = 0 →
    ∃ dl dn : List ℤ, dl.length = D.length / 2 ∧ dn.length = D.length / 2 ∧
      digitsOK dl ∧ digitsOK dn ∧
      D = interleave (charsOfDigits dl) (charsOfDigits dn) ∧
      (1 ≤ D.length → jsAlphaIndex (D.getD 0 ' ') = dl.getD 0 0) ∧
      (2 ≤ D.length → jsAlphaIndex (D.getD 1 ' ') = dn.getD 0 0) := by
  have key : ∀ (n : ℕ) (D : List Char), D.length ≤ n →
      (∀ ch ∈ D, ch ∈ CODE_ALPHABET) → D.length % 2 = 0 →
      ∃ dl dn : List ℤ, dl.length = D.length / 2 ∧ dn.length = D.length / 2 ∧
        digitsOK dl ∧ digitsOK dn ∧
        D = interleave (charsOfDigits dl) (charsOfDigits dn) ∧
        (1 ≤ D.length → jsAlphaIndex (D.getD 0 ' ') = dl.getD 0 0) ∧
        (2 ≤ D.length → jsAlphaIndex (D.getD 1 ' ') = dn.getD 0 0) := by
    intro n
    induction n with
    | zero =>
      intro D hD _ _
      have hnil : D = [] := List.eq_nil_of_length_eq_zero (by omega)
      subst hnil
      exact ⟨[], [], by simp, by simp, by intro d hd; simp at hd,
        by intro d hd; simp at hd, rfl, by intro h; simp at h, by intro h; simp at h⟩
    | succ n ih =>
      intro D hD hmem hev
      cases D with
      | nil =>
        exact ⟨[], [], by simp, by simp, by intro d hd; simp at hd,
          by intro d hd; simp at hd, rfl, by intro h; simp at h, by intro h; simp at h⟩
      | cons x D' =>
        cases D' with
        | nil => simp at hev
        | cons y rest =>
          simp only [List.length_cons] at hD hev
          obtain ⟨dl, dn, h1, h2, h3, h4, h5, -, -⟩ := ih rest (by omega)
            (fun ch hch => hmem ch (by simp [hch])) (by omega)
          have hxmem := hmem x (by simp)
          have hymem := hmem y (by simp)
          refine ⟨jsAlphaIndex x :: dl, jsAlphaIndex y :: dn, ?_, ?_, ?_, ?_, ?_, ?_, ?_⟩
          · simp only [List.length_cons, h1]
            omega
          · simp only [List.length_cons, h2]
            omega
          · intro d hd
            rcases List.mem_cons.mp hd with hh | hh
            · rw [hh]
              exact jsAlphaIndex_mem_range hxmem
            · exact h3 d hh
          · intro d hd
            rcases List.mem_cons.mp hd with hh | hh
            · rw [hh]
              exact jsAlphaIndex_mem_range hymem
            · exact h4 d hh
          · simp only [charsOfDigits, List.map_cons, interleave]
            rw [getD_jsAlphaIndex hxmem, getD_jsAlphaIndex hymem]
            rw [show (dl.map fun v => CODE_ALPHABET.getD v.toNat ' ') =
              charsOfDigits dl from rfl,
              show (dn.map fun v => CODE_ALPHABET.getD v.toNat ' ') =
              charsOfDigits dn from rfl, ← h5]
          · intro _
            rfl
          · intro _
            rfl
  intro D hmem hev
  exact key D.length D le_rfl hmem hev

/-- Every alphabet string is the grid-character string of row/column digit
sequences. -/
lemma exists_grid_digits_of_chars : ∀ (G : List Char),
    (∀ ch ∈ G, ch ∈ CODE_ALPHABET) →
    ∃ rows cols : List ℤ, rows.length = G.length ∧ cols.length = G.length ∧
      (∀ r ∈ rows, 0 ≤ r ∧ r < 5) ∧ (∀ c ∈ cols, 0 ≤ c ∧ c < 4) ∧
      G = gridChars rows cols := by
  intro G
  induction G with
  | nil =>
    intro _
    exact ⟨[], [], rfl, rfl, by intro r hr; simp at hr, by intro r hr; simp at hr, rfl⟩
  | cons x G' ih =>
    intro hmem
    obtain ⟨rows, cols, h1, h2, h3, h4, h5⟩ := ih (fun ch hch => hmem ch (by simp [hch]))
    have hxmem := hmem x (by simp)
    have hxrange := jsAlphaIndex_mem_range hxmem
    have hGC : ((GRID_COLUMNS : ℕ) : ℤ) = 4 := rfl
    refine ⟨jsAlphaIndex x / 4 :: rows, jsAlphaIndex x % 4 :: cols, ?_, ?_, ?_, ?_, ?_⟩
    · simp [h1]
    · simp [h2]
    · intro r hr
      rcases List.mem_cons.mp hr with hh | hh
      · rw [hh]
        omega
      · exact h3 r hh
    · intro r hr
      rcases List.mem_cons.mp hr with hh | hh
      · rw [hh]
        omega
      · exact h4 r hh
    · simp only [gridChars]
      rw [hGC, show jsAlphaIndex x / 4 * 4 + jsAlphaIndex x % 4 = jsAlphaIndex x from
        by omega]
      rw [jsCharAt_alphabet hxrange.1 hxrange.2, getD_jsAlphaIndex hxmem]
      rw [← h5]
      rfl

/-- Round trip for canonical full codes: decoding succeeds and re-encoding
the decoded centre at the decoded length reproduces the code exactly. -/
lemma decode_encode_roundtrip {c : List Char} (hful : isFull c = true)
    (hup : ∀ ch ∈ c, ch.toUpper = ch)
    (hpadadj : ∀ i : ℕ, c.getD i ' ' = PADDING_CHARACTER →
      c.getD (i + 1) ' ' = PADDING_CHARACTER ∨ c.getD (i + 1) ' ' = SEPARATOR) :
    ∃ area : CodeArea, decode c = .ok area ∧
      encode area.latitudeCenter area.longitudeCenter area.codeLength = .ok c := by
  obtain ⟨D, hc, h2, h9, hev, hmem, hfst, hsnd, -⟩ := isFull_decomp hful hup hpadadj
  have hLM : LATITUDE_MAX = (90 : ℚ) := rfl
  have hLN : LONGITUDE_MAX = (180 : ℚ) := rfl
  rcases le_or_lt D.length 10 with h10 | h10
  · -- pair-only code
    have hevall : D.length % 2 = 0 := by
      by_cases hl : D.length < 8
      · exact hev hl
      · omega
    obtain ⟨dl, dn, hdlen, hnlen, hdok, hnok, hDi, hA0, hA1⟩ :=
      exists_digits_of_chars D hmem hevall
    have hfst' : dl.getD 0 0 < 9 := by
      rw [← hA0 (by omega)]
      exact hfst
    have hsnd' : dn.getD 0 0 < 18 := by
      rw [← hA1 (by omega)]
      exact hsnd
    have ht1 : 1 ≤ dl.length := by omega
    have ht5 : dl.length ≤ 5 := by omega
    have hdec := decode_assemble_pair ht1 ht5 (by omega) hdok hnok hfst' hsnd'
    rw [← hDi, ← hc] at hdec
    refine ⟨_, hdec, ?_⟩
    have hP0 := pairSeqValue_nonneg hdok 0 (by omega)
    have hN0 := pairSeqValue_nonneg hnok 0 (by omega)
    have hPle := pairSeqValue_le_of_first hdok ht1 ht5
      (show dl.getD 0 0 ≤ 8 from by omega)
    have hNle := pairSeqValue_le_of_first hnok (by omega) (by omega)
      (show dn.getD 0 0 ≤ 17 from by omega)
    norm_num at hPle hNle
    rw [show dn.length - 1 = dl.length - 1 from by omega] at hNle
    have hPR := PR_pos (show dl.length - 1 ≤ 4 from by omega)
    simp only [CodeArea.init]
    rw [min_eq_left (by rw [hLM]; linarith), min_eq_left (by rw [hLN]; linarith)]
    rw [encode_digits_pairs ht1 ht5 (by omega) hdok hnok hfst' hsnd'
      (show (0 : ℚ) ≤ PR (dl.length - 1) / 2 from by linarith) (by linarith)
      (show (0 : ℚ) ≤ PR (dl.length - 1) / 2 from by linarith) (by linarith)
      (by ring) (by ring)]
    rw [← hDi, ← hc]
  · -- grid-refined code
    have htklen : (D.take 10).length = 10 := by
      rw [List.length_take]
      omega
    have hdplen : (D.drop 10).length = D.length - 10 := List.length_drop _ _
    obtain ⟨dl, dn, hdlen, hnlen, hdok, hnok, hDi, hA0, hA1⟩ :=
      exists_digits_of_chars (D.take 10)
        (fun ch hch => hmem ch (List.take_subset _ _ hch)) (by rw [htklen])
    rw [htklen] at hdlen hnlen
    have hdl5 : dl.length = 5 := by omega
    have hdn5 : dn.length = 5 := by omega
    obtain ⟨rows, cols, hrlen, hclen2, hrok, hcok, hGi⟩ :=
      exists_grid_digits_of_chars (D.drop 10)
        (fun ch hch => hmem ch (List.drop_subset _ _ hch))
    have hg1 : 1 ≤ rows.length := by
      rw [hrlen, hdplen]
      omega
    have hcr : cols.length = rows.length := by rw [hclen2, hrlen]
    have hD0 : D.getD 0 ' ' = (D.take 10).getD 0 ' ' := by
      conv_lhs => rw [← List.take_append_drop 10 D]
      rw [List.getD_append _ _ ' ' _ (by rw [htklen]; omega)]
    have hD1 : D.getD 1 ' ' = (D.take 10).getD 1 ' ' := by
      conv_lhs => rw [← List.take_append_drop 10 D]
      rw [List.getD_append _ _ ' ' _ (by rw [htklen]; omega)]
    have hfst' : dl.getD 0 0 < 9 := by
      rw [← hA0 (by rw [htklen]; omega), ← hD0]
      exact hfst
    have hsnd' : dn.getD 0 0 < 18 := by
      rw [← hA1 (by rw [htklen]; omega), ← hD1]
      exact hsnd
    have hdec := decode_assemble_grid hdl5 hdn5 hdok hnok hfst' hsnd' hg1
      hcr.symm hrok hcok
    have hDfull : interleave (charsOfDigits dl) (charsOfDigits dn) ++
        gridChars rows cols = D := by
      rw [← hDi, ← hGi]
      exact List.take_append_drop 10 D
    rw [hDfull, ← hc] at hdec
    refine ⟨_, hdec, ?_⟩
    have hP0 := pairSeqValue_nonneg hdok 0 (by omega)
    have hN0 := pairSeqValue_nonneg hnok 0 (by omega)
    have hPle := pairSeqValue_le_of_first hdok (by omega) (by omega)
      (show dl.getD 0 0 ≤ 8 from by omega)
    have hNle := pairSeqValue_le_of_first hnok (by omega) (by omega)
      (show dn.getD 0 0 ≤ 17 from by omega)
    rw [hdl5] at hPle
    rw [hdn5] at hNle
    norm_num at hPle hNle
    rw [PR_four_eq] at hPle hNle
    have hGSD : (0 : ℚ) < GRID_SIZE_DEGREES := by norm_num [GRID_SIZE_DEGREES]
    have hG5i : ((GRID_ROWS : ℕ) : ℤ) = 5 := rfl
    have hG4i : ((GRID_COLUMNS : ℕ) : ℤ) = 4 := rfl
    have hg0 : 0 ≤ gridSeqValue GRID_ROWS rows GRID_SIZE_DEGREES :=
      gridSeqValue_nonneg (by norm_num [GRID_ROWS]) (fun e he => (hrok e he).1)
        (le_of_lt hGSD)
    have hgn0 : 0 ≤ gridSeqValue GRID_COLUMNS cols GRID_SIZE_DEGREES :=
      gridSeqValue_nonneg (by norm_num [GRID_COLUMNS]) (fun e he => (hcok e he).1)
        (le_of_lt hGSD)
    have hgle := gridSeqValue_le (show 0 < GRID_ROWS by norm_num [GRID_ROWS])
      (fun e he => ⟨(hrok e he).1, by rw [hG5i]; exact (hrok e he).2⟩) hGSD
    have hgnle := gridSeqValue_le (show 0 < GRID_COLUMNS by norm_num [GRID_COLUMNS])
      (fun e he => ⟨(hcok e he).1, by rw [hG4i]; exact (hcok e he).2⟩) hGSD
    rw [hcr] at hgnle
    have hcellpos : (0 : ℚ) < GRID_SIZE_DEGREES / (GRID_ROWS : ℚ) ^ rows.length :=
      div_pos hGSD (pow_pos (by norm_num [GRID_ROWS]) _)
    have hcellpos4 : (0 : ℚ) < GRID_SIZE_DEGREES / (GRID_COLUMNS : ℚ) ^ rows.length :=
      div_pos hGSD (pow_pos (by norm_num [GRID_COLUMNS]) _)
    simp only [CodeArea.init]
    rw [min_eq_left (by rw [hLM]; linarith), min_eq_left (by rw [hLN]; linarith)]
    rw [encode_digits_grid hdl5 hdn5 hdok hnok hfst' hsnd' hg1 hcr.symm hrok hcok
      (show (0 : ℚ) ≤ GRID_SIZE_DEGREES / (GRID_ROWS : ℚ) ^ rows.length / 2 from
        by linarith)
      (by linarith)
      (show (0 : ℚ) ≤ GRID_SIZE_DEGREES / (GRID_COLUMNS : ℚ) ^ rows.length / 2 from
        by linarith)
      (by linarith) (by ring) (by ring)]
    rw [hDfull, ← hc]

/-! ### Helpers for the shorten/recover round trip -/

lemma map_toUpper_canonical {l : List Char} (h : ∀ ch ∈ l, ch.toUpper = ch) :
    l.map Char.toUpper = l := by
  induction l with
  | nil => rfl
  | cons x xs ih =>
    rw [List.map_cons, h x (by simp), ih (fun ch hch => h ch (by simp [hch]))]

lemma pairSeqValue_replicate_zero : ∀ (k j : ℕ),
    pairSeqValue (List.replicate k 0) j = 0 := by
  intro k
  induction k with
  | zero => intro j; simp [pairSeqValue]
  | succ k ih =>
    intro j
    rw [List.replicate_succ]
    simp only [pairSeqValue, ih (j + 1)]
    ring

lemma charsOfDigits_append (u v : List ℤ) :
    charsOfDigits (u ++ v) = charsOfDigits u ++ charsOfDigits v := by
  simp [charsOfDigits]

/-- Taking an even prefix of an interleaving takes the prefixes of both
digit strings. -/
lemma interleave_take {A B : List ℤ} (hlen : A.length = B.length) {j : ℕ}
    (hj : j ≤ A.length) :
    (interleave (charsOfDigits A) (charsOfDigits B)).take (2 * j) =
      interleave (charsOfDigits (A.take j)) (charsOfDigits (B.take j)) := by
  conv_lhs => rw [← List.take_append_drop j A, ← List.take_append_drop j B]
  rw [charsOfDigits_append, charsOfDigits_append]
  rw [interleave_append (by
    rw [charsOfDigits_length, charsOfDigits_length, List.length_take,
      List.length_take]
    omega)]
  have hL : (interleave (charsOfDigits (A.take j))
      (charsOfDigits (B.take j))).length = 2 * j := by
    rw [interleave_length (by
      rw [charsOfDigits_length, charsOfDigits_length, List.length_take,
        List.length_take]
      omega)]
    rw [charsOfDigits_length, List.length_take]
    omega
  rw [← hL, List.take_left]

/-- Taking at most the first eight characters of an assembled code takes the
same prefix of the digit string. -/
lemma assembleCode_take {D : List Char} {k : ℕ} (hk : k ≤ 8) (hD : 8 ≤ D.length) :
    (assembleCode D).take k = D.take k := by
  rw [assembleCode]
  have hmin : 8 - min D.length 8 = 0 := by omega
  rw [hmin]
  simp only [List.replicate_zero, List.append_nil]
  rw [List.take_append_of_le_length (by rw [List.length_take]; omega)]
  rw [List.take_take, min_eq_left hk]

/-- A string of alphabet characters, a separator, then more alphabet
characters (with the post part not a single character and the pre part even
and shorter than eight) is a valid short code. -/
lemma isShort_partial {u v : List Char} (hu : ∀ ch ∈ u, ch ∈ CODE_ALPHABET)
    (hv : ∀ ch ∈ v, ch ∈ CODE_ALPHABET) (hul : u.length < 8)
    (huev : u.length % 2 = 0) (hvl : v.length ≠ 1) :
    isValid (u ++ SEPARATOR :: v) = true ∧ isShort (u ++ SEPARATOR :: v) = true ∧
      jsIndexOf (u ++ SEPARATOR :: v) SEPARATOR = u.length := by
  have hsepu : SEPARATOR ∉ u := fun hh => sep_not_mem_alphabet (hu _ hh)
  have hsepv : SEPARATOR ∉ v := fun hh => sep_not_mem_alphabet (hv _ hh)
  have hpadmem : PADDING_CHARACTER ∉ u ++ SEPARATOR :: v := by
    intro hh
    rcases List.mem_append.mp hh with h | h
    · exact pad_not_mem_alphabet (hu _ h)
    · rcases List.mem_cons.mp h with h | h
      · exact absurd h (by decide)
      · exact pad_not_mem_alphabet (hv _ h)
  have hidx : jsIndexOf (u ++ SEPARATOR :: v) SEPARATOR = u.length := by
    rw [jsIndexOf_append_right hsepu (by simp), jsIndexOf, if_pos rfl]
    simp
  have hlast : jsLastIndexOf (u ++ SEPARATOR :: v) SEPARATOR = u.length := by
    rw [jsLastIndexOf_append_right (by simp)]
    rw [jsLastIndexOf, jsLastIndexOf_not_mem hsepv]
    simp
  have hne : ¬(u ++ SEPARATOR :: v = []) := by simp
  have hc1 : ¬(jsIndexOf (u ++ SEPARATOR :: v) SEPARATOR = -1) := by
    rw [hidx]
    omega
  have hc2 : ¬(jsIndexOf (u ++ SEPARATOR :: v) SEPARATOR ≠
      jsLastIndexOf (u ++ SEPARATOR :: v) SEPARATOR) := by
    rw [hidx, hlast]
    exact not_ne_iff.mpr rfl
  have hc3 : ¬(jsIndexOf (u ++ SEPARATOR :: v) SEPARATOR > (SEPARATOR_POSITION : ℤ) ∨
      jsIndexOf (u ++ SEPARATOR :: v) SEPARATOR % 2 = 1) := by
    rw [hidx]
    have hsp : ((SEPARATOR_POSITION : ℕ) : ℤ) = 8 := rfl
    omega
  have hc4 : ¬(jsIndexOf (u ++ SEPARATOR :: v) PADDING_CHARACTER > -1 ∧
      (jsIndexOf (u ++ SEPARATOR :: v) PADDING_CHARACTER = 0 ∨
       (runLengths PADDING_CHARACTER (u ++ SEPARATOR :: v)).length > 1 ∨
       (runLengths PADDING_CHARACTER (u ++ SEPARATOR :: v)).headD 0 % 2 = 1 ∨
       (runLengths PADDING_CHARACTER (u ++ SEPARATOR :: v)).headD 0 >
         SEPARATOR_POSITION - 2 ∨
       (u ++ SEPARATOR :: v).getLast? ≠ some SEPARATOR)) := by
    intro hcon
    have h1 := hcon.1
    rw [jsIndexOf_eq_neg_one.mpr hpadmem] at h1
    omega
  have hc5 : ¬(((u ++ SEPARATOR :: v).length : ℤ) -
      jsIndexOf (u ++ SEPARATOR :: v) SEPARATOR - 1 = 1) := by
    rw [hidx]
    simp only [List.length_append, List.length_cons]
    push_cast
    omega
  have hstrip : stripFirstRun SEPARATOR (u ++ SEPARATOR :: v) = u ++ v := by
    rw [show SEPARATOR :: v = List.replicate 1 SEPARATOR ++ v from rfl,
      ← List.append_assoc]
    exact stripFirstRun_structured hsepu (by omega)
      (fun y hy hc => hsepv (hc ▸ List.mem_of_mem_head? hy))
  have hvalid : isValid (u ++ SEPARATOR :: v) = true := by
    rw [isValid, if_neg hne, if_neg hc1, if_neg hc2, if_neg hc3, if_neg hc4,
      if_neg hc5, hstrip]
    rw [stripFirstRun_not_mem (by
      intro hh
      apply hpadmem
      rcases List.mem_append.mp hh with h | h
      · exact List.mem_append.mpr (Or.inl h)
      · exact List.mem_append.mpr (Or.inr (by simp [h])))]
    rw [List.all_eq_true]
    intro ch hch
    have hmem2 : ch ∈ CODE_ALPHABET := by
      rcases List.mem_append.mp hch with h | h
      · exact hu _ h
      · exact hv _ h
    rw [alphabet_toUpper_fixed hmem2]
    have hcont : CODE_ALPHABET.contains ch = true := by
      rw [List.contains_iff_exists_mem_beq]
      exact ⟨ch, hmem2, by simp⟩
    rw [hcont]
    simp
  refine ⟨hvalid, ?_, hidx⟩
  rw [isShort, hvalid, hidx]
  have hsp : ((SEPARATOR_POSITION : ℕ) : ℤ) = 8 := rfl
  simp only [Bool.not_true, Bool.false_eq_true, if_false]
  rw [if_pos ⟨by omega, by omega⟩]

/-- The floor that `recoverNearest` computes lands exactly on the prefix
value of the original code whenever the reference is within the original
cell. -/
lemma rounded_floor {x top low cell res s : ℚ} {Q K : ℤ}
    (hres : 0 < res) (htop : top = (Q : ℚ) * res) (hs : (K : ℚ) * res = s)
    (hlow0 : 0 ≤ low) (hlowcell : low + cell ≤ res)
    (hx1 : top + low - s < x) (hx2 : x < top + low - s + cell) :
    ⌊x / res⌋ * res = top - s := by
  have hfl : ⌊x / res⌋ = Q - K := by
    apply floor_div_extract hres (r := x - top + s)
    · push_cast
      rw [htop]
      linear_combination hs
    · linarith
    · linarith
  rw [hfl]
  push_cast
  rw [htop]
  linear_combination -hs

lemma getD_take_zero {l : List ℤ} {j : ℕ} (hj : 1 ≤ j) :
    (l.take j).getD 0 0 = l.getD 0 0 := by
  cases l with
  | nil => simp
  | cons x xs =>
    cases j with
    | zero => omega
    | succ m => rfl

/-- Encoding the rounded reference point at the full pair length yields a
code whose leading characters are the original digit prefix. -/
lemma encode_rounded {dl dn : List ℤ} {j : ℕ}
    (hj1 : 1 ≤ j) (hjt : j ≤ dl.length) (ht5 : dl.length ≤ 5)
    (hlen : dl.length = dn.length)
    (hdok : digitsOK dl) (hnok : digitsOK dn)
    (hfst : dl.getD 0 0 < 9) (hsnd : dn.getD 0 0 < 18) :
    ∃ Z : List Char, encode (pairSeqValue (dl.take j) 0 - LATITUDE_MAX)
      (pairSeqValue (dn.take j) 0 - LONGITUDE_MAX) PAIR_CODE_LENGTH =
        .ok (assembleCode Z) ∧
      Z.length = 10 ∧ (∀ ch ∈ Z, ch ∈ CODE_ALPHABET) ∧
      Z.take (2 * j) =
        interleave (charsOfDigits (dl.take j)) (charsOfDigits (dn.take j)) := by
  have htkl : (dl.take j).length = j := by
    rw [List.length_take]
    omega
  have htknl : (dn.take j).length = j := by
    rw [List.length_take]
    omega
  have hdok' : digitsOK (dl.take j ++ List.replicate (5 - j) 0) := by
    intro d hd
    rcases List.mem_append.mp hd with h | h
    · exact hdok d (List.take_subset _ _ h)
    · rw [List.eq_of_mem_replicate h]
      omega
  have hnok' : digitsOK (dn.take j ++ List.replicate (5 - j) 0) := by
    intro d hd
    rcases List.mem_append.mp hd with h | h
    · exact hnok d (List.take_subset _ _ h)
    · rw [List.eq_of_mem_replicate h]
      omega
  have hlen' : (dl.take j ++ List.replicate (5 - j) 0).length = 5 := by
    rw [List.length_append, List.length_replicate, htkl]
    omega
  have hnlen' : (dn.take j ++ List.replicate (5 - j) 0).length = 5 := by
    rw [List.length_append, List.length_replicate, htknl]
    omega
  have hval : pairSeqValue (dl.take j ++ List.replicate (5 - j) 0) 0 =
      pairSeqValue (dl.take j) 0 := by
    rw [pairSeqValue_split (dl.take j ++ List.replicate (5 - j) 0) 0 j]
    have htk2 : (dl.take j ++ List.replicate (5 - j) (0 : ℤ)).take j = dl.take j := by
      rw [List.take_append_of_le_length
        (show j ≤ (dl.take j).length from by omega), List.take_take, min_self]
    have hdp2 : (dl.take j ++ List.replicate (5 - j) (0 : ℤ)).drop j =
        List.replicate (5 - j) (0 : ℤ) := by
      rw [List.drop_append_of_le_length
        (show j ≤ (dl.take j).length from by omega),
        List.drop_eq_nil_of_le (show (dl.take j).length ≤ j from by omega),
        List.nil_append]
    rw [htk2, hdp2]
    rw [pairSeqValue_replicate_zero]
    ring
  have hnval : pairSeqValue (dn.take j ++ List.replicate (5 - j) 0) 0 =
      pairSeqValue (dn.take j) 0 := by
    rw [pairSeqValue_split (dn.take j ++ List.replicate (5 - j) 0) 0 j]
    have htk2 : (dn.take j ++ List.replicate (5 - j) (0 : ℤ)).take j = dn.take j := by
      rw [List.take_append_of_le_length
        (show j ≤ (dn.take j).length from by omega), List.take_take, min_self]
    have hdp2 : (dn.take j ++ List.replicate (5 - j) (0 : ℤ)).drop j =
        List.replicate (5 - j) (0 : ℤ) := by
      rw [List.drop_append_of_le_length
        (show j ≤ (dn.take j).length from by omega),
        List.drop_eq_nil_of_le (show (dn.take j).length ≤ j from by omega),
        List.nil_append]
    rw [htk2, hdp2]
    rw [pairSeqValue_replicate_zero]
    ring
  have hfst' : (dl.take j ++ List.replicate (5 - j) 0).getD 0 0 < 9 := by
    rw [List.getD_append _ _ 0 _ (by omega), getD_take_zero hj1]
    exact hfst
  have hsnd' : (dn.take j ++ List.replicate (5 - j) 0).getD 0 0 < 18 := by
    rw [List.getD_append _ _ 0 _ (by omega), getD_take_zero hj1]
    exact hsnd
  have hPR4 : 0 < PR 4 := PR_pos (by omega)
  have henc := encode_digits_pairs
    (x := pairSeqValue (dl.take j) 0 - LATITUDE_MAX)
    (y := pairSeqValue (dn.take j) 0 - LONGITUDE_MAX)
    (by omega) (by omega) (by omega) hdok' hnok' hfst' hsnd'
    (le_refl (0 : ℚ)) (by rw [hlen']; norm_num; exact hPR4)
    (le_refl (0 : ℚ)) (by rw [hlen']; norm_num; exact hPR4)
    (by rw [hval]; ring) (by rw [hnval]; ring)
  rw [hlen'] at henc
  refine ⟨interleave (charsOfDigits (dl.take j ++ List.replicate (5 - j) 0))
    (charsOfDigits (dn.take j ++ List.replicate (5 - j) 0)), ?_, ?_, ?_, ?_⟩
  · rw [show PAIR_CODE_LENGTH = 2 * 5 from rfl]
    exact henc
  · rw [interleave_length (by
      rw [charsOfDigits_length, charsOfDigits_length, hlen', hnlen'])]
    rw [charsOfDigits_length, hlen']
  · exact (interleave_digit_facts (by omega : 1 ≤ (dl.take j ++
      List.replicate (5 - j) 0).length) (by omega) hdok' hnok').2.1
  · rw [interleave_take (by omega) (by omega)]
    have htk2 : (dl.take j ++ List.replicate (5 - j) (0 : ℤ)).take j = dl.take j := by
      rw [List.take_append_of_le_length
        (show j ≤ (dl.take j).length from by omega), List.take_take, min_self]
    have htk3 : (dn.take j ++ List.replicate (5 - j) (0 : ℤ)).take j = dn.take j := by
      rw [List.take_append_of_le_length
        (show j ≤ (dn.take j).length from by omega), List.take_take, min_self]
    rw [htk2, htk3]

lemma assembleCode_drop {D : List Char} {k : ℕ} (hk : k ≤ 8) (hD : 8 ≤ D.length) :
    (assembleCode D).drop k = (D.take 8).drop k ++ SEPARATOR :: D.drop 8 := by
  rw [assembleCode]
  have hmin : 8 - min D.length 8 = 0 := by omega
  rw [hmin]
  simp only [List.replicate_zero, List.append_nil]
  rw [List.drop_append_of_le_length (by rw [List.length_take]; omega)]

/-- Core of the recover correctness argument: recovering a trimmed canonical
code against a reference inside the original cell rebuilds the code. -/
lemma recoverNearest_drop_core {c D : List Char} {dl dn : List ℤ} {j : ℕ}
    {lowLat lowLng cellLat cellLng refLat refLng : ℚ} {area : CodeArea}
    (hc : c = assembleCode D) (hD8 : 8 ≤ D.length) (hD9 : D.length ≠ 9)
    (hmem : ∀ ch ∈ D, ch ∈ CODE_ALPHABET)
    (hup : ∀ ch ∈ c, ch.toUpper = ch)
    (hj : j = 3 ∨ j = 4) (hjt : j ≤ dl.length) (ht5 : dl.length ≤ 5)
    (hlen : dl.length = dn.length)
    (hdok : digitsOK dl) (hnok : digitsOK dn)
    (hfst : dl.getD 0 0 < 9) (hsnd : dn.getD 0 0 < 18)
    (hDtake : D.take (2 * j) =
      interleave (charsOfDigits (dl.take j)) (charsOfDigits (dn.take j)))
    (hdec : decode c = .ok area)
    (hlatLo : area.latitudeLo = pairSeqValue (dl.take j) 0 + lowLat - 90)
    (hlowLat0 : 0 ≤ lowLat) (hlowLatC : lowLat + cellLat ≤ PR (j - 1))
    (hcellLat0 : 0 < cellLat)
    (hlatcentre : area.latitudeCenter = area.latitudeLo + cellLat / 2)
    (hlatclose : |area.latitudeCenter - clipLatitude refLat| < cellLat / 2)
    (hlngLo : area.longitudeLo = pairSeqValue (dn.take j) 0 + lowLng - 180)
    (hlowLng0 : 0 ≤ lowLng) (hlowLngC : lowLng + cellLng ≤ PR (j - 1))
    (hcellLng0 : 0 < cellLng)
    (hlngcentre : area.longitudeCenter = area.longitudeLo + cellLng / 2)
    (hlngclose : |area.longitudeCenter - normalizeLongitude refLng| < cellLng / 2)
    (hreenc : encode area.latitudeCenter area.longitudeCenter area.codeLength
      = .ok c) :
    recoverNearest (c.drop (2 * j)) refLat refLng = .ok c := by
  have hLM : LATITUDE_MAX = (90 : ℚ) := rfl
  have hLN : LONGITUDE_MAX = (180 : ℚ) := rfl
  -- the trimmed code and its parts
  have hdropform : c.drop (2 * j) = (D.take 8).drop (2 * j) ++
      SEPARATOR :: D.drop 8 := by
    rw [hc]
    exact assembleCode_drop (by omega) hD8
  have hulen : ((D.take 8).drop (2 * j)).length = 8 - 2 * j := by
    rw [List.length_drop, List.length_take]
    omega
  have humem : ∀ ch ∈ (D.take 8).drop (2 * j), ch ∈ CODE_ALPHABET :=
    fun ch hch => hmem ch (List.take_subset _ _ (List.drop_subset _ _ hch))
  have hvmem : ∀ ch ∈ D.drop 8, ch ∈ CODE_ALPHABET :=
    fun ch hch => hmem ch (List.drop_subset _ _ hch)
  obtain ⟨hpvalid, hpshort, hpidx⟩ := isShort_partial humem hvmem
    (by omega) (by omega) (by rw [List.length_drop]; omega)
  rw [← hdropform] at hpvalid hpshort hpidx
  rw [hulen] at hpidx
  -- the reference rounds to the digit prefix of the original code
  obtain ⟨Q, hQ, hQ0⟩ := pairSeqValue_int_mul (dl.take j) 0 (j - 1)
    (by rw [List.length_take]; omega) (by omega)
  obtain ⟨R, hR, hR0⟩ := pairSeqValue_int_mul (dn.take j) 0 (j - 1)
    (by rw [List.length_take]; omega) (by omega)
  have hresK : ∃ K L : ℤ, (K : ℚ) * PR (j - 1) = 90 ∧ (L : ℚ) * PR (j - 1) = 180 := by
    rcases hj with h | h
    · subst h
      exact ⟨1800, 3600, by norm_num [PR, PAIR_RESOLUTIONS],
        by norm_num [PR, PAIR_RESOLUTIONS]⟩
    · subst h
      exact ⟨36000, 72000, by norm_num [PR, PAIR_RESOLUTIONS],
        by norm_num [PR, PAIR_RESOLUTIONS]⟩
  obtain ⟨K, L, hK, hL⟩ := hresK
  have hPRpos : 0 < PR (j - 1) := PR_pos (by omega)
  have hlat1 : area.latitudeLo < clipLatitude refLat := by
    have h := (abs_lt.mp hlatclose).2
    rw [hlatcentre] at h
    linarith
  have hlat2 : clipLatitude refLat < area.latitudeLo + cellLat := by
    have h := (abs_lt.mp hlatclose).1
    rw [hlatcentre] at h
    linarith
  have hlng1 : area.longitudeLo < normalizeLongitude refLng := by
    have h := (abs_lt.mp hlngclose).2
    rw [hlngcentre] at h
    linarith
  have hlng2 : normalizeLongitude refLng < area.longitudeLo + cellLng := by
    have h := (abs_lt.mp hlngclose).1
    rw [hlngcentre] at h
    linarith
  have hflLat : ⌊clipLatitude refLat / PR (j - 1)⌋ * PR (j - 1) =
      pairSeqValue (dl.take j) 0 - LATITUDE_MAX := by
    rw [hLM]
    apply rounded_floor hPRpos hQ hK hlowLat0 hlowLatC
    · rw [hlatLo] at hlat1
      linarith
    · rw [hlatLo] at hlat2
      linarith
  have hflLng : ⌊normalizeLongitude refLng / PR (j - 1)⌋ * PR (j - 1) =
      pairSeqValue (dn.take j) 0 - LONGITUDE_MAX := by
    rw [hLN]
    apply rounded_floor hPRpos hR hL hlowLng0 hlowLngC
    · rw [hlngLo] at hlng1
      linarith
    · rw [hlngLo] at hlng2
      linarith
  obtain ⟨Z, hZenc, hZlen, hZmem, hZtake⟩ := encode_rounded (by omega) hjt ht5 hlen
    hdok hnok hfst hsnd
  -- the candidate assembled inside recoverNearest is the original code
  have hZc : (assembleCode Z).take (2 * j) ++ c.drop (2 * j) = c := by
    rw [assembleCode_take (by omega) (by omega), hZtake, ← hDtake]
    conv_rhs => rw [hc]
    rw [← assembleCode_take (k := 2 * j) (by omega) hD8, ← hc]
    exact List.take_append_drop _ _
  -- centre adjustments do not fire
  have hadj1 : ¬(area.latitudeCenter - clipLatitude refLat > PR (j - 1) / 2) := by
    have h := (abs_lt.mp hlatclose).2
    linarith
  have hadj2 : ¬(area.latitudeCenter - clipLatitude refLat < -(PR (j - 1) / 2)) := by
    have h := (abs_lt.mp hlatclose).1
    linarith
  have hadj3 : ¬(area.longitudeCenter - normalizeLongitude refLng >
      PR (j - 1) / 2) := by
    have h := (abs_lt.mp hlngclose).2
    linarith
  have hadj4 : ¬(area.longitudeCenter - normalizeLongitude refLng <
      -(PR (j - 1) / 2)) := by
    have h := (abs_lt.mp hlngclose).1
    linarith
  have hsmap : (c.drop (2 * j)).map Char.toUpper = c.drop (2 * j) :=
    map_toUpper_canonical (fun ch hch => hup ch (List.drop_subset _ _ hch))
  have hrespow : (20 : ℚ) ^ (2 - ((2 * j : ℕ) : ℤ) / 2) = PR (j - 1) := by
    rcases hj with h | h
    · subst h
      norm_num [PR, PAIR_RESOLUTIONS]
    · subst h
      norm_num [PR, PAIR_RESOLUTIONS]
  simp only [recoverNearest, hpshort, Bool.not_true, Bool.false_eq_true, if_false,
    hsmap, hpidx]
  rw [Int.toNat_natCast]
  rw [show SEPARATOR_POSITION - (8 - 2 * j) = 2 * j from by
    have hsp : SEPARATOR_POSITION = 8 := rfl
    omega]
  rw [hrespow, hflLat, hflLng, hZenc]
  simp only []
  rw [hZc, hdec]
  simp only []
  rw [if_neg hadj1, if_neg hadj2, if_neg hadj3, if_neg hadj4]
  exact hreenc

/-- Evaluation of `shorten` on a canonical unpadded full code: the guards
pass and the result is determined by the range comparisons. -/
lemma shorten_eval {c : List Char} {refLat refLng : ℚ} {area : CodeArea}
    (hful : isFull c = true) (hnopad : PADDING_CHARACTER ∉ c)
    (hmap : c.map Char.toUpper = c)
    (hdec : decode c = .ok area)
    (hlen6 : ¬(area.codeLength < MIN_TRIMMABLE_CODE_LEN)) :
    shorten c refLat refLng =
      (if max |area.latitudeCenter - clipLatitude refLat|
          |area.longitudeCenter - normalizeLongitude refLng| <
          PAIR_RESOLUTIONS.getD 3 0 * 0.3 then .ok (c.drop 8)
       else if max |area.latitudeCenter - clipLatitude refLat|
          |area.longitudeCenter - normalizeLongitude refLng| <
          PAIR_RESOLUTIONS.getD 2 0 * 0.3 then .ok (c.drop 6)
       else if max |area.latitudeCenter - clipLatitude refLat|
          |area.longitudeCenter - normalizeLongitude refLng| <
          PAIR_RESOLUTIONS.getD 1 0 * 0.3 then .ok (c.drop 4)
       else .ok c) := by
  simp only [shorten, hful, Bool.not_true, Bool.false_eq_true, if_false]
  rw [if_neg (fun hcon => hcon (jsIndexOf_eq_neg_one.mpr hnopad))]
  rw [hmap, hdec]
  simp only []
  rw [if_neg hlen6]

/-- The shorten-then-recover round trip for canonical unpadded full codes:
whenever the reference point is within half a cell of the decoded centre on
both axes, recovering the shortened code rebuilds the original exactly. -/
lemma shorten_recover_spec {c : List Char} {refLat refLng : ℚ} {area : CodeArea}
    (hful : isFull c = true) (hup : ∀ ch ∈ c, ch.toUpper = ch)
    (hnopad : PADDING_CHARACTER ∉ c)
    (hdec : decode c = .ok area)
    (hlatclose : |area.latitudeCenter - clipLatitude refLat| <
      (area.latitudeHi - area.latitudeLo) / 2)
    (hlngclose : |area.longitudeCenter - normalizeLongitude refLng| <
      (area.longitudeHi - area.longitudeLo) / 2) :
    ∃ s : List Char, shorten c refLat refLng = .ok s ∧
      recoverNearest s refLat refLng = .ok c := by
  have hLM : LATITUDE_MAX = (90 : ℚ) := rfl
  have hLN : LONGITUDE_MAX = (180 : ℚ) := rfl
  have hMIN : MIN_TRIMMABLE_CODE_LEN = 6 := rfl
  have hpadadj : ∀ i : ℕ, c.getD i ' ' = PADDING_CHARACTER →
      c.getD (i + 1) ' ' = PADDING_CHARACTER ∨ c.getD (i + 1) ' ' = SEPARATOR := by
    intro i hp
    by_cases hi : i < c.length
    · exact absurd (hp ▸ getD_mem_of_lt hi ' ') hnopad
    · rw [List.getD_eq_default _ _ (by omega)] at hp
      exact absurd hp (by decide)
  obtain ⟨D, hc, h2, h9, hev, hmem, hfst, hsnd, hpad8⟩ := isFull_decomp hful hup hpadadj
  have hD8 : 8 ≤ D.length := hpad8 hnopad
  obtain ⟨area0, hdec0, hreenc0⟩ := decode_encode_roundtrip hful hup hpadadj
  have hae : area = area0 := Except.ok.inj (hdec.symm.trans hdec0)
  subst hae
  have hmap := map_toUpper_canonical hup
  rcases le_or_lt D.length 10 with h10 | h10
  · -- pair-only code of eight or ten digits
    have hevall : D.length % 2 = 0 := by omega
    obtain ⟨dl, dn, hdlen, hnlen, hdok, hnok, hDi, hA0, hA1⟩ :=
      exists_digits_of_chars D hmem hevall
    have hfst' : dl.getD 0 0 < 9 := by
      rw [← hA0 (by omega)]
      exact hfst
    have hsnd' : dn.getD 0 0 < 18 := by
      rw [← hA1 (by omega)]
      exact hsnd
    have ht4 : 4 ≤ dl.length := by omega
    have ht5 : dl.length ≤ 5 := by omega
    have hlend : dl.length = dn.length := by omega
    have hdecE := decode_assemble_pair (by omega) ht5 hlend hdok hnok hfst' hsnd'
    rw [← hDi, ← hc] at hdecE
    have harea := Except.ok.inj (hdec.symm.trans hdecE)
    have hPle := pairSeqValue_le_of_first hdok (by omega) ht5
      (show dl.getD 0 0 ≤ 8 from by omega)
    have hNle := pairSeqValue_le_of_first hnok (by omega) (by omega)
      (show dn.getD 0 0 ≤ 17 from by omega)
    norm_num at hPle hNle
    rw [show dn.length - 1 = dl.length - 1 from by omega] at hNle
    have hP0 := pairSeqValue_nonneg hdok 0 (by omega)
    have hN0 := pairSeqValue_nonneg hnok 0 (by omega)
    have hPR := PR_pos (show dl.length - 1 ≤ 4 from by omega)
    have hPR3 : (0 : ℚ) < PR 3 := PR_pos (by omega)
    have hPR4 : (0 : ℚ) < PR 4 := PR_pos (by omega)
    have hcellLat : area.latitudeHi - area.latitudeLo = PR (dl.length - 1) := by
      rw [harea]
      simp only [CodeArea.init]
      ring
    have hcellLng : area.longitudeHi - area.longitudeLo = PR (dl.length - 1) := by
      rw [harea]
      simp only [CodeArea.init]
      ring
    rw [hcellLat] at hlatclose
    rw [hcellLng] at hlngclose
    have hcl : area.codeLength = 2 * dl.length := by
      rw [harea]
      rfl
    have hlen6 : ¬(area.codeLength < MIN_TRIMMABLE_CODE_LEN) := by
      rw [hcl, hMIN]
      omega
    rcases (by omega : dl.length = 5 ∨ dl.length = 4) with ht | ht
    · -- ten digits: trim eight characters and recover with j = 4
      have hPReq : PR (dl.length - 1) = PR 4 := by
        rw [show dl.length - 1 = 4 from by omega]
      have hsplitl := pairSeqValue_split dl 0 4
      have hsplitn := pairSeqValue_split dn 0 4
      rw [show (0 : ℕ) + 4 = 4 from rfl] at hsplitl hsplitn
      have hdokd : digitsOK (dl.drop 4) := fun d hd => hdok d (List.drop_subset _ _ hd)
      have hnokd : digitsOK (dn.drop 4) := fun d hd => hnok d (List.drop_subset _ _ hd)
      have htlat := pairSeqValue_tail_le hdokd 3 (by rw [List.length_drop]; omega)
      have htlng := pairSeqValue_tail_le hnokd 3 (by rw [List.length_drop]; omega)
      rw [show (3 : ℕ) + 1 = 4 from rfl] at htlat htlng
      rw [show (3 : ℕ) + (dl.drop 4).length = 4 from by
        rw [List.length_drop]; omega] at htlat
      rw [show (3 : ℕ) + (dn.drop 4).length = 4 from by
        rw [List.length_drop]; omega] at htlng
      have hd0 := pairSeqValue_nonneg hdokd 4 (by rw [List.length_drop]; omega)
      have hn0 := pairSeqValue_nonneg hnokd 4 (by rw [List.length_drop]; omega)
      have hr1 : max |area.latitudeCenter - clipLatitude refLat|
          |area.longitudeCenter - normalizeLongitude refLng| <
          PAIR_RESOLUTIONS.getD 3 0 * 0.3 := by
        rw [PR_def]
        apply max_lt
        · refine lt_trans hlatclose ?_
          rw [hPReq]
          norm_num [PR, PAIR_RESOLUTIONS]
        · refine lt_trans hlngclose ?_
          rw [hPReq]
          norm_num [PR, PAIR_RESOLUTIONS]
      rw [shorten_eval hful hnopad hmap hdec hlen6, if_pos hr1]
      refine ⟨c.drop 8, rfl, ?_⟩
      exact recoverNearest_drop_core (j := 4) hc hD8 h9 hmem hup (Or.inr rfl)
        (by omega) ht5 hlend hdok hnok hfst' hsnd'
        (by rw [hDi]; exact interleave_take hlend (by omega))
        hdec
        (show area.latitudeLo = pairSeqValue (dl.take 4) 0 +
            pairSeqValue (dl.drop 4) 4 - 90 from by
          rw [harea]
          simp only [CodeArea.init]
          rw [hLM, hsplitl])
        hd0
        (show pairSeqValue (dl.drop 4) 4 + PR 4 ≤ PR 3 from by linarith)
        hPR4
        (show area.latitudeCenter = area.latitudeLo + PR 4 / 2 from by
          rw [harea]
          simp only [CodeArea.init]
          rw [min_eq_left (by rw [hLM]; linarith)]
          rw [← hPReq]
          ring)
        (show |area.latitudeCenter - clipLatitude refLat| < PR 4 / 2 from by
          rw [← hPReq]
          exact hlatclose)
        (show area.longitudeLo = pairSeqValue (dn.take 4) 0 +
            pairSeqValue (dn.drop 4) 4 - 180 from by
          rw [harea]
          simp only [CodeArea.init]
          rw [hLN, hsplitn])
        hn0
        (show pairSeqValue (dn.drop 4) 4 + PR 4 ≤ PR 3 from by linarith)
        hPR4
        (show area.longitudeCenter = area.longitudeLo + PR 4 / 2 from by
          rw [harea]
          simp only [CodeArea.init]
          rw [min_eq_left (by rw [hLN]; linarith)]
          rw [← hPReq]
          ring)
        (show |area.longitudeCenter - normalizeLongitude refLng| < PR 4 / 2 from by
          rw [← hPReq]
          exact hlngclose)
        hreenc0
    · -- eight digits: trim eight or six characters depending on the range
      have hPReq3 : PR (dl.length - 1) = PR 3 := by
        rw [show dl.length - 1 = 3 from by omega]
      by_cases hr1 : max |area.latitudeCenter - clipLatitude refLat|
          |area.longitudeCenter - normalizeLongitude refLng| <
          PAIR_RESOLUTIONS.getD 3 0 * 0.3
      · -- range already below the finest pair resolution: trim eight, j = 4
        have htk4l : dl.take 4 = dl := by
          rw [List.take_eq_self_iff]
          omega
        have htk4n : dn.take 4 = dn := by
          rw [List.take_eq_self_iff]
          omega
        rw [shorten_eval hful hnopad hmap hdec hlen6, if_pos hr1]
        refine ⟨c.drop 8, rfl, ?_⟩
        exact recoverNearest_drop_core (j := 4) hc hD8 h9 hmem hup (Or.inr rfl)
          (by omega) ht5 hlend hdok hnok hfst' hsnd'
          (by rw [hDi]; exact interleave_take hlend (by omega))
          hdec
          (show area.latitudeLo = pairSeqValue (dl.take 4) 0 + 0 - 90 from by
            rw [harea]
            simp only [CodeArea.init]
            rw [hLM, htk4l]
            ring)
          le_rfl
          (show (0 : ℚ) + PR 3 ≤ PR 3 from by norm_num)
          hPR3
          (show area.latitudeCenter = area.latitudeLo + PR 3 / 2 from by
            rw [harea]
            simp only [CodeArea.init]
            rw [min_eq_left (by rw [hLM]; linarith)]
            rw [← hPReq3]
            ring)
          (show |area.latitudeCenter - clipLatitude refLat| < PR 3 / 2 from by
            rw [← hPReq3]
            exact hlatclose)
          (show area.longitudeLo = pairSeqValue (dn.take 4) 0 + 0 - 180 from by
            rw [harea]
            simp only [CodeArea.init]
            rw [hLN, htk4n]
            ring)
          le_rfl
          (show (0 : ℚ) + PR 3 ≤ PR 3 from by norm_num)
          hPR3
          (show area.longitudeCenter = area.longitudeLo + PR 3 / 2 from by
            rw [harea]
            simp only [CodeArea.init]
            rw [min_eq_left (by rw [hLN]; linarith)]
            rw [← hPReq3]
            ring)
          (show |area.longitudeCenter - normalizeLongitude refLng| < PR 3 / 2 from by
            rw [← hPReq3]
            exact hlngclose)
          hreenc0
      · -- otherwise the range is still below 0.3 of the next resolution: j = 3
        have hsplitl := pairSeqValue_split dl 0 3
        have hsplitn := pairSeqValue_split dn 0 3
        rw [show (0 : ℕ) + 3 = 3 from rfl] at hsplitl hsplitn
        have hdokd : digitsOK (dl.drop 3) := fun d hd => hdok d (List.drop_subset _ _ hd)
        have hnokd : digitsOK (dn.drop 3) := fun d hd => hnok d (List.drop_subset _ _ hd)
        have htlat := pairSeqValue_tail_le hdokd 2 (by rw [List.length_drop]; omega)
        have htlng := pairSeqValue_tail_le hnokd 2 (by rw [List.length_drop]; omega)
        rw [show (2 : ℕ) + 1 = 3 from rfl] at htlat htlng
        rw [show (2 : ℕ) + (dl.drop 3).length = 3 from by
          rw [List.length_drop]; omega] at htlat
        rw [show (2 : ℕ) + (dn.drop 3).length = 3 from by
          rw [List.length_drop]; omega] at htlng
        have hd0 := pairSeqValue_nonneg hdokd 3 (by rw [List.length_drop]; omega)
        have hn0 := pairSeqValue_nonneg hnokd 3 (by rw [List.length_drop]; omega)
        have hr2 : max |area.latitudeCenter - clipLatitude refLat|
            |area.longitudeCenter - normalizeLongitude refLng| <
            PAIR_RESOLUTIONS.getD 2 0 * 0.3 := by
          rw [PR_def]
          apply max_lt
          · refine lt_trans hlatclose ?_
            rw [hPReq3]
            norm_num [PR, PAIR_RESOLUTIONS]
          · refine lt_trans hlngclose ?_
            rw [hPReq3]
            norm_num [PR, PAIR_RESOLUTIONS]
        rw [shorten_eval hful hnopad hmap hdec hlen6, if_neg hr1, if_pos hr2]
        refine ⟨c.drop 6, rfl, ?_⟩
        exact recoverNearest_drop_core (j := 3) hc hD8 h9 hmem hup (Or.inl rfl)
          (by omega) ht5 hlend hdok hnok hfst' hsnd'
          (by rw [hDi]; exact interleave_take hlend (by omega))
          hdec
          (show area.latitudeLo = pairSeqValue (dl.take 3) 0 +
              pairSeqValue (dl.drop 3) 3 - 90 from by
            rw [harea]
            simp only [CodeArea.init]
            rw [hLM, hsplitl])
          hd0
          (show pairSeqValue (dl.drop 3) 3 + PR 3 ≤ PR 2 from by linarith)
          hPR3
          (show area.latitudeCenter = area.latitudeLo + PR 3 / 2 from by
            rw [harea]
            simp only [CodeArea.init]
            rw [min_eq_left (by rw [hLM]; linarith)]
            rw [← hPReq3]
            ring)
          (show |area.latitudeCenter - clipLatitude refLat| < PR 3 / 2 from by
            rw [← hPReq3]
            exact hlatclose)
          (show area.longitudeLo = pairSeqValue (dn.take 3) 0 +
              pairSeqValue (dn.drop 3) 3 - 180 from by
            rw [harea]
            simp only [CodeArea.init]
            rw [hLN, hsplitn])
          hn0
          (show pairSeqValue (dn.drop 3) 3 + PR 3 ≤ PR 2 from by linarith)
          hPR3
          (show area.longitudeCenter = area.longitudeLo + PR 3 / 2 from by
            rw [harea]
            simp only [CodeArea.init]
            rw [min_eq_left (by rw [hLN]; linarith)]
            rw [← hPReq3]
            ring)
          (show |area.longitudeCenter - normalizeLongitude refLng| < PR 3 / 2 from by
            rw [← hPReq3]
            exact hlngclose)
          hreenc0
  · -- grid-refined code: always trim eight characters, j = 4
    have htklen : (D.take 10).length = 10 := by
      rw [List.length_take]
      omega
    have hdplen : (D.drop 10).length = D.length - 10 := List.length_drop _ _
    obtain ⟨dl, dn, hdlen, hnlen, hdok, hnok, hDi, hA0, hA1⟩ :=
      exists_digits_of_chars (D.take 10)
        (fun ch hch => hmem ch (List.take_subset _ _ hch)) (by rw [htklen])
    rw [htklen] at hdlen hnlen
    have hdl5 : dl.length = 5 := by omega
    have hdn5 : dn.length = 5 := by omega
    have hlend : dl.length = dn.length := by omega
    obtain ⟨rows, cols, hrlen, hclen2, hrok, hcok, hGi⟩ :=
      exists_grid_digits_of_chars (D.drop 10)
        (fun ch hch => hmem ch (List.drop_subset _ _ hch))
    have hg1 : 1 ≤ rows.length := by
      rw [hrlen, hdplen]
      omega
    have hcr : cols.length = rows.length := by rw [hclen2, hrlen]
    have hD0 : D.getD 0 ' ' = (D.take 10).getD 0 ' ' := by
      conv_lhs => rw [← List.take_append_drop 10 D]
      rw [List.getD_append _ _ ' ' _ (by rw [htklen]; omega)]
    have hD1 : D.getD 1 ' ' = (D.take 10).getD 1 ' ' := by
      conv_lhs => rw [← List.take_append_drop 10 D]
      rw [List.getD_append _ _ ' ' _ (by rw [htklen]; omega)]
    have hfst' : dl.getD 0 0 < 9 := by
      rw [← hA0 (by rw [htklen]; omega), ← hD0]
      exact hfst
    have hsnd' : dn.getD 0 0 < 18 := by
      rw [← hA1 (by rw [htklen]; omega), ← hD1]
      exact hsnd
    have hdecE := decode_assemble_grid hdl5 hdn5 hdok hnok hfst' hsnd' hg1
      hcr.symm hrok hcok
    have hDfull : interleave (charsOfDigits dl) (charsOfDigits dn) ++
        gridChars rows cols = D := by
      rw [← hDi, ← hGi]
      exact List.take_append_drop 10 D
    rw [hDfull, ← hc] at hdecE
    have harea := Except.ok.inj (hdec.symm.trans hdecE)
    have hP0 := pairSeqValue_nonneg hdok 0 (by omega)
    have hN0 := pairSeqValue_nonneg hnok 0 (by omega)
    have hPle := pairSeqValue_le_of_first hdok (by omega) (by omega)
      (show dl.getD 0 0 ≤ 8 from by omega)
    have hNle := pairSeqValue_le_of_first hnok (by omega) (by omega)
      (show dn.getD 0 0 ≤ 17 from by omega)
    rw [hdl5] at hPle
    rw [hdn5] at hNle
    norm_num at hPle hNle
    rw [PR_four_eq] at hPle hNle
    have hGSD : (0 : ℚ) < GRID_SIZE_DEGREES := by norm_num [GRID_SIZE_DEGREES]
    have hGSDv : GRID_SIZE_DEGREES = (1 : ℚ) / 8000 := by
      norm_num [GRID_SIZE_DEGREES]
    have hG5i : ((GRID_ROWS : ℕ) : ℤ) = 5 := rfl
    have hG4i : ((GRID_COLUMNS : ℕ) : ℤ) = 4 := rfl
    have hg0 : 0 ≤ gridSeqValue GRID_ROWS rows GRID_SIZE_DEGREES :=
      gridSeqValue_nonneg (by norm_num [GRID_ROWS]) (fun e he => (hrok e he).1)
        (le_of_lt hGSD)
    have hgn0 : 0 ≤ gridSeqValue GRID_COLUMNS cols GRID_SIZE_DEGREES :=
      gridSeqValue_nonneg (by norm_num [GRID_COLUMNS]) (fun e he => (hcok e he).1)
        (le_of_lt hGSD)
    have hgle := gridSeqValue_le (show 0 < GRID_ROWS by norm_num [GRID_ROWS])
      (fun e he => ⟨(hrok e he).1, by rw [hG5i]; exact (hrok e he).2⟩) hGSD
    have hgnle := gridSeqValue_le (show 0 < GRID_COLUMNS by norm_num [GRID_COLUMNS])
      (fun e he => ⟨(hcok e he).1, by rw [hG4i]; exact (hcok e he).2⟩) hGSD
    rw [hcr] at hgnle
    have hcellpos : (0 : ℚ) < GRID_SIZE_DEGREES / (GRID_ROWS : ℚ) ^ rows.length :=
      div_pos hGSD (pow_pos (by norm_num [GRID_ROWS]) _)
    have hcellpos4 : (0 : ℚ) < GRID_SIZE_DEGREES / (GRID_COLUMNS : ℚ) ^ rows.length :=
      div_pos hGSD (pow_pos (by norm_num [GRID_COLUMNS]) _)
    have hone5 : (1 : ℚ) ≤ (GRID_ROWS : ℚ) ^ rows.length :=
      one_le_pow₀ (by norm_num [GRID_ROWS])
    have hone4 : (1 : ℚ) ≤ (GRID_COLUMNS : ℚ) ^ rows.length :=
      one_le_pow₀ (by norm_num [GRID_COLUMNS])
    have hcellle : GRID_SIZE_DEGREES / (GRID_ROWS : ℚ) ^ rows.length ≤
        GRID_SIZE_DEGREES := div_le_self (le_of_lt hGSD) hone5
    have hcellle4 : GRID_SIZE_DEGREES / (GRID_COLUMNS : ℚ) ^ rows.length ≤
        GRID_SIZE_DEGREES := div_le_self (le_of_lt hGSD) hone4
    have hcellLat : area.latitudeHi - area.latitudeLo =
        GRID_SIZE_DEGREES / (GRID_ROWS : ℚ) ^ rows.length := by
      rw [harea]
      simp only [CodeArea.init]
      ring
    have hcellLng : area.longitudeHi - area.longitudeLo =
        GRID_SIZE_DEGREES / (GRID_COLUMNS : ℚ) ^ rows.length := by
      rw [harea]
      simp only [CodeArea.init]
      ring
    rw [hcellLat] at hlatclose
    rw [hcellLng] at hlngclose
    have hcl : area.codeLength = 10 + rows.length := by
      rw [harea]
      rfl
    have hlen6 : ¬(area.codeLength < MIN_TRIMMABLE_CODE_LEN) := by
      rw [hcl, hMIN]
      omega
    have hsplitl := pairSeqValue_split dl 0 4
    have hsplitn := pairSeqValue_split dn 0 4
    rw [show (0 : ℕ) + 4 = 4 from rfl] at hsplitl hsplitn
    have hdokd : digitsOK (dl.drop 4) := fun d hd => hdok d (List.drop_subset _ _ hd)
    have hnokd : digitsOK (dn.drop 4) := fun d hd => hnok d (List.drop_subset _ _ hd)
    have htlat := pairSeqValue_tail_le hdokd 3 (by rw [List.length_drop]; omega)
    have htlng := pairSeqValue_tail_le hnokd 3 (by rw [List.length_drop]; omega)
    rw [show (3 : ℕ) + 1 = 4 from rfl] at htlat htlng
    rw [show (3 : ℕ) + (dl.drop 4).length = 4 from by
      rw [List.length_drop]; omega] at htlat
    rw [show (3 : ℕ) + (dn.drop 4).length = 4 from by
      rw [List.length_drop]; omega] at htlng
    have hd0 := pairSeqValue_nonneg hdokd 4 (by rw [List.length_drop]; omega)
    have hn0 := pairSeqValue_nonneg hnokd 4 (by rw [List.length_drop]; omega)
    have hPR3 : (0 : ℚ) < PR 3 := PR_pos (by omega)
    have hPR4G : PR 4 = GRID_SIZE_DEGREES := PR_four_eq
    have hIlen10 : (interleave (charsOfDigits dl) (charsOfDigits dn)).length = 10 := by
      rw [← hDi, htklen]
    have hr1 : max |area.latitudeCenter - clipLatitude refLat|
        |area.longitudeCenter - normalizeLongitude refLng| <
        PAIR_RESOLUTIONS.getD 3 0 * 0.3 := by
      rw [PR_def]
      apply max_lt
      · refine lt_of_lt_of_le hlatclose ?_
        rw [show PR 3 = (1 : ℚ) / 400 from by norm_num [PR, PAIR_RESOLUTIONS]]
        linarith [hcellle, hGSDv]
      · refine lt_of_lt_of_le hlngclose ?_
        rw [show PR 3 = (1 : ℚ) / 400 from by norm_num [PR, PAIR_RESOLUTIONS]]
        linarith [hcellle4, hGSDv]
    rw [shorten_eval hful hnopad hmap hdec hlen6, if_pos hr1]
    refine ⟨c.drop 8, rfl, ?_⟩
    exact recoverNearest_drop_core (j := 4) hc hD8 h9 hmem hup (Or.inr rfl)
      (by omega) (by omega) hlend hdok hnok hfst' hsnd'
      (show D.take (2 * 4) = interleave (charsOfDigits (dl.take 4))
          (charsOfDigits (dn.take 4)) from by
        rw [← hDfull, List.take_append_of_le_length (by rw [hIlen10]; omega)]
        exact interleave_take (j := 4) hlend (by omega))
      hdec
      (show area.latitudeLo = pairSeqValue (dl.take 4) 0 +
          (pairSeqValue (dl.drop 4) 4 +
            gridSeqValue GRID_ROWS rows GRID_SIZE_DEGREES) - 90 from by
        rw [harea]
        simp only [CodeArea.init]
        rw [hLM, hsplitl]
        ring)
      (add_nonneg hd0 hg0)
      (show pairSeqValue (dl.drop 4) 4 +
          gridSeqValue GRID_ROWS rows GRID_SIZE_DEGREES +
          GRID_SIZE_DEGREES / (GRID_ROWS : ℚ) ^ rows.length ≤ PR 3 from by
        linarith [htlat, hgle, hPR4G])
      hcellpos
      (show area.latitudeCenter = area.latitudeLo +
          GRID_SIZE_DEGREES / (GRID_ROWS : ℚ) ^ rows.length / 2 from by
        rw [harea]
        simp only [CodeArea.init]
        rw [min_eq_left (by rw [hLM]; linarith)]
        ring)
      hlatclose
      (show area.longitudeLo = pairSeqValue (dn.take 4) 0 +
          (pairSeqValue (dn.drop 4) 4 +
            gridSeqValue GRID_COLUMNS cols GRID_SIZE_DEGREES) - 180 from by
        rw [harea]
        simp only [CodeArea.init]
        rw [hLN, hsplitn]
        ring)
      (add_nonneg hn0 hgn0)
      (show pairSeqValue (dn.drop 4) 4 +
          gridSeqValue GRID_COLUMNS cols GRID_SIZE_DEGREES +
          GRID_SIZE_DEGREES / (GRID_COLUMNS : ℚ) ^ rows.length ≤ PR 3 from by
        linarith [htlng, hgnle, hPR4G])
      hcellpos4
      (show area.longitudeCenter = area.longitudeLo +
          GRID_SIZE_DEGREES / (GRID_COLUMNS : ℚ) ^ rows.length / 2 from by
        rw [harea]
        simp only [CodeArea.init]
        rw [min_eq_left (by rw [hLN]; linarith)]
        ring)
      hlngclose
      hreenc0

/-! ### Helpers for the claim theorems -/

/-- Boolean form of the padding-adjacency condition: every padding character
is immediately followed by another padding character or by the separator. -/
def paddingAdjacent (code : List Char) : Bool :=
  (List.range code.length).all fun i =>
    !(code.getD i ' ' == PADDING_CHARACTER) ||
    (code.getD (i + 1) ' ' == PADDING_CHARACTER) ||
    (code.getD (i + 1) ' ' == SEPARATOR)

lemma paddingAdjacent_spec {code : List Char} (h : paddingAdjacent code = true) :
    ∀ i : ℕ, code.getD i ' ' = PADDING_CHARACTER →
      code.getD (i + 1) ' ' = PADDING_CHARACTER ∨ code.getD (i + 1) ' ' = SEPARATOR := by
  intro i hp
  by_cases hi : i < code.length
  · have hall := List.all_eq_true.mp h i (List.mem_range.mpr hi)
    simp only [Bool.or_eq_true, Bool.not_eq_true', beq_iff_eq,
      beq_eq_false_iff_ne] at hall
    exact hall.elim (fun h12 => h12.elim (fun h1 => absurd hp h1) Or.inl) Or.inr
  · rw [List.getD_eq_default _ _ (by omega)] at hp
    exact absurd hp (by decide)

/-- Sufficient condition for `isFull`, with the first-digit checks phrased
over the integers so that they can be decided on concrete codes. -/
lemma isFull_true_of (code : List Char) (hv : isValid code = true)
    (hs : isShort code = false)
    (h1 : jsAlphaIndex (code.headD ' ').toUpper < 9)
    (h2 : 1 < code.length → jsAlphaIndex (code.getD 1 ' ').toUpper < 18) :
    isFull code = true := by
  have hE : (ENCODING_BASE : ℤ) = 20 := rfl
  simp only [isFull, hv, hs, Bool.not_true, Bool.false_eq_true, if_false]
  have hlat : ¬(((jsAlphaIndex (code.headD ' ').toUpper * (ENCODING_BASE : ℤ) : ℤ) : ℚ) ≥
      LATITUDE_MAX * 2) := by
    have h180 : LATITUDE_MAX * 2 = ((180 : ℤ) : ℚ) := by norm_num [LATITUDE_MAX]
    rw [h180, ge_iff_le, Int.cast_le, not_le, hE]
    omega
  rw [if_neg hlat]
  by_cases hlen : code.length > 1
  · have hlng : ¬(((jsAlphaIndex (code.getD 1 ' ').toUpper * (ENCODING_BASE : ℤ) : ℤ) : ℚ) ≥
        LONGITUDE_MAX * 2) := by
      have h360 : LONGITUDE_MAX * 2 = ((360 : ℤ) : ℚ) := by norm_num [LONGITUDE_MAX]
      rw [h360, ge_iff_le, Int.cast_le, not_le, hE]
      have := h2 hlen
      omega
    rw [if_pos hlen, if_neg hlng]
  · rw [if_neg hlen]

/-- Variant of the shorten evaluation for inputs that are not necessarily
upper-case: the result is expressed through the upper-cased code. -/
lemma shorten_eval_up {c : List Char} {refLat refLng : ℚ} {area : CodeArea}
    (hful : isFull c = true) (hnopad : PADDING_CHARACTER ∉ c)
    (hdec : decode (c.map Char.toUpper) = .ok area)
    (hlen6 : ¬(area.codeLength < MIN_TRIMMABLE_CODE_LEN)) :
    shorten c refLat refLng =
      (if max |area.latitudeCenter - clipLatitude refLat|
          |area.longitudeCenter - normalizeLongitude refLng| <
          PAIR_RESOLUTIONS.getD 3 0 * 0.3 then .ok ((c.map Char.toUpper).drop 8)
       else if max |area.latitudeCenter - clipLatitude refLat|
          |area.longitudeCenter - normalizeLongitude refLng| <
          PAIR_RESOLUTIONS.getD 2 0 * 0.3 then .ok ((c.map Char.toUpper).drop 6)
       else if max |area.latitudeCenter - clipLatitude refLat|
          |area.longitudeCenter - normalizeLongitude refLng| <
          PAIR_RESOLUTIONS.getD 1 0 * 0.3 then .ok ((c.map Char.toUpper).drop 4)
       else .ok (c.map Char.toUpper)) := by
  simp only [shorten, hful, Bool.not_true, Bool.false_eq_true, if_false]
  rw [if_neg (fun hcon => hcon (jsIndexOf_eq_neg_one.mpr hnopad))]
  rw [hdec]
  simp only []
  rw [if_neg hlen6]

/-- Every character of an assembled code is upper-case fixed. -/
lemma assembleCode_upper {D : List Char} (hmem : ∀ ch ∈ D, ch ∈ CODE_ALPHABET) :
    ∀ ch ∈ assembleCode D, ch.toUpper = ch := by
  intro ch hch
  rw [assembleCode] at hch
  rcases List.mem_append.mp hch with hh | hh
  · rcases List.mem_append.mp hh with h1 | h1
    · exact alphabet_toUpper_fixed (hmem ch (List.take_subset _ _ h1))
    · rw [List.eq_of_mem_replicate h1]
      decide
  · rcases List.mem_cons.mp hh with h1 | h1
    · rw [h1]
      decide
    · exact alphabet_toUpper_fixed (hmem ch (List.drop_subset _ _ h1))

/-- Every successful encoder output is already upper-case. -/
lemma encode_upper {lat lng : ℚ} {len : ℕ} {c : List Char}
    (h : encode lat lng len = .ok c) : c.map Char.toUpper = c := by
  by_cases hok : len < 2 ∨ (len < SEPARATOR_POSITION ∧ len % 2 = 1)
  · simp only [encode] at h
    rw [if_pos hok] at h
    exact Except.noConfusion h
  · obtain ⟨D, area, henc, h2, hmem, -, -, -, -, -, -, -, -, -⟩ :=
      @encode_spec lat lng len hok
    have hc : assembleCode D = c := Except.ok.inj (henc.symm.trans h)
    rw [← hc]
    exact map_toUpper_canonical (assembleCode_upper hmem)

/-- Characters of a valid code upper-case to upper-case-fixed characters. -/
lemma upper_of_valid {code : List Char} (hv : isValid code = true) :
    ∀ ch ∈ code, ch.toUpper.toUpper = ch.toUpper := by
  obtain ⟨-, -, -, -, -, -, hall⟩ := isValid_conditions hv
  intro ch hch
  rcases mem_stripFirstRun_or (c := SEPARATOR) hch with h1 | h1
  · rcases mem_stripFirstRun_or (c := PADDING_CHARACTER) h1 with h2 | h2
    · have hp := List.all_eq_true.mp hall ch h2
      simp only [Bool.or_eq_true, beq_iff_eq] at hp
      rcases hp with hh | hh
      · rw [hh]
        decide
      · have hmem : ch.toUpper ∈ CODE_ALPHABET := by simpa using hh
        exact alphabet_toUpper_fixed hmem
    · rw [h2]
      decide
  · rw [h1]
    decide

/-- Upper-casing a valid code is idempotent. -/
lemma map_upper_idem {code : List Char} (hv : isValid code = true) :
    (code.map Char.toUpper).map Char.toUpper = code.map Char.toUpper := by
  rw [List.map_map]
  apply List.map_congr_left
  intro a ha
  simp only [Function.comp_apply]
  exact upper_of_valid hv a ha

/-- Two full codes with the same stripped content decode identically. -/
lemma decode_congr {c1 c2 : List Char} (h1 : isFull c1 = true)
    (h2 : isFull c2 = true)
    (hs : (stripFirstRun PADDING_CHARACTER (removeFirstOcc SEPARATOR c1)).map
        Char.toUpper =
      (stripFirstRun PADDING_CHARACTER (removeFirstOcc SEPARATOR c2)).map
        Char.toUpper) :
    decode c1 = decode c2 := by
  rw [decode_eq_of_isFull h1, decode_eq_of_isFull h2, hs]

/-- Concrete decode value for the canonical ten-digit code "8FVC2222+22". -/
lemma decode_8FVC : decode ("8FVC2222+22".toList) =
    .ok (CodeArea.init 47 8 (47 + 1 / 8000) (8 + 1 / 8000) 10) := by
  rw [show ("8FVC2222+22".toList) = assembleCode (interleave
    (charsOfDigits [(6 : ℤ), 17, 0, 0, 0]) (charsOfDigits [(9 : ℤ), 8, 0, 0, 0]))
    from by decide]
  rw [@decode_assemble_pair [(6 : ℤ), 17, 0, 0, 0] [(9 : ℤ), 8, 0, 0, 0]
    (by decide) (by decide) (by decide) (by simp only [digitsOK]; decide)
    (by simp only [digitsOK]; decide) (by decide) (by decide)]
  exact congrArg Except.ok (by
    norm_num [CodeArea.init, pairSeqValue, PR, PAIR_RESOLUTIONS,
      LATITUDE_MAX, LONGITUDE_MAX])

/-- The lower-case spelling decodes to the same area. -/
lemma decode_8fvc_lower : decode ("8fvc2222+22".toList) =
    .ok (CodeArea.init 47 8 (47 + 1 / 8000) (8 + 1 / 8000) 10) := by
  rw [@decode_congr ("8fvc2222+22".toList) ("8FVC2222+22".toList)
    (isFull_true_of _ (by decide) (by decide) (by decide) (by decide))
    (isFull_true_of _ (by decide) (by decide) (by decide) (by decide)) (by decide)]
  exact decode_8FVC

/-- Concrete decode value for the canonical six-digit padded code
"22445500+". -/
lemma decode_22445500 : decode ("22445500+".toList) =
    .ok (CodeArea.init (-87.85 : ℚ) (-177.85) (-87.8) (-177.8) 6) := by
  rw [show ("22445500+".toList) = assembleCode (interleave
    (charsOfDigits [(0 : ℤ), 2, 3]) (charsOfDigits [(0 : ℤ), 2, 3]))
    from by decide]
  rw [@decode_assemble_pair [(0 : ℤ), 2, 3] [(0 : ℤ), 2, 3]
    (by decide) (by decide) (by decide) (by simp only [digitsOK]; decide)
    (by simp only [digitsOK]; decide) (by decide) (by decide)]
  exact congrArg Except.ok (by
    norm_num [CodeArea.init, pairSeqValue, PR, PAIR_RESOLUTIONS,
      LATITUDE_MAX, LONGITUDE_MAX])

/-- Decode value for "22004455+": the interior padding is stripped, so the
code decodes exactly like "22445500+". -/
lemma decode_22004455 : decode ("22004455+".toList) =
    .ok (CodeArea.init (-87.85 : ℚ) (-177.85) (-87.8) (-177.8) 6) := by
  rw [@decode_congr ("22004455+".toList) ("22445500+".toList)
    (isFull_true_of _ (by decide) (by decide) (by decide) (by decide))
    (isFull_true_of _ (by decide) (by decide) (by decide) (by decide)) (by decide)]
  exact decode_22445500

/-- Re-encoding the centre of the decoded area of "22004455+" at its code
length yields the canonical spelling "22445500+". -/
lemma encode_center_22 : encode (-87.825 : ℚ) (-177.825 : ℚ) 6 =
    .ok ("22445500+".toList) := by
  have h := @encode_digits_pairs [(0 : ℤ), 2, 3] [(0 : ℤ), 2, 3]
    (-87.825) (-177.825) (PR 2 / 2) (PR 2 / 2) (by decide) (by decide) (by decide)
    (by simp only [digitsOK]; decide) (by simp only [digitsOK]; decide)
    (by decide) (by decide)
    (by norm_num [PR, PAIR_RESOLUTIONS]) (by norm_num [PR, PAIR_RESOLUTIONS])
    (by norm_num [PR, PAIR_RESOLUTIONS]) (by norm_num [PR, PAIR_RESOLUTIONS])
    (by norm_num [pairSeqValue, PR, PAIR_RESOLUTIONS, LATITUDE_MAX])
    (by norm_num [pairSeqValue, PR, PAIR_RESOLUTIONS, LONGITUDE_MAX])
  rw [show ("22445500+".toList) = assembleCode (interleave
    (charsOfDigits [(0 : ℤ), 2, 3]) (charsOfDigits [(0 : ℤ), 2, 3])) from by decide]
  exact h

/-- The latitude centre of the decoded area of "8FVC2222+22". -/
lemma center_8FVC_lat :
    (CodeArea.init 47 8 (47 + 1 / 8000) (8 + 1 / 8000) 10).latitudeCenter =
      47 + 1 / 16000 := by
  simp only [CodeArea.init]
  rw [min_eq_left (by norm_num [LATITUDE_MAX])]
  norm_num

/-- The longitude centre of the decoded area of "8FVC2222+22". -/
lemma center_8FVC_lng :
    (CodeArea.init 47 8 (47 + 1 / 8000) (8 + 1 / 8000) 10).longitudeCenter =
      8 + 1 / 16000 := by
  simp only [CodeArea.init]
  rw [min_eq_left (by norm_num [LONGITUDE_MAX])]
  norm_num

/-- At the exact centre of "8FVC2222+22" the shorten range is below any
positive bound. -/
lemma range_8FVC_lt {b : ℚ} (hb : 0 < b) :
    max |(CodeArea.init 47 8 (47 + 1 / 8000) (8 + 1 / 8000) 10).latitudeCenter -
        clipLatitude (752001 / 16000)|
      |(CodeArea.init 47 8 (47 + 1 / 8000) (8 + 1 / 8000) 10).longitudeCenter -
        normalizeLongitude (128001 / 16000)| < b := by
  rw [clipLatitude_eq_self (by norm_num) (by norm_num),
    normalizeLongitude_eq_self (by norm_num) (by norm_num),
    center_8FVC_lat, center_8FVC_lng]
  rw [show (47 : ℚ) + 1 / 16000 - 752001 / 16000 = 0 from by norm_num,
    show (8 : ℚ) + 1 / 16000 - 128001 / 16000 = 0 from by norm_num]
  simpa using hb

/-- Shortening "8FVC2222+22" at its own centre drops eight characters. -/
lemma shorten_8FVC : shorten ("8FVC2222+22".toList)
    (752001 / 16000 : ℚ) (128001 / 16000 : ℚ) = .ok ("+22".toList) := by
  rw [shorten_eval (isFull_true_of _ (by decide) (by decide) (by decide) (by decide))
    (by decide) (by decide) decode_8FVC (by decide)]
  rw [if_pos (range_8FVC_lt (by norm_num [PAIR_RESOLUTIONS]))]
  rfl

/-- The lower-case spelling shortens to the same (upper-case) short code. -/
lemma shorten_8fvc_lower : shorten ("8fvc2222+22".toList)
    (752001 / 16000 : ℚ) (128001 / 16000 : ℚ) = .ok ("+22".toList) := by
  rw [shorten_eval_up (isFull_true_of _ (by decide) (by decide) (by decide) (by decide))
    (by decide)
    (show decode (("8fvc2222+22".toList).map Char.toUpper) =
      .ok (CodeArea.init 47 8 (47 + 1 / 8000) (8 + 1 / 8000) 10) from by
      rw [show ("8fvc2222+22".toList).map Char.toUpper = "8FVC2222+22".toList
        from by decide]
      exact decode_8FVC) (by decide)]
  rw [if_pos (range_8FVC_lt (by norm_num [PAIR_RESOLUTIONS]))]
  rfl

/-- The latitude closeness bound at the centre of "8FVC2222+22". -/
lemma half_cell_8FVC_lat :
    |(CodeArea.init 47 8 (47 + 1 / 8000) (8 + 1 / 8000) 10).latitudeCenter -
      clipLatitude (752001 / 16000)| <
    ((CodeArea.init 47 8 (47 + 1 / 8000) (8 + 1 / 8000) 10).latitudeHi -
      (CodeArea.init 47 8 (47 + 1 / 8000) (8 + 1 / 8000) 10).latitudeLo) / 2 := by
  rw [clipLatitude_eq_self (by norm_num) (by norm_num), center_8FVC_lat]
  simp only [CodeArea.init]
  rw [show (47 : ℚ) + 1 / 16000 - 752001 / 16000 = 0 from by norm_num]
  norm_num

/-- The longitude closeness bound at the centre of "8FVC2222+22". -/
lemma half_cell_8FVC_lng :
    |(CodeArea.init 47 8 (47 + 1 / 8000) (8 + 1 / 8000) 10).longitudeCenter -
      normalizeLongitude (128001 / 16000)| <
    ((CodeArea.init 47 8 (47 + 1 / 8000) (8 + 1 / 8000) 10).longitudeHi -
      (CodeArea.init 47 8 (47 + 1 / 8000) (8 + 1 / 8000) 10).longitudeLo) / 2 := by
  rw [normalizeLongitude_eq_self (by norm_num) (by norm_num), center_8FVC_lng]
  simp only [CodeArea.init]
  rw [show (8 : ℚ) + 1 / 16000 - 128001 / 16000 = 0 from by norm_num]
  norm_num

/-! ### The claim theorems -/

/-- Claim C1: for every code length in the claim's accepted set (even lengths
2 to 10, and any length of at least 11) and every latitude in [-90, 90] with
arbitrary longitude, decoding the encoding yields an area containing the
point (clipped latitude, normalized longitude), except that latitude 90 is
first shifted down by one latitude precision. -/
theorem C1_encode_decode_containment (lat lng : ℚ) (len : ℕ)
    (hlen : (len % 2 = 0 ∧ 2 ≤ len ∧ len ≤ 10) ∨ 11 ≤ len)
    (hlo : -90 ≤ lat) (hhi : lat ≤ 90) :
    ∃ (c : List Char) (area : CodeArea),
      encode lat lng len = .ok c ∧ decode c = .ok area ∧
      area.latitudeLo ≤
        (if lat = 90 then 90 - computeLatitudePrecision len else lat) ∧
      (if lat = 90 then 90 - computeLatitudePrecision len else lat) <
        area.latitudeHi ∧
      area.longitudeLo ≤ normalizeLongitude lng ∧
      normalizeLongitude lng < area.longitudeHi := by
  have hok : ¬(len < 2 ∨ (len < SEPARATOR_POSITION ∧ len % 2 = 1)) := by
    have hsp : SEPARATOR_POSITION = 8 := rfl
    rw [hsp]
    omega
  obtain ⟨D, area, henc, -, -, -, -, -, hdec, hlo1, hhi1, -, hng1, hng2⟩ :=
    @encode_spec lat lng len hok
  rw [clipLatitude_eq_self hlo hhi] at hlo1 hhi1
  have hiff : (if lat = 90 then (90 : ℚ) - computeLatitudePrecision len else lat) =
      (if lat = 90 then lat - computeLatitudePrecision len else lat) := by
    by_cases h90 : lat = 90
    · rw [if_pos h90, if_pos h90, h90]
    · rw [if_neg h90, if_neg h90]
  rw [hiff]
  exact ⟨assembleCode D, area, henc, hdec, hlo1, hhi1, hng1, hng2⟩

theorem C1_encode_decode_containment_witness :
    ∃ (c : List Char) (area : CodeArea),
      encode 0 0 2 = .ok c ∧ decode c = .ok area ∧
      area.latitudeLo ≤
        (if (0 : ℚ) = 90 then 90 - computeLatitudePrecision 2 else 0) ∧
      (if (0 : ℚ) = 90 then 90 - computeLatitudePrecision 2 else 0) <
        area.latitudeHi ∧
      area.longitudeLo ≤ normalizeLongitude 0 ∧
      normalizeLongitude 0 < area.longitudeHi :=
  C1_encode_decode_containment 0 0 2 (Or.inl (by norm_num)) (by norm_num) (by norm_num)

/-- Claim C2 counterexample: "22004455+" is a full code, but re-encoding its
decoded centre at the decoded length yields "22445500+", not the original. -/
theorem C2_roundtrip_counterexample :
    isFull ("22004455+".toList) = true ∧
    ∃ area : CodeArea, decode ("22004455+".toList) = .ok area ∧
      encode area.latitudeCenter area.longitudeCenter area.codeLength ≠
        .ok ("22004455+".toList) := by
  refine ⟨isFull_true_of _ (by decide) (by decide) (by decide) (by decide),
    _, decode_22004455, ?_⟩
  rw [show (CodeArea.init (-87.85 : ℚ) (-177.85) (-87.8) (-177.8) 6).latitudeCenter
      = (-87.825 : ℚ) from by
    simp only [CodeArea.init]
    rw [min_eq_left (by norm_num [LATITUDE_MAX])]
    norm_num]
  rw [show (CodeArea.init (-87.85 : ℚ) (-177.85) (-87.8) (-177.8) 6).longitudeCenter
      = (-177.825 : ℚ) from by
    simp only [CodeArea.init]
    rw [min_eq_left (by norm_num [LONGITUDE_MAX])]
    norm_num]
  rw [show (CodeArea.init (-87.85 : ℚ) (-177.85) (-87.8) (-177.8) 6).codeLength
      = 6 from rfl]
  rw [encode_center_22]
  intro hcon
  exact absurd (Except.ok.inj hcon) (by decide)

/-- Claim C2 (amended): the decode-encode round trip reproduces the code for
canonical inputs: full, upper-case, and with every padding character followed
by padding or by the separator (so the padding is a run just before the
separator). -/
theorem C2_roundtrip_canonical {c : List Char} (hful : isFull c = true)
    (hup : ∀ ch ∈ c, ch.toUpper = ch)
    (hpad : paddingAdjacent c = true) :
    ∃ area : CodeArea, decode c = .ok area ∧
      encode area.latitudeCenter area.longitudeCenter area.codeLength = .ok c :=
  decode_encode_roundtrip hful hup (paddingAdjacent_spec hpad)

theorem C2_roundtrip_canonical_witness :
    ∃ area : CodeArea, decode ("7FG49Q00+".toList) = .ok area ∧
      encode area.latitudeCenter area.longitudeCenter area.codeLength =
        .ok ("7FG49Q00+".toList) :=
  C2_roundtrip_canonical
    (isFull_true_of _ (by decide) (by decide) (by decide) (by decide))
    (by decide) (by decide)

/-- Claim C3 counterexample: the lower-case full code "8fvc2222+22" meets all
of the claim's hypotheses, yet recovering its shortened form returns the
upper-case spelling, not the original code. -/
theorem C3_shorten_recover_counterexample :
    isFull ("8fvc2222+22".toList) = true ∧
    PADDING_CHARACTER ∉ ("8fvc2222+22".toList) ∧
    (∃ area : CodeArea, decode ("8fvc2222+22".toList) = .ok area ∧
      MIN_TRIMMABLE_CODE_LEN ≤ area.codeLength ∧
      |area.latitudeCenter - clipLatitude (752001 / 16000)| <
        (area.latitudeHi - area.latitudeLo) / 2 ∧
      |area.longitudeCenter - normalizeLongitude (128001 / 16000)| <
        (area.longitudeHi - area.longitudeLo) / 2) ∧
    ∃ s : List Char,
      shorten ("8fvc2222+22".toList) (752001 / 16000) (128001 / 16000) = .ok s ∧
      recoverNearest s (752001 / 16000) (128001 / 16000) ≠
        .ok ("8fvc2222+22".toList) := by
  refine ⟨isFull_true_of _ (by decide) (by decide) (by decide) (by decide),
    by decide,
    ⟨_, decode_8fvc_lower, by decide, half_cell_8FVC_lat, half_cell_8FVC_lng⟩, ?_⟩
  obtain ⟨s, hs, hr⟩ := shorten_recover_spec (c := "8FVC2222+22".toList)
    (isFull_true_of _ (by decide) (by decide) (by decide) (by decide))
    (by decide) (by decide) decode_8FVC half_cell_8FVC_lat half_cell_8FVC_lng
  have hs8 : s = ("+22".toList) := Except.ok.inj (hs.symm.trans shorten_8FVC)
  refine ⟨"+22".toList, shorten_8fvc_lower, ?_⟩
  intro hcon
  rw [← hs8] at hcon
  exact absurd (Except.ok.inj (hr.symm.trans hcon)) (by decide)

/-- Claim C3 (amended): for canonical (upper-case) full codes with no padding
and a reference within half a cell of the decoded centre on both axes,
recovering the shortened code returns the original exactly; for other cases
(such as lower-case input) the recovered code is the upper-cased spelling. -/
theorem C3_shorten_recover_canonical {c : List Char} {refLat refLng : ℚ}
    {area : CodeArea}
    (hful : isFull c = true) (hup : ∀ ch ∈ c, ch.toUpper = ch)
    (hnopad : PADDING_CHARACTER ∉ c)
    (hdec : decode c = .ok area)
    (hlen6 : ¬(area.codeLength < MIN_TRIMMABLE_CODE_LEN))
    (hlat : |area.latitudeCenter - clipLatitude refLat| <
      (area.latitudeHi - area.latitudeLo) / 2)
    (hlng : |area.longitudeCenter - normalizeLongitude refLng| <
      (area.longitudeHi - area.longitudeLo) / 2) :
    ∃ s : List Char, shorten c refLat refLng = .ok s ∧
      recoverNearest s refLat refLng = .ok c :=
  shorten_recover_spec hful hup hnopad hdec hlat hlng

theorem C3_shorten_recover_canonical_witness :
    ∃ s : List Char, shorten ("8FVC2222+22".toList)
        (752001 / 16000) (128001 / 16000) = .ok s ∧
      recoverNearest s (752001 / 16000) (128001 / 16000) =
        .ok ("8FVC2222+22".toList) :=
  C3_shorten_recover_canonical
    (isFull_true_of _ (by decide) (by decide) (by decide) (by decide))
    (by decide) (by decide) decode_8FVC (by decide)
    half_cell_8FVC_lat half_cell_8FVC_lng

/-- Claim C4 counterexample: length 9 is accepted by encode, contradicting
the claim that every odd length below 10 is rejected. -/
theorem C4_length_counterexample : ∃ c : List Char, encode 0 0 9 = .ok c := by
  obtain ⟨D, area, henc, -⟩ := @encode_spec 0 0 9 (by decide)
  exact ⟨assembleCode D, henc⟩

/-- Claim C4 (amended): encode fails exactly when the length is below 2 or is
odd and below 8 (the separator position); odd lengths 9 and above succeed. -/
theorem C4_encode_length_guard (lat lng : ℚ) (len : ℕ) :
    (∃ c : List Char, encode lat lng len = .ok c) ↔
      ¬(len < 2 ∨ (len < SEPARATOR_POSITION ∧ len % 2 = 1)) := by
  constructor
  · rintro ⟨c, hc⟩
    intro hbad
    simp only [encode] at hc
    rw [if_pos hbad] at hc
    exact Except.noConfusion hc
  · intro hok
    obtain ⟨D, area, henc, -⟩ := @encode_spec lat lng len hok
    exact ⟨assembleCode D, henc⟩

/-- Claim C5 counterexample: at a reference at the exact centre the range is
below PAIR_RESOLUTIONS[4] * 0.3, yet shorten drops 8 = 2*(3+1) characters,
not the 2*(4+1) = 10 that a loop starting at i = 4 would remove. -/
theorem C5_shorten_loop_counterexample :
    (∃ area : CodeArea, decode ("8FVC2222+22".toList) = .ok area ∧
      max |area.latitudeCenter - clipLatitude (752001 / 16000)|
        |area.longitudeCenter - normalizeLongitude (128001 / 16000)| <
        PAIR_RESOLUTIONS.getD 4 0 * 0.3) ∧
    shorten ("8FVC2222+22".toList) (752001 / 16000) (128001 / 16000) =
      .ok (("8FVC2222+22".toList).drop (2 * (3 + 1))) ∧
    shorten ("8FVC2222+22".toList) (752001 / 16000) (128001 / 16000) ≠
      .ok (("8FVC2222+22".toList).drop (2 * (4 + 1))) := by
  refine ⟨⟨_, decode_8FVC, range_8FVC_lt (by norm_num [PAIR_RESOLUTIONS])⟩, ?_, ?_⟩
  · rw [shorten_8FVC]
    rfl
  · rw [shorten_8FVC]
    intro hcon
    exact absurd (Except.ok.inj hcon) (by decide)

/-- Claim C5 (amended): the shorten loop runs i = 3, 2, 1 (not 4 down to 1):
at the first i with range < PAIR_RESOLUTIONS[i] * 0.3 the first 2*(i+1)
characters are removed, so 8, 6, or 4 of them (never 2 or 10), and the code
is returned unchanged otherwise. -/
theorem C5_shorten_trim {code : List Char} {lat lng : ℚ} {area : CodeArea}
    (hful : isFull code = true) (hnopad : PADDING_CHARACTER ∉ code)
    (hup : code.map Char.toUpper = code)
    (hdec : decode code = .ok area)
    (hlen : ¬(area.codeLength < MIN_TRIMMABLE_CODE_LEN)) :
    shorten code lat lng =
      (if max |area.latitudeCenter - clipLatitude lat|
          |area.longitudeCenter - normalizeLongitude lng| <
          PAIR_RESOLUTIONS.getD 3 0 * 0.3 then .ok (code.drop (2 * (3 + 1)))
       else if max |area.latitudeCenter - clipLatitude lat|
          |area.longitudeCenter - normalizeLongitude lng| <
          PAIR_RESOLUTIONS.getD 2 0 * 0.3 then .ok (code.drop (2 * (2 + 1)))
       else if max |area.latitudeCenter - clipLatitude lat|
          |area.longitudeCenter - normalizeLongitude lng| <
          PAIR_RESOLUTIONS.getD 1 0 * 0.3 then .ok (code.drop (2 * (1 + 1)))
       else .ok code) :=
  shorten_eval hful hnopad hup hdec hlen

theorem C5_shorten_trim_witness :
    shorten ("8FVC2222+22".toList) (752001 / 16000) (128001 / 16000) =
      (if max |(CodeArea.init 47 8 (47 + 1 / 8000) (8 + 1 / 8000)
            10).latitudeCenter - clipLatitude (752001 / 16000)|
          |(CodeArea.init 47 8 (47 + 1 / 8000) (8 + 1 / 8000)
            10).longitudeCenter - normalizeLongitude (128001 / 16000)| <
          PAIR_RESOLUTIONS.getD 3 0 * 0.3 then
        .ok (("8FVC2222+22".toList).drop (2 * (3 + 1)))
       else if max |(CodeArea.init 47 8 (47 + 1 / 8000) (8 + 1 / 8000)
            10).latitudeCenter - clipLatitude (752001 / 16000)|
          |(CodeArea.init 47 8 (47 + 1 / 8000) (8 + 1 / 8000)
            10).longitudeCenter - normalizeLongitude (128001 / 16000)| <
          PAIR_RESOLUTIONS.getD 2 0 * 0.3 then
        .ok (("8FVC2222+22".toList).drop (2 * (2 + 1)))
       else if max |(CodeArea.init 47 8 (47 + 1 / 8000) (8 + 1 / 8000)
            10).latitudeCenter - clipLatitude (752001 / 16000)|
          |(CodeArea.init 47 8 (47 + 1 / 8000) (8 + 1 / 8000)
            10).longitudeCenter - normalizeLongitude (128001 / 16000)| <
          PAIR_RESOLUTIONS.getD 1 0 * 0.3 then
        .ok (("8FVC2222+22".toList).drop (2 * (1 + 1)))
       else .ok ("8FVC2222+22".toList)) :=
  C5_shorten_trim
    (isFull_true_of _ (by decide) (by decide) (by decide) (by decide))
    (by decide) (by decide) decode_8FVC (by decide)

/-- Claim C6 counterexample: is_valid("00000000+") returns false, not true:
the validator rejects padding that starts at index 0. -/
theorem C6_padded_code_counterexample : isValid ("00000000+".toList) = false := by
  decide

/-- Claim C6 (amended): a code whose padding starts at index 0 is rejected by
is_valid, so the all-padding code "00000000+" is invalid, not valid. -/
theorem C6_padding_at_start_invalid {code : List Char}
    (h : jsIndexOf code PADDING_CHARACTER = 0) : isValid code = false := by
  simp only [isValid]
  split_ifs with h1 h2 h3 h4 h5 h6 <;> try rfl
  exact absurd ⟨by rw [h]; norm_num, Or.inl h⟩ h5

theorem C6_padding_at_start_invalid_witness :
    isValid ("00000000+".toList) = false :=
  C6_padding_at_start_invalid (by decide)

/-- Claim C7: encoding latitude 90 at any accepted length decodes to an area
with latitudeHi at most 90, because encode first shifts latitude 90 down by
the latitude precision, which is 20^⌊len/(-2) + 2⌋ for len ≤ 10 and
20^(-3)/GRID_ROWS^(len-10) for len > 10. -/
theorem C7_lat90_hi_bounded (lng : ℚ) (len : ℕ)
    (hlen : ¬(len < 2 ∨ (len < SEPARATOR_POSITION ∧ len % 2 = 1))) :
    (∃ (c : List Char) (area : CodeArea), encode 90 lng len = .ok c ∧
      decode c = .ok area ∧ area.latitudeHi ≤ 90) ∧
    (len ≤ 10 → computeLatitudePrecision len =
      (20 : ℚ) ^ ⌊(len : ℚ) / (-2) + 2⌋) ∧
    (10 < len → computeLatitudePrecision len =
      (20 : ℚ) ^ (-3 : ℤ) / (GRID_ROWS : ℚ) ^ (len - 10)) := by
  refine ⟨?_, ?_, ?_⟩
  · obtain ⟨D, area, henc, -, -, -, -, -, hdec, hlo1, -, hprec, -, -⟩ :=
      @encode_spec 90 lng len hlen
    have hclip : clipLatitude (90 : ℚ) = 90 :=
      clipLatitude_eq_self (by norm_num) le_rfl
    rw [hclip] at hlo1
    rw [if_pos rfl] at hlo1
    refine ⟨assembleCode D, area, henc, hdec, ?_⟩
    rw [hprec]
    linarith [hlo1]
  · intro h10
    simp only [computeLatitudePrecision]
    rw [if_pos h10]
  · intro h10
    simp only [computeLatitudePrecision]
    rw [if_neg (by omega)]

theorem C7_lat90_hi_bounded_witness :
    (∃ (c : List Char) (area : CodeArea), encode 90 0 2 = .ok c ∧
      decode c = .ok area ∧ area.latitudeHi ≤ 90) ∧
    ((2 : ℕ) ≤ 10 → computeLatitudePrecision 2 =
      (20 : ℚ) ^ ⌊((2 : ℕ) : ℚ) / (-2) + 2⌋) ∧
    (10 < (2 : ℕ) → computeLatitudePrecision 2 =
      (20 : ℚ) ^ (-3 : ℤ) / (GRID_ROWS : ℚ) ^ ((2 : ℕ) - 10)) :=
  C7_lat90_hi_bounded 0 2 (by decide)

/-- Claim C8: for every string, is_short and is_full are never both true, and
whenever either of them is true, is_valid is also true. -/
theorem C8_validator_partition (s : List Char) :
    (isShort s && isFull s) = false ∧
    ((isShort s || isFull s) && !isValid s) = false := by
  constructor
  · cases hf : isFull s with
    | true => rw [isFull_not_isShort hf, Bool.false_and]
    | false => rw [Bool.and_false]
  · cases hv : isValid s with
    | true => rw [Bool.not_true, Bool.and_false]
    | false =>
      have hs : isShort s = false := by
        cases hsb : isShort s with
        | false => rfl
        | true =>
          rw [isShort_isValid hsb] at hv
          exact Bool.noConfusion hv
      have hf : isFull s = false := by
        cases hfb : isFull s with
        | false => rfl
        | true =>
          rw [isFull_isValid hfb] at hv
          exact Bool.noConfusion hv
      rw [hs, hf]
      rfl

/-- Claim C9 counterexample: for the lower-case full (and not short) code
"8fvc2222+22", recover_nearest returns the input unchanged, which is not an
upper-case code. -/
theorem C9_case_counterexample :
    isFull ("8fvc2222+22".toList) = true ∧
    isShort ("8fvc2222+22".toList) = false ∧
    recoverNearest ("8fvc2222+22".toList) 0 0 = .ok ("8fvc2222+22".toList) ∧
    ("8fvc2222+22".toList).map Char.toUpper ≠ ("8fvc2222+22".toList) := by
  have hfull := isFull_true_of ("8fvc2222+22".toList)
    (by decide) (by decide) (by decide) (by decide)
  have hshort : isShort ("8fvc2222+22".toList) = false := by decide
  refine ⟨hfull, hshort, ?_, by decide⟩
  simp only [recoverNearest, hshort, Bool.not_false, if_true, hfull]

/-- Claim C9 (amended): encode and shorten outputs are upper-case, and
recover_nearest output on short inputs is upper-case; a full-code input,
however, is returned verbatim in its original case. -/
theorem C9_upper_outputs :
    (∀ (lat lng : ℚ) (len : ℕ) (c : List Char),
      encode lat lng len = .ok c → c.map Char.toUpper = c) ∧
    (∀ (code s : List Char) (lat lng : ℚ),
      shorten code lat lng = .ok s → s.map Char.toUpper = s) ∧
    (∀ (sc out : List Char) (lat lng : ℚ), isShort sc = true →
      recoverNearest sc lat lng = .ok out → out.map Char.toUpper = out) ∧
    (∀ (sc : List Char) (lat lng : ℚ), isShort sc = false → isFull sc = true →
      recoverNearest sc lat lng = .ok sc) := by
  refine ⟨fun lat lng len c h => encode_upper h, ?_, ?_, ?_⟩
  · intro code s lat lng hsh
    have hful : isFull code = true := by
      by_contra hnf
      rw [Bool.not_eq_true] at hnf
      simp only [shorten, hnf, Bool.not_false, if_true] at hsh
      exact Except.noConfusion hsh
    have hidem := map_upper_idem (isFull_isValid hful)
    simp only [shorten, hful, Bool.not_true, Bool.false_eq_true, if_false] at hsh
    by_cases hpad : jsIndexOf code PADDING_CHARACTER ≠ -1
    · rw [if_pos hpad] at hsh
      exact Except.noConfusion hsh
    · rw [if_neg hpad] at hsh
      cases hdec : decode (code.map Char.toUpper) with
      | error e =>
        rw [hdec] at hsh
        simp only [] at hsh
        exact Except.noConfusion hsh
      | ok a =>
        rw [hdec] at hsh
        simp only [] at hsh
        split_ifs at hsh
        · rw [← Except.ok.inj hsh, List.map_drop, hidem]
        · rw [← Except.ok.inj hsh, List.map_drop, hidem]
        · rw [← Except.ok.inj hsh, List.map_drop, hidem]
        · rw [← Except.ok.inj hsh, hidem]
  · intro sc out lat lng hshort hrec
    simp only [recoverNearest, hshort, Bool.not_true, Bool.false_eq_true,
      if_false] at hrec
    split at hrec
    · exact Except.noConfusion hrec
    · split at hrec
      · exact Except.noConfusion hrec
      · exact encode_upper hrec
  · intro sc lat lng hshort hfull
    simp only [recoverNearest, hshort, Bool.not_false, if_true, hfull]

/-- Claim C10: every successful encoder output is a valid full code that is
not short, has its single separator at index 8, has first digit below 9 and
second digit below 18, and decodes without a reference point. -/
theorem C10_encode_output_full (lat lng : ℚ) (len : ℕ)
    (hlen : ¬(len < 2 ∨ (len < SEPARATOR_POSITION ∧ len % 2 = 1))) :
    ∃ c : List Char, encode lat lng len = .ok c ∧
      isFull c = true ∧ isValid c = true ∧ isShort c = false ∧
      jsIndexOf c SEPARATOR = 8 ∧
      jsIndexOf c SEPARATOR = jsLastIndexOf c SEPARATOR ∧
      jsAlphaIndex (c.headD ' ').toUpper < 9 ∧
      (1 < c.length → jsAlphaIndex (c.getD 1 ' ').toUpper < 18) ∧
      ∃ area : CodeArea, decode c = .ok area := by
  obtain ⟨D, area, henc, h2, hmem, hv, hs, hf, hdec, -, -, -, -, -⟩ :=
    @encode_spec lat lng len hlen
  exact ⟨assembleCode D, henc, hf, hv, hs, assembleCode_sepIndex h2 hmem,
    (isValid_conditions hv).2.2.1, (isFull_conditions hf).2.1,
    (isFull_conditions hf).2.2, area, hdec⟩

theorem C10_encode_output_full_witness :
    ∃ c : List Char, encode 0 0 2 = .ok c ∧
      isFull c = true ∧ isValid c = true ∧ isShort c = false ∧
      jsIndexOf c SEPARATOR = 8 ∧
      jsIndexOf c SEPARATOR = jsLastIndexOf c SEPARATOR ∧
      jsAlphaIndex (c.headD ' ').toUpper < 9 ∧
      (1 < c.length → jsAlphaIndex (c.getD 1 ' ').toUpper < 18) ∧
      ∃ area : CodeArea, decode c = .ok area :=
  C10_encode_output_full 0 0 2 (by decide)

end OLC
